import Mathlib

/-! # LEC_2 crawler: a shallow embedding and its verification

The development follows `src/LEC_2/crawler.go`.

* Go `map[string]bool` is a function `String → Option Bool` (`none` = key absent);
  reading `m[k]` yields `false` on an absent key, as in Go.
* `fakeFetcher` (`map[string]*fakeResult`) is an association list read with
  `List.lookup`; the stored pointers are taken to be non-nil, as in every literal
  of the source.
* Recursion that Go runs on its call stack is embedded with an explicit fuel
  argument (the maximal recursion depth); totality is proved separately.
* The goroutines of `ConcurrentChannel` are embedded as a labelled transition
  system over an explicit state, an execution being a list of actions.
-/

namespace Crawler

/-! ## Data model -/

/-- Go `map[string]bool`; `none` means that the key is absent. -/
abbrev FetchedMap := String → Option Bool

/-- The map `make(map[string]bool)`. -/
def FetchedMap.empty : FetchedMap := fun _ => none

/-- The read `m[k]`: the zero value `false` when the key is absent. -/
def FetchedMap.get (m : FetchedMap) (k : String) : Bool := (m k).getD false

/-- The assignment `m[k] = v`. -/
def FetchedMap.set (m : FetchedMap) (k : String) (v : Bool) : FetchedMap :=
  fun k' => if k' = k then some v else m k'

/-- The struct `fakeResult`. -/
structure fakeResult where
  body : String
  urls : List String
deriving DecidableEq, Repr

/-- The type `fakeFetcher`, a `map[string]*fakeResult`. -/
abbrev fakeFetcher := List (String × fakeResult)

/-- What one call of `Fetch` yields: the url list, the error (`none` = `nil`) and the
line written by `fmt.Printf`. -/
structure FetchResult where
  urls : List String
  err : Option String
  out : String
deriving DecidableEq, Repr

/-- The method `fakeFetcher.Fetch`. -/
def fakeFetcher.Fetch (f : fakeFetcher) (url : String) : FetchResult :=
  match f.lookup url with
  | some res => { urls := res.urls, err := none, out := "found:   " ++ url ++ "\n" }
  | none => { urls := [], err := some ("not found: " ++ url),
              out := "missing: " ++ url ++ "\n" }

/-! ## Serial crawler -/

/-- The state threaded through `Serial`: the `fetched` map it mutates, and the urls
passed to `fetcher.Fetch` so far, oldest first. -/
structure SerialState where
  fetched : FetchedMap
  calls : List String

/-- The function `Serial`, with `fuel` bounding the depth of the recursion; `none` only
when the fuel runs out. -/
def Serial : Nat → String → fakeFetcher → SerialState → Option SerialState
  | 0, _, _, _ => none
  | fuel + 1, url, fetcher, st =>
    if st.fetched.get url then
      some st
    else
      let st1 : SerialState :=
        { fetched := st.fetched.set url true, calls := st.calls ++ [url] }
      let r := fetcher.Fetch url
      if r.err ≠ none then
        some st1
      else
        r.urls.foldlM (fun s u => Serial fuel u fetcher s) st1

/-- The fixture `fetcher` of the source. -/
def fetcher : fakeFetcher :=
  [ ("http://golang.org/",
      { body := "The Go Programming Language",
        urls := ["http://golang.org/pkg/", "http://golang.org/cmd/"] }),
    ("http://golang.org/pkg/",
      { body := "Packages",
        urls := ["http://golang.org/", "http://golang.org/cmd/",
                 "http://golang.org/pkg/fmt/", "http://golang.org/pkg/os/"] }),
    ("http://golang.org/pkg/fmt/",
      { body := "Package fmt",
        urls := ["http://golang.org/", "http://golang.org/pkg/"] }),
    ("http://golang.org/pkg/os/",
      { body := "Package os",
        urls := ["http://golang.org/", "http://golang.org/pkg/"] }) ]

/-! ## Reachability in the graph served by a fetcher -/

/-- An edge `a → b`: `a` is known to the fetcher and `b` is in its child list. -/
def Edge (f : fakeFetcher) (a b : String) : Prop :=
  ∃ res, f.lookup a = some res ∧ b ∈ res.urls

/-- Reachability: there is a path `a = x0, x1, ..., xk = b` along edges (`k = 0` allowed). -/
def Reach (f : fakeFetcher) : String → String → Prop :=
  Relation.ReflTransGen (Edge f)

/-- The ids of the finite graph: the keys of the fetcher followed by all listed children. -/
def graphIds (f : fakeFetcher) : List String :=
  f.map Prod.fst ++ (f.map (fun p => p.2.urls)).flatten

/-- The number of ids of the graph that `m` does not mark. -/
def unmarkedCount (f : fakeFetcher) (m : FetchedMap) : Nat :=
  ((graphIds f).dedup.filter (fun u => !m.get u)).length

/-- All marked ids of a map outside `S` have all their children marked. -/
def Closed (f : fakeFetcher) (m : FetchedMap) (S : Set String) : Prop :=
  ∀ w res c, m w = some true → w ∉ S → f.lookup w = some res → c ∈ res.urls →
    m c = some true

/-- The calls recorded so far are pairwise distinct and are exactly the marked ids. -/
def CallsInv (st : SerialState) : Prop :=
  st.calls.Nodup ∧ ∀ u, u ∈ st.calls ↔ st.fetched u = some true

/-- The state after `fetched[url] = true` and the call `fetcher.Fetch(url)`. -/
def SerialState.visit (st : SerialState) (url : String) : SerialState :=
  { fetched := st.fetched.set url true, calls := st.calls ++ [url] }

/-- What a returning call `Serial url` guarantees, from state `st` to state `st'`. -/
structure SerialPost (f : fakeFetcher) (url : String) (st st' : SerialState) : Prop where
  mono : ∀ u, st.fetched u = some true → st'.fetched u = some true
  marked : st'.fetched url = some true
  sound : ∀ u, st'.fetched u = some true → st.fetched u = some true ∨ Reach f url u
  calls : CallsInv st → CallsInv st'
  closed : ∀ S : Set String, Closed f st.fetched S → Closed f st'.fetched S

/-! ## Shared state under a mutex -/

/-- The struct `fetchState`; the mutex `mu` makes every method body one atomic step, which
is how the methods are embedded. -/
structure fetchState where
  fetched : FetchedMap

/-- The method `fetchState.testAndSet`: the returned flag and the state left behind. -/
def fetchState.testAndSet (fs : fetchState) (url : String) : Bool × fetchState :=
  let r := fs.fetched.get url
  (r, { fetched := fs.fetched.set url true })

/-- The function `makeState`. -/
def makeState : fetchState := { fetched := FetchedMap.empty }

/-- A finite sequence of `testAndSet` calls applied one after another: the flags returned,
in order, and the final state. -/
def testAndSetAll (fs : fetchState) : List String → List Bool × fetchState
  | [] => ([], fs)
  | u :: us =>
    let p := fs.testAndSet u
    let q := testAndSetAll p.2 us
    (p.1 :: q.1, q.2)

/-! ## `testAndSet` statement by statement, with the mutex -/

/-- Program points of one call of `testAndSet`. -/
inductive LockPc where
  /-- About to run `fs.mu.Lock()`. -/
  | lock
  /-- Holding the mutex, about to run `r := fs.fetched[url]`. -/
  | read
  /-- About to run `fs.fetched[url] = true`, with `r` read. -/
  | write (r : Bool)
  /-- At `return r`, the deferred `fs.mu.Unlock()` about to run. -/
  | unlock (r : Bool)
  /-- Returned `r`. -/
  | ret (r : Bool)
deriving DecidableEq, Repr

/-- A goroutine calling `testAndSet(url)`. -/
structure Caller where
  url : String
  pc : LockPc
deriving DecidableEq, Repr

/-- The struct `fetchState` with its mutex made explicit, and the goroutines calling
`testAndSet` on it. -/
structure LockState where
  locked : Bool
  fetched : FetchedMap
  callers : List Caller

/-- Goroutines about to call `testAndSet` on `fs`, one for each url of `urls`. -/
def concurrentCalls (fs : fetchState) (urls : List String) : LockState :=
  { locked := false, fetched := fs.fetched,
    callers := urls.map (fun u => { url := u, pc := LockPc.lock }) }

/-- The next statement of caller `i` of `testAndSet`, `none` when it has returned or is
blocked in `fs.mu.Lock()`. -/
def lstep (s : LockState) (i : Nat) : Option LockState :=
  match s.callers[i]? with
  | none => none
  | some c =>
    match c.pc with
    | LockPc.lock =>
      if s.locked then none
      else some { s with locked := true,
                         callers := s.callers.set i { c with pc := LockPc.read } }
    | LockPc.read =>
      some { s with callers :=
        s.callers.set i { c with pc := LockPc.write (s.fetched.get c.url) } }
    | LockPc.write r =>
      some { s with fetched := s.fetched.set c.url true,
                    callers := s.callers.set i { c with pc := LockPc.unlock r } }
    | LockPc.unlock r =>
      some { s with locked := false,
                    callers := s.callers.set i { c with pc := LockPc.ret r } }
    | LockPc.ret _ => none

/-- An interleaving of statements of the callers. -/
def lrun (s : LockState) : List Nat → Option LockState
  | [] => some s
  | i :: is => (lstep s i).bind (fun s' => lrun s' is)

/-- The step relation of the callers of `testAndSet`, one rule per statement. -/
inductive LStep : LockState → LockState → Prop
  | acquire (fetched : FetchedMap) (l1 : List Caller) (url : String) (l2 : List Caller) :
      LStep ⟨false, fetched, l1 ++ ⟨url, LockPc.lock⟩ :: l2⟩
        ⟨true, fetched, l1 ++ ⟨url, LockPc.read⟩ :: l2⟩
  | load (locked : Bool) (fetched : FetchedMap) (l1 : List Caller) (url : String)
      (l2 : List Caller) :
      LStep ⟨locked, fetched, l1 ++ ⟨url, LockPc.read⟩ :: l2⟩
        ⟨locked, fetched, l1 ++ ⟨url, LockPc.write (fetched.get url)⟩ :: l2⟩
  | store (locked : Bool) (fetched : FetchedMap) (l1 : List Caller) (url : String) (r : Bool)
      (l2 : List Caller) :
      LStep ⟨locked, fetched, l1 ++ ⟨url, LockPc.write r⟩ :: l2⟩
        ⟨locked, fetched.set url true, l1 ++ ⟨url, LockPc.unlock r⟩ :: l2⟩
  | release (locked : Bool) (fetched : FetchedMap) (l1 : List Caller) (url : String)
      (r : Bool) (l2 : List Caller) :
      LStep ⟨locked, fetched, l1 ++ ⟨url, LockPc.unlock r⟩ :: l2⟩
        ⟨false, fetched, l1 ++ ⟨url, LockPc.ret r⟩ :: l2⟩

/-- Between `Lock` and `Unlock`. -/
def LockPc.critical : LockPc → Bool
  | LockPc.read => true
  | LockPc.write _ => true
  | LockPc.unlock _ => true
  | _ => false

/-- Having read `false` from the map. -/
def LockPc.readFalse : LockPc → Bool
  | LockPc.write false => true
  | LockPc.unlock false => true
  | LockPc.ret false => true
  | _ => false

/-- Having returned. -/
def LockPc.isRet : LockPc → Bool
  | LockPc.ret _ => true
  | _ => false

/-- The statements a caller has yet to run. -/
def LockPc.steps : LockPc → Nat
  | LockPc.lock => 4
  | LockPc.read => 3
  | LockPc.write _ => 2
  | LockPc.unlock _ => 1
  | LockPc.ret _ => 0

/-- The number of statements left to run. -/
def lockMeasure (s : LockState) : Nat :=
  (s.callers.map (fun c => c.pc.steps)).sum

/-- Every caller has returned. -/
def allReturned (s : LockState) : Prop :=
  ∀ c ∈ s.callers, c.pc.isRet = true

/-- At most one of the callers is between `Lock` and `Unlock`. -/
def Excl (l : List Caller) : Prop :=
  ∀ (i j : Nat) (ci cj : Caller), l[i]? = some ci → l[j]? = some cj →
    ci.pc.critical = true → cj.pc.critical = true → i = j

/-- Mutual exclusion: at most one caller is between `Lock` and `Unlock`, and the mutex is
held exactly when there is one. -/
def Exclusion (s : LockState) : Prop :=
  Excl s.callers ∧ (s.locked = true ↔ ∃ c ∈ s.callers, c.pc.critical = true)

/-- Caller `i` is on `u`, has read `false` and has written, and no other caller on `u` has
read `false`. -/
def Winner (u : String) (l : List Caller) (i : Nat) : Prop :=
  (∃ c, l[i]? = some c ∧ c.url = u ∧ (c.pc = LockPc.unlock false ∨ c.pc = LockPc.ret false)) ∧
  ∀ (j : Nat) (c : Caller), l[j]? = some c → c.url = u → j ≠ i → c.pc.readFalse = false

/-- As long as `u` is unmarked no caller on `u` has got past its write; once `u` is marked
some caller on `u` is the only one to have read `false`. -/
def FirstInv (u : String) (s : LockState) : Prop :=
  (s.fetched u ≠ some true → ∀ c ∈ s.callers, c.url = u →
    c.pc = LockPc.lock ∨ c.pc = LockPc.read ∨ c.pc = LockPc.write false) ∧
  (s.fetched u = some true → ∃ i, Winner u s.callers i)

/-- The invariant of concurrent calls of `testAndSet` on `urls`, for a url `u` that was
unmarked at the start. -/
structure LockInv (urls : List String) (u : String) (s : LockState) : Prop where
  urls : s.callers.map (fun c => c.url) = urls
  excl : Exclusion s
  first : FirstInv u s

/-- Four goroutines, three of them on `a`, getting the mutex in the order second, fourth,
first, third. -/
def raceSchedule : List Nat := [1, 1, 1, 1, 3, 3, 3, 3, 0, 0, 0, 0, 2, 2, 2, 2]

/-! ## Concurrent crawler with channels -/

/-- The function `worker`: the message it sends on `ch` after its one call of `Fetch`. -/
def worker (url : String) (fetcher : fakeFetcher) : List String :=
  let r := fetcher.Fetch url
  if r.err ≠ none then [] else r.urls

/-- Where the coordinator stands in its code. -/
inductive CoordPc where
  /-- Blocked in `for urls := range ch`, about to receive. -/
  | recv
  /-- Inside `for _, u := range urls`, with `rest` still to be looked at. -/
  | proc (rest : List String)
  /-- After `break`: the coordinator has returned. -/
  | done
deriving DecidableEq, Repr

/-- A configuration of `ConcurrentChannel`: the coordinator's locals `n` and `fetched`, its
program point, the urls of the workers that have not yet called `Fetch`, the messages of the
goroutines blocked in `ch <- msg`, and two records: the `Fetch` calls made and the workers
spawned so far. -/
structure ChanState where
  n : Int
  fetched : FetchedMap
  pc : CoordPc
  running : List String
  sending : List (List String)
  calls : List String
  spawned : List String

/-- The moves of the system: the `i`-th running worker calls `Fetch` and blocks on its send;
the coordinator receives from the `i`-th blocked sender; the coordinator runs one step of
its own code. -/
inductive Action where
  | fetch (i : Nat)
  | recv (i : Nat)
  | coord
deriving DecidableEq, Repr

/-- The function `ConcurrentChannel` up to the first receive: the anonymous goroutine offers
`[]string{url}` on the fresh unbuffered channel, and `coordinator` has set `n := 1` and
`fetched := make(map[string]bool)`. -/
def ConcurrentChannel (url : String) : ChanState :=
  { n := 1, fetched := FetchedMap.empty, pc := CoordPc.recv, running := [],
    sending := [[url]], calls := [], spawned := [] }

/-- One step of the body of `coordinator` between two receives: either one iteration of the
inner loop over the received urls, or, when they are exhausted, `n -= 1` with the test
`n == 0`. -/
def coordinator (s : ChanState) : Option ChanState :=
  match s.pc with
  | CoordPc.proc (u :: rest) =>
    if s.fetched.get u == false then
      some { s with fetched := s.fetched.set u true, n := s.n + 1,
                    running := s.running ++ [u], spawned := s.spawned ++ [u],
                    pc := CoordPc.proc rest }
    else
      some { s with pc := CoordPc.proc rest }
  | CoordPc.proc [] =>
    some { s with n := s.n - 1, pc := if s.n - 1 = 0 then CoordPc.done else CoordPc.recv }
  | _ => none

/-- The transition function; `none` when the action is not enabled. -/
def step (f : fakeFetcher) (s : ChanState) : Action → Option ChanState
  | Action.fetch i =>
    match s.running[i]? with
    | some u =>
      some { s with running := s.running.eraseIdx i, sending := s.sending ++ [worker u f],
                    calls := s.calls ++ [u] }
    | none => none
  | Action.recv i =>
    match s.pc, s.sending[i]? with
    | CoordPc.recv, some urls =>
      some { s with pc := CoordPc.proc urls, sending := s.sending.eraseIdx i }
    | _, _ => none
  | Action.coord => coordinator s

/-- An execution: the actions of a schedule taken one after another. -/
def run (f : fakeFetcher) (s : ChanState) : List Action → Option ChanState
  | [] => some s
  | a :: as => (step f s a).bind (fun s' => run f s' as)

/-- The states an execution goes through, the first one included. -/
def runStates (f : fakeFetcher) (s : ChanState) : List Action → Option (List ChanState)
  | [] => some [s]
  | a :: as => (step f s a).bind (fun s' => (runStates f s' as).map (fun tr => s :: tr))

/-- The step relation of `ConcurrentChannel`, one rule per kind of move: a running worker
fetches and offers its message; the coordinator receives one offered message; it marks an
unmarked url, counts it and spawns its worker; it skips a marked url; at the end of a
message it decrements `n` and stops, or goes back to receive. -/
inductive Step (f : fakeFetcher) : ChanState → ChanState → Prop
  | fetch (n : Int) (fetched : FetchedMap) (pc : CoordPc) (l1 : List String) (u : String)
      (l2 : List String) (sending : List (List String)) (calls spawned : List String) :
      Step f ⟨n, fetched, pc, l1 ++ u :: l2, sending, calls, spawned⟩
        ⟨n, fetched, pc, l1 ++ l2, sending ++ [worker u f], calls ++ [u], spawned⟩
  | recv (n : Int) (fetched : FetchedMap) (running : List String) (l1 : List (List String))
      (urls : List String) (l2 : List (List String)) (calls spawned : List String) :
      Step f ⟨n, fetched, CoordPc.recv, running, l1 ++ urls :: l2, calls, spawned⟩
        ⟨n, fetched, CoordPc.proc urls, running, l1 ++ l2, calls, spawned⟩
  | mark (n : Int) (fetched : FetchedMap) (u : String) (rest running : List String)
      (sending : List (List String)) (calls spawned : List String)
      (h : fetched u ≠ some true) :
      Step f ⟨n, fetched, CoordPc.proc (u :: rest), running, sending, calls, spawned⟩
        ⟨n + 1, fetched.set u true, CoordPc.proc rest, running ++ [u], sending, calls,
          spawned ++ [u]⟩
  | skip (n : Int) (fetched : FetchedMap) (u : String) (rest running : List String)
      (sending : List (List String)) (calls spawned : List String)
      (h : fetched u = some true) :
      Step f ⟨n, fetched, CoordPc.proc (u :: rest), running, sending, calls, spawned⟩
        ⟨n, fetched, CoordPc.proc rest, running, sending, calls, spawned⟩
  | stop (n : Int) (fetched : FetchedMap) (running : List String)
      (sending : List (List String)) (calls spawned : List String) (h : n - 1 = 0) :
      Step f ⟨n, fetched, CoordPc.proc [], running, sending, calls, spawned⟩
        ⟨n - 1, fetched, CoordPc.done, running, sending, calls, spawned⟩
  | next (n : Int) (fetched : FetchedMap) (running : List String)
      (sending : List (List String)) (calls spawned : List String) (h : n - 1 ≠ 0) :
      Step f ⟨n, fetched, CoordPc.proc [], running, sending, calls, spawned⟩
        ⟨n - 1, fetched, CoordPc.recv, running, sending, calls, spawned⟩

/-- The urls the coordinator has yet to look at in the message it is processing. -/
def CoordPc.rest : CoordPc → List String
  | CoordPc.proc rest => rest
  | _ => []

/-- The urls on their way to the coordinator: the rest of the message being processed and
the contents of the messages offered on the channel. -/
def ChanState.pending (s : ChanState) : List String :=
  s.pc.rest ++ s.sending.flatten

/-- Counter invariant: `n` counts the workers running, the senders blocked and the message
being processed. -/
def CountInv (s : ChanState) : Prop :=
  match s.pc with
  | CoordPc.recv => s.n = s.running.length + s.sending.length ∧ 0 < s.n
  | CoordPc.proc _ => s.n = s.running.length + s.sending.length + 1
  | CoordPc.done => s.n = 0 ∧ s.running = [] ∧ s.sending = []

/-- Bookkeeping invariant: the spawned workers are pairwise distinct, they are the marked
ids, and each of them is still running or has made its one `Fetch` call. -/
def SpawnInv (s : ChanState) : Prop :=
  s.spawned.Nodup ∧ (∀ u, u ∈ s.spawned ↔ s.fetched u = some true) ∧
    (s.calls ++ s.running).Perm s.spawned

/-- Soundness invariant: whatever is marked, running or on its way is reachable. -/
def SoundInv (f : fakeFetcher) (seed : String) (s : ChanState) : Prop :=
  (∀ u, s.fetched u = some true → Reach f seed u) ∧
  (∀ u ∈ s.running, Reach f seed u) ∧
  (∀ u ∈ s.pending, Reach f seed u)

/-- Completeness invariant: the seed and every child of a marked id are marked or still on
their way (the parent's worker has not fetched yet, or the message is not yet consumed). -/
def ClosureInv (f : fakeFetcher) (seed : String) (s : ChanState) : Prop :=
  (s.fetched seed = some true ∨ seed ∈ s.pending) ∧
  (∀ w res c, s.fetched w = some true → f.lookup w = some res → c ∈ res.urls →
    s.fetched c = some true ∨ w ∈ s.running ∨ c ∈ s.pending)

/-- The invariant of `ConcurrentChannel`. -/
structure ChanInv (f : fakeFetcher) (seed : String) (s : ChanState) : Prop where
  count : CountInv s
  spawn : SpawnInv s
  sound : SoundInv f seed s
  closure : ClosureInv f seed s

/-- The steps the coordinator still owes for its program point. -/
def CoordPc.weight : CoordPc → Nat
  | CoordPc.proc rest => rest.length + 1
  | _ => 0

/-- A bound on the number of steps left: every unmarked id of the graph may still be
spawned, fetched, received and processed; every running worker fetched, received and
processed; every offered message received and processed. -/
def chanMeasure (f : fakeFetcher) (seed : String) (s : ChanState) : Nat :=
  (((seed :: graphIds f).dedup.filter (fun u => !s.fetched.get u)).map
      (fun u => (worker u f).length + 4)).sum
    + (s.running.map (fun u => (worker u f).length + 3)).sum
    + (s.sending.map (fun m => m.length + 2)).sum
    + s.pc.weight

/-- A small graph with a cycle, a url listed twice in one message and a url sent in two
messages: `a -> [b, b]`, `b -> [a]`. -/
def cycleFetcher : fakeFetcher :=
  [("a", { body := "", urls := ["b", "b"] }), ("b", { body := "", urls := ["a"] })]

/-- A complete schedule of `ConcurrentChannel "a"` on `cycleFetcher`. -/
def cycleSchedule : List Action :=
  [Action.recv 0, Action.coord, Action.coord, Action.fetch 0, Action.recv 0, Action.coord,
   Action.coord, Action.coord, Action.fetch 0, Action.recv 0, Action.coord, Action.coord]

/-- The number of messages the coordinator receives in a schedule. -/
def recvCount : List Action → Nat
  | [] => 0
  | Action.recv _ :: as => recvCount as + 1
  | _ :: as => recvCount as

/-- The number of fetch operations that have been dispatched (workers spawned) and whose
result message the coordinator has not yet consumed, after a schedule leading to `s`. The
first message consumed is the one holding the seed, sent by no worker, so of `k > 0`
messages consumed `k - 1` are results of workers. -/
def outstandingFetches (sched : List Action) (s : ChanState) : Int :=
  (s.spawned.length : Int) - ((recvCount sched - 1 : Nat) : Int)

/-- The ids a message newly brings: the distinct ids of `urls` that `fetched` leaves
unmarked. -/
def newIds (fetched : FetchedMap) (urls : List String) : List String :=
  urls.dedup.filter (fun u => !fetched.get u)

/-- The child list the fetcher serves for `u`; none when `u` is unknown. -/
def children (f : fakeFetcher) (u : String) : List String :=
  match f.lookup u with
  | some res => res.urls
  | none => []

/-! ## Concurrent crawler with shared state and Mutex -/

/-- Where a call of `ConcurrentMutex` stands in its code. -/
inductive TaskPc where
  /-- About to call `fs.testAndSet(url)`. -/
  | start
  /-- `testAndSet` has returned `false`; about to call `fetcher.Fetch(url)`. -/
  | fetch
  /-- In the loop `for _, u := range urls`, with `rest` still to be spawned. -/
  | spawn (rest : List String)
  /-- In `done.Wait()`. -/
  | wait
  /-- The call has returned; the goroutine that made it has yet to run `done.Done()`. -/
  | returned
  /-- The goroutine has run `done.Done()` and ended. -/
  | finished
deriving DecidableEq, Repr

/-- A call of `ConcurrentMutex`: its url, the call whose `WaitGroup` its goroutine signals
(`none` for the top-level call, which no goroutine wraps), and its program point. Calls are
numbered by their position in the list of tasks. -/
structure Task where
  url : String
  parent : Option Nat
  pc : TaskPc
deriving DecidableEq, Repr

/-- A configuration of `ConcurrentMutex`: the shared `fetchState`, the calls made so far,
the counter of the `WaitGroup` `done` of each call, and the record of `Fetch` calls. -/
structure MutexState where
  fs : fetchState
  tasks : List Task
  wg : Nat → Int
  calls : List String

/-- The function `ConcurrentMutex` at its entry: the top-level call on `url` and `fs`. -/
def ConcurrentMutex (url : String) (fs : fetchState) : MutexState :=
  { fs := fs, tasks := [{ url := url, parent := none, pc := TaskPc.start }],
    wg := fun _ => 0, calls := [] }

/-- The next step of call `i`, `none` when it has none or is blocked. `testAndSet` is one
step, being atomic under the mutex; one iteration of the loop is `done.Add(1)` followed by
the `go` statement; `done.Wait()` passes only at counter `0`. -/
def mstep (f : fakeFetcher) (s : MutexState) (i : Nat) : Option MutexState :=
  match s.tasks[i]? with
  | none => none
  | some t =>
    match t.pc with
    | TaskPc.start =>
      let p := s.fs.testAndSet t.url
      some { s with fs := p.2,
                    tasks := s.tasks.set i
                      { t with pc := if p.1 then TaskPc.returned else TaskPc.fetch } }
    | TaskPc.fetch =>
      let r := f.Fetch t.url
      some { s with calls := s.calls ++ [t.url],
                    tasks := s.tasks.set i
                      { t with pc := if r.err ≠ none then TaskPc.returned
                                     else TaskPc.spawn r.urls } }
    | TaskPc.spawn (u :: rest) =>
      some { s with wg := Function.update s.wg i (s.wg i + 1),
                    tasks := s.tasks.set i { t with pc := TaskPc.spawn rest } ++
                      [{ url := u, parent := some i, pc := TaskPc.start }] }
    | TaskPc.spawn [] =>
      some { s with tasks := s.tasks.set i { t with pc := TaskPc.wait } }
    | TaskPc.wait =>
      if s.wg i = 0 then
        some { s with tasks := s.tasks.set i { t with pc := TaskPc.returned } }
      else none
    | TaskPc.returned =>
      match t.parent with
      | some p =>
        some { s with wg := Function.update s.wg p (s.wg p - 1),
                      tasks := s.tasks.set i { t with pc := TaskPc.finished } }
      | none => none
    | TaskPc.finished => none

/-- An interleaving: the calls that move, one after another. -/
def mrun (f : fakeFetcher) (s : MutexState) : List Nat → Option MutexState
  | [] => some s
  | i :: is => (mstep f s i).bind (fun s' => mrun f s' is)

/-- The program point of the top-level call. -/
def MutexState.rootPc (s : MutexState) : Option TaskPc :=
  s.tasks[0]?.map (fun t => t.pc)

/-- The step relation of `ConcurrentMutex`, one rule per kind of move of the call at
position `l1.length`. -/
inductive MStep (f : fakeFetcher) : MutexState → MutexState → Prop
  | win (fs : fetchState) (l1 : List Task) (url : String) (par : Option Nat) (l2 : List Task)
      (wg : Nat → Int) (calls : List String) (h : fs.fetched url ≠ some true) :
      MStep f ⟨fs, l1 ++ ⟨url, par, TaskPc.start⟩ :: l2, wg, calls⟩
        ⟨(fs.testAndSet url).2, l1 ++ ⟨url, par, TaskPc.fetch⟩ :: l2, wg, calls⟩
  | lose (fs : fetchState) (l1 : List Task) (url : String) (par : Option Nat) (l2 : List Task)
      (wg : Nat → Int) (calls : List String) (h : fs.fetched url = some true) :
      MStep f ⟨fs, l1 ++ ⟨url, par, TaskPc.start⟩ :: l2, wg, calls⟩
        ⟨(fs.testAndSet url).2, l1 ++ ⟨url, par, TaskPc.returned⟩ :: l2, wg, calls⟩
  | fetchFail (fs : fetchState) (l1 : List Task) (url : String) (par : Option Nat)
      (l2 : List Task) (wg : Nat → Int) (calls : List String) (h : f.lookup url = none) :
      MStep f ⟨fs, l1 ++ ⟨url, par, TaskPc.fetch⟩ :: l2, wg, calls⟩
        ⟨fs, l1 ++ ⟨url, par, TaskPc.returned⟩ :: l2, wg, calls ++ [url]⟩
  | fetchOk (fs : fetchState) (l1 : List Task) (url : String) (par : Option Nat)
      (l2 : List Task) (wg : Nat → Int) (calls : List String) (res : fakeResult)
      (h : f.lookup url = some res) :
      MStep f ⟨fs, l1 ++ ⟨url, par, TaskPc.fetch⟩ :: l2, wg, calls⟩
        ⟨fs, l1 ++ ⟨url, par, TaskPc.spawn res.urls⟩ :: l2, wg, calls ++ [url]⟩
  | spawn (fs : fetchState) (l1 : List Task) (url : String) (par : Option Nat) (u : String)
      (rest : List String) (l2 : List Task) (wg : Nat → Int) (calls : List String) :
      MStep f ⟨fs, l1 ++ ⟨url, par, TaskPc.spawn (u :: rest)⟩ :: l2, wg, calls⟩
        ⟨fs, l1 ++ ⟨url, par, TaskPc.spawn rest⟩ :: l2 ++ [⟨u, some l1.length, TaskPc.start⟩],
          Function.update wg l1.length (wg l1.length + 1), calls⟩
  | spawnEnd (fs : fetchState) (l1 : List Task) (url : String) (par : Option Nat)
      (l2 : List Task) (wg : Nat → Int) (calls : List String) :
      MStep f ⟨fs, l1 ++ ⟨url, par, TaskPc.spawn []⟩ :: l2, wg, calls⟩
        ⟨fs, l1 ++ ⟨url, par, TaskPc.wait⟩ :: l2, wg, calls⟩
  | join (fs : fetchState) (l1 : List Task) (url : String) (par : Option Nat)
      (l2 : List Task) (wg : Nat → Int) (calls : List String) (h : wg l1.length = 0) :
      MStep f ⟨fs, l1 ++ ⟨url, par, TaskPc.wait⟩ :: l2, wg, calls⟩
        ⟨fs, l1 ++ ⟨url, par, TaskPc.returned⟩ :: l2, wg, calls⟩
  | signal (fs : fetchState) (l1 : List Task) (url : String) (p : Nat) (l2 : List Task)
      (wg : Nat → Int) (calls : List String) :
      MStep f ⟨fs, l1 ++ ⟨url, some p, TaskPc.returned⟩ :: l2, wg, calls⟩
        ⟨fs, l1 ++ ⟨url, some p, TaskPc.finished⟩ :: l2, Function.update wg p (wg p - 1), calls⟩

/-- The number of goroutines spawned by call `i` that have not yet run `done.Done()`. -/
def liveChildren (i : Nat) (tasks : List Task) : Nat :=
  tasks.countP (fun t => decide (t.parent = some i) && decide (t.pc ≠ TaskPc.finished))

/-- The urls of the calls that hold the first-visit right and have yet to call `Fetch`. -/
def fetching (tasks : List Task) : List String :=
  (tasks.filter (fun t => decide (t.pc = TaskPc.fetch))).map (fun t => t.url)

/-- A call that has no `WaitGroup` business: before its loop or after its return. -/
def TaskPc.idle : TaskPc → Prop
  | TaskPc.start => True
  | TaskPc.fetch => True
  | TaskPc.returned => True
  | TaskPc.finished => True
  | _ => False

/-- What holds of the task at position `j`: only the top-level call, at position `0`, has
no parent; a parent comes before its children; only a goroutine can have finished. -/
def TaskShape (j : Nat) (t : Task) : Prop :=
  (t.parent = none ↔ j = 0) ∧ (∀ p, t.parent = some p → p < j) ∧
    (t.pc = TaskPc.finished → t.parent ≠ none)

/-- Shape invariant of the list of calls. -/
def ShapeInv (s : MutexState) : Prop :=
  s.tasks ≠ [] ∧ ∀ j t, s.tasks[j]? = some t → TaskShape j t

/-- `WaitGroup` invariant: the counter of each call is the number of its goroutines that
have not run `done.Done()`, and it is `0` outside the loop and the wait. -/
def WaitInv (s : MutexState) : Prop :=
  (∀ i, s.wg i = liveChildren i s.tasks) ∧
  (∀ j t, s.tasks[j]? = some t → t.pc.idle → s.wg j = 0)

/-- Bookkeeping invariant: the calls made and the calls about to be made are pairwise
distinct and are the marked ids. -/
def FetchInv (s : MutexState) : Prop :=
  (s.calls ++ fetching s.tasks).Nodup ∧
    ∀ u, u ∈ s.calls ++ fetching s.tasks ↔ s.fs.fetched u = some true

/-- Soundness invariant: whatever is marked, called on or about to be spawned is reachable. -/
def MSoundInv (f : fakeFetcher) (seed : String) (s : MutexState) : Prop :=
  (∀ u, s.fs.fetched u = some true → Reach f seed u) ∧
  (∀ t ∈ s.tasks, Reach f seed t.url) ∧
  (∀ t ∈ s.tasks, ∀ rest, t.pc = TaskPc.spawn rest → ∀ c ∈ rest, Reach f seed c)

/-- Some call on `c` has yet to run its `testAndSet`. -/
def Pend (tasks : List Task) (c : String) : Prop :=
  ∃ t ∈ tasks, t.url = c ∧ t.pc = TaskPc.start

/-- The call that marked `w` has yet to fetch it, or has yet to spawn the call on its
child `c`. -/
def Owes (tasks : List Task) (w c : String) : Prop :=
  ∃ t ∈ tasks, t.url = w ∧ (t.pc = TaskPc.fetch ∨ ∃ rest, t.pc = TaskPc.spawn rest ∧ c ∈ rest)

/-- Completeness invariant: the seed and every child of a marked id are marked or still
owed a visit. -/
def MClosureInv (f : fakeFetcher) (seed : String) (s : MutexState) : Prop :=
  (s.fs.fetched seed = some true ∨ Pend s.tasks seed) ∧
  (∀ w res c, s.fs.fetched w = some true → f.lookup w = some res → c ∈ res.urls →
    s.fs.fetched c = some true ∨ Owes s.tasks w c ∨ Pend s.tasks c)

/-- The steps a call still owes for its program point. -/
def Task.weight (f : fakeFetcher) (t : Task) : Nat :=
  match t.pc with
  | TaskPc.start => 2
  | TaskPc.fetch => 3 * (children f t.url).length + 4
  | TaskPc.spawn rest => 3 * rest.length + 3
  | TaskPc.wait => 2
  | TaskPc.returned => 1
  | TaskPc.finished => 0

/-- A bound on the number of steps left: every unmarked id of the graph may still be won,
fetched and have its children spawned; every call has its own steps left. -/
def mutexMeasure (f : fakeFetcher) (seed : String) (s : MutexState) : Nat :=
  (((seed :: graphIds f).dedup.filter (fun u => !s.fs.fetched.get u)).map
      (fun u => 3 * (children f u).length + 4)).sum
    + (s.tasks.map (fun t => t.weight f)).sum

/-- The invariant of `ConcurrentMutex` started on `seed`. -/
structure MutexInv (f : fakeFetcher) (seed : String) (s : MutexState) : Prop where
  shape : ShapeInv s
  wait : WaitInv s
  fetch : FetchInv s
  sound : MSoundInv f seed s
  closure : MClosureInv f seed s

/-- A complete interleaving of `ConcurrentMutex "a"` on `cycleFetcher`. -/
def cycleInterleaving : List Nat := [0, 0, 0, 0, 0, 1, 2, 2, 1, 1, 1, 3, 3, 1, 1, 0]

/-- The three-page graph `A -> [B, C]`, `B -> [A, C]`, `C -> []`, as a `fakeFetcher` value;
`D` is not a key. -/
def abcFetcher : fakeFetcher :=
  [("A", { body := "", urls := ["B", "C"] }), ("B", { body := "", urls := ["A", "C"] }),
   ("C", { body := "", urls := [] })]

/-- A complete schedule of `ConcurrentChannel "A"` on `abcFetcher`. -/
def abcSchedule : List Action :=
  [Action.recv 0, Action.coord, Action.coord, Action.fetch 0, Action.recv 0, Action.coord,
   Action.coord, Action.coord, Action.fetch 0, Action.recv 0, Action.coord, Action.coord,
   Action.coord, Action.fetch 0, Action.recv 0, Action.coord]

/-- A complete interleaving of `ConcurrentMutex "A"` on `abcFetcher`. -/
def abcInterleaving : List Nat :=
  [0, 0, 0, 1, 1, 1, 2, 2, 1, 3, 3, 3, 3, 3, 1, 1, 1, 0, 4, 4, 0, 0]

/-! ## Depth-first order and paths through unmarked ids -/

/-- Depth-first preorder, written with an explicit stack rather than by recursion: take the
top of the stack; skip it when it is already in the order; otherwise append it to the order
and push its children, in the order served, on top of the stack, so that the whole subtree
of a child is explored before its next sibling. `none` only when the fuel runs out. -/
def dfsPreorder (f : fakeFetcher) : Nat → List String → List String → Option (List String)
  | _, [], order => some order
  | 0, _ :: _, _ => none
  | k + 1, u :: stack, order =>
    if u ∈ order then dfsPreorder f k stack order
    else dfsPreorder f k (children f u ++ stack) (order ++ [u])

/-- The lines printed by the `Fetch` calls of a call sequence. -/
def traceLines (f : fakeFetcher) (calls : List String) : List String :=
  calls.map (fun u => (f.Fetch u).out)

/-- A path from `a` to `b` all of whose nodes, `a` and `b` included, are unmarked in `m`, and
all of whose nodes but the last are known to the fetcher with the next node among their
children. -/
def WhiteReach (f : fakeFetcher) (m : FetchedMap) (a b : String) : Prop :=
  m a ≠ some true ∧ Relation.ReflTransGen (fun x y => Edge f x y ∧ m y ≠ some true) a b

/-- A diamond: `a -> [b, c]`, `b -> [d]`, `c -> [d]`, with `d` unknown. -/
def diamondFetcher : fakeFetcher :=
  [("a", { body := "", urls := ["b", "c"] }), ("b", { body := "", urls := ["d"] }),
   ("c", { body := "", urls := ["d"] })]

/-! ## The key-value server of `my_kv.go` -/

/-- The struct `PutArgs`. -/
structure PutArgs where
  Key : String
  Value : String
deriving DecidableEq, Repr

/-- The struct `PutReply`. -/
structure PutReply where
deriving DecidableEq, Repr

/-- The struct `GetArgs`. -/
structure GetArgs where
  Key : String
deriving DecidableEq, Repr

/-- The struct `GetReply`. -/
structure GetReply where
  Value : String
deriving DecidableEq, Repr

/-- The struct `KV`: the `data` map (`none` = key absent); the mutex `mu` makes each handler
body one atomic step, which is how the handlers are embedded. -/
structure KV where
  data : String → Option String

/-- The store `&KV{data: map[string]string{}}` built by `server`. -/
def KV.new : KV := { data := fun _ => none }

/-- The handler `KV.Get`: the store and the reply it leaves, and the returned error
(`none` = `nil`). Reading an absent key yields the zero value `""`. -/
def KV.Get (kv : KV) (args : GetArgs) (reply : GetReply) : KV × GetReply × Option String :=
  (kv, { reply with Value := (kv.data args.Key).getD "" }, none)

/-- The handler `KV.Put`. -/
def KV.Put (kv : KV) (args : PutArgs) (reply : PutReply) : KV × PutReply × Option String :=
  ({ kv with data := fun k => if k = args.Key then some args.Value else kv.data k }, reply, none)

/-- A sequence of `Put` requests served one after another. -/
def KV.putAll (kv : KV) : List PutArgs → KV
  | [] => kv
  | a :: as => KV.putAll (kv.Put a {}).1 as

/-! # Lemmas -/

/-! ## Lemmas on maps -/

theorem FetchedMap.get_eq_true (m : FetchedMap) (k : String) :
    m.get k = true ↔ m k = some true := by
  unfold FetchedMap.get
  cases h : m k with
  | none => simp
  | some b => simp

theorem FetchedMap.get_eq_false (m : FetchedMap) (k : String) :
    m.get k = false ↔ m k = none ∨ m k = some false := by
  unfold FetchedMap.get
  cases h : m k with
  | none => simp
  | some b => simp

theorem FetchedMap.set_same (m : FetchedMap) (k : String) (v : Bool) :
    m.set k v k = some v := by
  simp [FetchedMap.set]

theorem FetchedMap.set_other (m : FetchedMap) (k k' : String) (v : Bool) (h : k' ≠ k) :
    m.set k v k' = m k' := by
  simp [FetchedMap.set, h]

theorem FetchedMap.set_true_mono (m : FetchedMap) (k u : String)
    (h : m u = some true) : m.set k true u = some true := by
  by_cases hk : u = k
  · subst hk; exact FetchedMap.set_same m u true
  · rw [FetchedMap.set_other m k u true hk]; exact h

theorem FetchedMap.set_true_iff (m : FetchedMap) (k u : String) :
    m.set k true u = some true ↔ u = k ∨ m u = some true := by
  by_cases hk : u = k
  · subst hk; simp [FetchedMap.set_same]
  · rw [FetchedMap.set_other m k u true hk]; simp [hk]

theorem lookup_mem_keys (f : fakeFetcher) (u : String) (res : fakeResult)
    (h : f.lookup u = some res) : u ∈ f.map Prod.fst := by
  induction f with
  | nil => simp at h
  | cons p t ih =>
    obtain ⟨k, r⟩ := p
    by_cases hk : u = k
    · simp [hk]
    · have hb : (u == k) = false := by simpa using hk
      rw [List.lookup_cons, hb] at h
      simp only [List.map_cons, List.mem_cons]
      exact Or.inr (ih h)

theorem lookup_mem (f : fakeFetcher) (u : String) (res : fakeResult)
    (h : f.lookup u = some res) : (u, res) ∈ f := by
  induction f with
  | nil => simp at h
  | cons p t ih =>
    obtain ⟨k, r⟩ := p
    by_cases hk : u = k
    · have hb : (u == k) = true := by simpa using hk
      rw [List.lookup_cons, hb] at h
      simp only [Option.some.injEq] at h
      simp [hk, h]
    · have hb : (u == k) = false := by simpa using hk
      rw [List.lookup_cons, hb] at h
      exact List.mem_cons_of_mem _ (ih h)

theorem child_mem_graphIds (f : fakeFetcher) (u c : String) (res : fakeResult)
    (h : f.lookup u = some res) (hc : c ∈ res.urls) : c ∈ graphIds f := by
  unfold graphIds
  refine List.mem_append_right _ ?_
  rw [List.mem_flatten]
  exact ⟨res.urls, List.mem_map.mpr ⟨(u, res), lookup_mem f u res h, rfl⟩, hc⟩

theorem key_mem_graphIds (f : fakeFetcher) (u : String) (res : fakeResult)
    (h : f.lookup u = some res) : u ∈ graphIds f :=
  List.mem_append_left _ (lookup_mem_keys f u res h)

/-- The fetch of a known id succeeds with the stored child list. -/
theorem Fetch_of_lookup_some (f : fakeFetcher) (u : String) (res : fakeResult)
    (h : f.lookup u = some res) :
    (f.Fetch u).err = none ∧ (f.Fetch u).urls = res.urls := by
  simp [fakeFetcher.Fetch, h]

/-- The fetch of an unknown id fails with no url. -/
theorem Fetch_of_lookup_none (f : fakeFetcher) (u : String) (h : f.lookup u = none) :
    (f.Fetch u).err ≠ none ∧ (f.Fetch u).urls = [] := by
  simp [fakeFetcher.Fetch, h]

theorem Fetch_err_iff (f : fakeFetcher) (u : String) :
    (f.Fetch u).err ≠ none ↔ f.lookup u = none := by
  cases h : f.lookup u with
  | none => simp [fakeFetcher.Fetch, h]
  | some res => simp [fakeFetcher.Fetch, h]

/-! ## Loops in the `Option` monad -/

theorem foldlM_option_inv {σ α : Type} (g : σ → α → Option σ) (P : σ → Prop) :
    ∀ (l : List α) (s s' : σ),
      (∀ a ∈ l, ∀ t t', P t → g t a = some t' → P t') →
      P s → l.foldlM g s = some s' → P s' := by
  intro l
  induction l with
  | nil =>
    intro s s' _ h0 h
    simp only [List.foldlM_nil, Option.pure_def, Option.some.injEq] at h
    exact h ▸ h0
  | cons a t ih =>
    intro s s' hstep h0 h
    rw [List.foldlM_cons] at h
    cases hg : g s a with
    | none => rw [hg] at h; simp at h
    | some s1 =>
      rw [hg] at h
      simp only [Option.bind_eq_bind, Option.some_bind] at h
      exact ih s1 s' (fun b hb => hstep b (List.mem_cons_of_mem _ hb))
        (hstep a (List.mem_cons_self _ _) s s1 h0 hg) h

theorem foldlM_option_mem {σ α : Type} (g : σ → α → Option σ) (Q : α → σ → Prop) :
    ∀ (l : List α) (s s' : σ),
      (∀ a ∈ l, ∀ t t', g t a = some t' → Q a t') →
      (∀ a b t t', Q a t → g t b = some t' → Q a t') →
      l.foldlM g s = some s' → ∀ a ∈ l, Q a s' := by
  intro l
  induction l with
  | nil => intro s s' _ _ _ a ha; simp at ha
  | cons b t ih =>
    intro s s' hstep hstable h a ha
    rw [List.foldlM_cons] at h
    cases hg : g s b with
    | none => rw [hg] at h; simp at h
    | some s1 =>
      rw [hg] at h
      simp only [Option.bind_eq_bind, Option.some_bind] at h
      rcases List.mem_cons.mp ha with hab | hat
      · subst hab
        have h1 : Q a s1 := hstep a (List.mem_cons_self _ _) s s1 hg
        exact foldlM_option_inv g (Q a) t s1 s'
          (fun c _ u u' hu hc => hstable a c u u' hu hc) h1 h
      · exact ih s1 s' (fun c hc => hstep c (List.mem_cons_of_mem _ hc)) hstable h a hat

theorem foldlM_option_isSome {σ α : Type} (g : σ → α → Option σ) (P : σ → Prop) :
    ∀ (l : List α) (s : σ),
      (∀ a ∈ l, ∀ t, P t → ∃ t', g t a = some t' ∧ P t') →
      P s → ∃ s', l.foldlM g s = some s' ∧ P s' := by
  intro l
  induction l with
  | nil => intro s _ h0; exact ⟨s, by simp, h0⟩
  | cons a t ih =>
    intro s hstep h0
    obtain ⟨s1, hg, h1⟩ := hstep a (List.mem_cons_self _ _) s h0
    obtain ⟨s', hs', hP⟩ := ih s1 (fun b hb => hstep b (List.mem_cons_of_mem _ hb)) h1
    refine ⟨s', ?_, hP⟩
    rw [List.foldlM_cons, hg]
    simpa using hs'

/-! ## The sequential crawler: what a returning call guarantees -/

/-- The three ways in which a call with positive fuel returns. -/
theorem Serial_cases (fuel : Nat) (url : String) (f : fakeFetcher) (st st' : SerialState)
    (h : Serial (fuel + 1) url f st = some st') :
    (st.fetched url = some true ∧ st' = st) ∨
    (st.fetched url ≠ some true ∧ f.lookup url = none ∧ st' = st.visit url) ∨
    (st.fetched url ≠ some true ∧ ∃ res, f.lookup url = some res ∧
      res.urls.foldlM (fun s u => Serial fuel u f s) (st.visit url) = some st') := by
  unfold Serial at h
  by_cases hm : st.fetched.get url = true
  · rw [if_pos hm] at h
    simp only [Option.some.injEq] at h
    exact Or.inl ⟨(FetchedMap.get_eq_true _ _).mp hm, h.symm⟩
  · have hm' : st.fetched url ≠ some true := fun hc => hm ((FetchedMap.get_eq_true _ _).mpr hc)
    rw [if_neg hm] at h
    dsimp only at h
    cases hl : f.lookup url with
    | none =>
      rw [if_pos (Fetch_of_lookup_none f url hl).1] at h
      simp only [Option.some.injEq] at h
      exact Or.inr (Or.inl ⟨hm', rfl, h.symm⟩)
    | some res =>
      obtain ⟨he, hu⟩ := Fetch_of_lookup_some f url res hl
      rw [if_neg (fun hc => hc he), hu] at h
      exact Or.inr (Or.inr ⟨hm', res, rfl, h⟩)

theorem visit_callsInv (st : SerialState) (url : String)
    (hm : st.fetched url ≠ some true) (h : CallsInv st) : CallsInv (st.visit url) := by
  obtain ⟨hnd, hmem⟩ := h
  have hnot : url ∉ st.calls := fun hc => hm ((hmem url).mp hc)
  refine ⟨?_, ?_⟩
  · show (st.calls ++ [url]).Nodup
    rw [List.nodup_append]
    refine ⟨hnd, List.nodup_singleton _, ?_⟩
    intro a ha hb
    rw [List.mem_singleton] at hb
    exact hnot (hb ▸ ha)
  · intro u
    show u ∈ st.calls ++ [url] ↔ st.fetched.set url true u = some true
    rw [FetchedMap.set_true_iff, List.mem_append, List.mem_singleton, hmem u]
    exact or_comm

theorem visit_closed_insert (f : fakeFetcher) (m : FetchedMap) (url : String) (S : Set String)
    (h : Closed f m S) : Closed f (m.set url true) (insert url S) := by
  intro w res c hw hS hl hc
  have hne : w ≠ url := fun e => hS (e ▸ Set.mem_insert url S)
  have hwS : w ∉ S := fun e => hS (Set.mem_insert_of_mem url e)
  rw [FetchedMap.set_other m url w true hne] at hw
  exact FetchedMap.set_true_mono m url c (h w res c hw hwS hl hc)

theorem closed_of_children (f : fakeFetcher) (m : FetchedMap) (url : String) (S : Set String)
    (h : Closed f m (insert url S))
    (hch : ∀ res c, f.lookup url = some res → c ∈ res.urls → m c = some true) :
    Closed f m S := by
  intro w res c hw hS hl hc
  by_cases hne : w = url
  · subst hne; exact hch res c hl hc
  · refine h w res c hw ?_ hl hc
    intro hin
    rcases Set.mem_insert_iff.mp hin with e | e
    · exact hne e
    · exact hS e

theorem Serial_post (f : fakeFetcher) :
    ∀ (fuel : Nat) (url : String) (st st' : SerialState),
      Serial fuel url f st = some st' → SerialPost f url st st' := by
  intro fuel
  induction fuel with
  | zero => intro url st st' h; simp [Serial] at h
  | succ fuel ih =>
    intro url st st' h
    rcases Serial_cases fuel url f st st' h with ⟨hm, rfl⟩ | ⟨hm, hl, rfl⟩ | ⟨hm, res, hl, hloop⟩
    · exact ⟨fun _ hu => hu, hm, fun _ hu => Or.inl hu, fun hc => hc, fun _ hc => hc⟩
    · refine ⟨fun u hu => FetchedMap.set_true_mono _ _ _ hu, FetchedMap.set_same _ _ _, ?_,
        visit_callsInv st url hm, ?_⟩
      · intro u hu
        rcases (FetchedMap.set_true_iff _ _ _).mp hu with e | e
        · exact Or.inr (e ▸ Relation.ReflTransGen.refl)
        · exact Or.inl e
      · intro S hS
        refine closed_of_children f _ url S (visit_closed_insert f _ url S hS) ?_
        intro res c hres
        rw [hl] at hres
        exact absurd hres (by simp)
    · -- the loop over the children
      have hinv := foldlM_option_inv (fun s u => Serial fuel u f s)
        (fun t => (∀ u, (st.visit url).fetched u = some true → t.fetched u = some true) ∧
          (∀ u, t.fetched u = some true →
            (st.visit url).fetched u = some true ∨ ∃ c ∈ res.urls, Reach f c u) ∧
          (CallsInv (st.visit url) → CallsInv t) ∧
          (∀ S : Set String, Closed f (st.visit url).fetched S → Closed f t.fetched S))
        res.urls (st.visit url) st'
        (by
          intro a ha t t' ⟨h1, h2, h3, h4⟩ hstep
          have hp := ih a t t' hstep
          refine ⟨fun u hu => hp.mono u (h1 u hu), ?_, fun hc => hp.calls (h3 hc),
            fun S hS => hp.closed S (h4 S hS)⟩
          intro u hu
          rcases hp.sound u hu with e | e
          · exact h2 u e
          · exact Or.inr ⟨a, ha, e⟩)
        ⟨fun _ hu => hu, fun _ hu => Or.inl hu, fun hc => hc, fun _ hS => hS⟩ hloop
      obtain ⟨h1, h2, h3, h4⟩ := hinv
      have hchild := foldlM_option_mem (fun s u => Serial fuel u f s)
        (fun c t => t.fetched c = some true) res.urls (st.visit url) st'
        (fun a _ t t' hstep => (ih a t t' hstep).marked)
        (fun a b t t' hq hstep => (ih b t t' hstep).mono a hq) hloop
      refine ⟨fun u hu => h1 u (FetchedMap.set_true_mono _ _ _ hu),
        h1 url (FetchedMap.set_same _ _ _), ?_, fun hc => h3 (visit_callsInv st url hm hc), ?_⟩
      · intro u hu
        rcases h2 u hu with e | ⟨c, hc, e⟩
        · rcases (FetchedMap.set_true_iff _ _ _).mp e with e1 | e1
          · exact Or.inr (e1 ▸ Relation.ReflTransGen.refl)
          · exact Or.inl e1
        · exact Or.inr (Relation.ReflTransGen.head ⟨res, hl, hc⟩ e)
      · intro S hS
        refine closed_of_children f _ url S (h4 _ (visit_closed_insert f _ url S hS)) ?_
        intro res' c hres hc
        rw [hl] at hres
        simp only [Option.some.injEq] at hres
        exact hchild c (hres ▸ hc)

/-- In a map closed everywhere, everything reachable from a marked id is marked. -/
theorem closed_reach (f : fakeFetcher) (m : FetchedMap) (a b : String)
    (hc : Closed f m ∅) (ha : m a = some true) (h : Reach f a b) : m b = some true := by
  induction h with
  | refl => exact ha
  | tail _ hstep ih =>
    obtain ⟨res, hl, hmem⟩ := hstep
    exact hc _ res _ ih (Set.not_mem_empty _) hl hmem

/-! ## The sequential crawler: termination -/

theorem Serial_succ_marked (fuel : Nat) (url : String) (f : fakeFetcher) (st : SerialState)
    (hm : st.fetched url = some true) : Serial (fuel + 1) url f st = some st := by
  rw [Serial]
  rw [if_pos ((FetchedMap.get_eq_true _ _).mpr hm)]

theorem Serial_succ_missing (fuel : Nat) (url : String) (f : fakeFetcher) (st : SerialState)
    (hm : st.fetched url ≠ some true) (hl : f.lookup url = none) :
    Serial (fuel + 1) url f st = some (st.visit url) := by
  rw [Serial]
  rw [if_neg (fun hc => hm ((FetchedMap.get_eq_true _ _).mp hc))]
  dsimp only
  rw [if_pos (Fetch_of_lookup_none f url hl).1]
  rfl

theorem Serial_succ_found (fuel : Nat) (url : String) (f : fakeFetcher) (st : SerialState)
    (res : fakeResult) (hm : st.fetched url ≠ some true) (hl : f.lookup url = some res) :
    Serial (fuel + 1) url f st =
      res.urls.foldlM (fun s u => Serial fuel u f s) (st.visit url) := by
  rw [Serial]
  rw [if_neg (fun hc => hm ((FetchedMap.get_eq_true _ _).mp hc))]
  dsimp only
  obtain ⟨he, hu⟩ := Fetch_of_lookup_some f url res hl
  rw [if_neg (fun hc => hc he), hu]
  rfl

theorem unmarkedCount_mono (f : fakeFetcher) (m m' : FetchedMap)
    (h : ∀ u, m u = some true → m' u = some true) :
    unmarkedCount f m' ≤ unmarkedCount f m := by
  unfold unmarkedCount
  refine List.Sublist.length_le (List.monotone_filter_right _ ?_)
  intro a ha
  simp only [Bool.not_eq_true', FetchedMap.get_eq_false] at ha ⊢
  by_contra hc
  have hm : m a = some true := by
    cases hma : m a with
    | none => exact absurd (Or.inl hma) hc
    | some b =>
      cases b with
      | false => exact absurd (Or.inr hma) hc
      | true => rfl
  have := h a hm
  rcases ha with e | e <;> simp [e] at this

theorem unmarkedCount_visit_lt (f : fakeFetcher) (m : FetchedMap) (url : String)
    (hin : url ∈ graphIds f) (hm : m url ≠ some true) :
    unmarkedCount f (m.set url true) < unmarkedCount f m := by
  have hle := unmarkedCount_mono f m (m.set url true)
    (fun u hu => FetchedMap.set_true_mono m url u hu)
  refine lt_of_le_of_ne hle ?_
  intro heq
  unfold unmarkedCount at heq
  have hsub : List.Sublist ((graphIds f).dedup.filter (fun u => !(m.set url true).get u))
      ((graphIds f).dedup.filter (fun u => !m.get u)) := by
    refine List.monotone_filter_right _ ?_
    intro a ha
    simp only [Bool.not_eq_true'] at ha ⊢
    cases hg : m.get a with
    | false => rfl
    | true =>
      have h1 := FetchedMap.set_true_mono m url a ((FetchedMap.get_eq_true _ _).mp hg)
      rw [(FetchedMap.get_eq_true _ _).mpr h1] at ha
      exact absurd ha (by simp)
  have hlists := hsub.eq_of_length heq
  have h1 : url ∈ (graphIds f).dedup.filter (fun u => !m.get u) := by
    rw [List.mem_filter]
    refine ⟨List.mem_dedup.mpr hin, ?_⟩
    cases hg : m.get url with
    | false => rfl
    | true => exact absurd ((FetchedMap.get_eq_true _ _).mp hg) hm
  rw [← hlists, List.mem_filter] at h1
  have h2 : (m.set url true).get url = true :=
    (FetchedMap.get_eq_true _ _).mpr (FetchedMap.set_same m url true)
  rw [h2] at h1
  exact absurd h1.2 (by simp)

/-- Fuel beyond the number of unmarked ids of the graph is enough for `Serial` to return. -/
theorem Serial_total (f : fakeFetcher) :
    ∀ (fuel : Nat) (url : String) (st : SerialState),
      unmarkedCount f st.fetched < fuel → ∃ st', Serial fuel url f st = some st' := by
  intro fuel
  induction fuel with
  | zero => intro url st h; exact absurd h (Nat.not_lt_zero _)
  | succ fuel ih =>
    intro url st hfuel
    by_cases hm : st.fetched url = some true
    · exact ⟨st, Serial_succ_marked fuel url f st hm⟩
    · cases hl : f.lookup url with
      | none => exact ⟨st.visit url, Serial_succ_missing fuel url f st hm hl⟩
      | some res =>
        rw [Serial_succ_found fuel url f st res hm hl]
        have hlt : unmarkedCount f (st.visit url).fetched < fuel :=
          lt_of_lt_of_le (unmarkedCount_visit_lt f st.fetched url
            (key_mem_graphIds f url res hl) hm) (Nat.lt_succ_iff.mp hfuel)
        obtain ⟨s', hs', _⟩ := foldlM_option_isSome (fun s u => Serial fuel u f s)
          (fun t => unmarkedCount f t.fetched < fuel) res.urls (st.visit url)
          (by
            intro a _ t ht
            obtain ⟨t', ht'⟩ := ih a t ht
            exact ⟨t', ht', lt_of_le_of_lt
              (unmarkedCount_mono f t.fetched t'.fetched (Serial_post f fuel a t t' ht').mono) ht⟩)
          hlt
        exact ⟨s', hs'⟩

theorem foldlM_option_congr {σ α : Type} (g g' : σ → α → Option σ)
    (hg : ∀ t a t', g t a = some t' → g' t a = some t') :
    ∀ (l : List α) (s s' : σ), l.foldlM g s = some s' → l.foldlM g' s = some s' := by
  intro l
  induction l with
  | nil => intro s s' h; simpa using h
  | cons a t ih =>
    intro s s' h
    rw [List.foldlM_cons] at h ⊢
    cases hga : g s a with
    | none => rw [hga] at h; simp at h
    | some s1 =>
      rw [hga] at h
      rw [hg s a s1 hga]
      simp only [Option.bind_eq_bind, Option.some_bind] at h ⊢
      exact ih s1 s' h

/-- More fuel does not change what `Serial` returns. -/
theorem Serial_fuel_succ (f : fakeFetcher) :
    ∀ (fuel : Nat) (url : String) (st st' : SerialState),
      Serial fuel url f st = some st' → Serial (fuel + 1) url f st = some st' := by
  intro fuel
  induction fuel with
  | zero => intro url st st' h; simp [Serial] at h
  | succ fuel ih =>
    intro url st st' h
    rcases Serial_cases fuel url f st st' h with ⟨hm, rfl⟩ | ⟨hm, hl, rfl⟩ | ⟨hm, res, hl, hloop⟩
    · exact Serial_succ_marked _ url f _ hm
    · exact Serial_succ_missing _ url f st hm hl
    · rw [Serial_succ_found _ url f st res hm hl]
      exact foldlM_option_congr _ _ (fun t a t' hh => ih a t t' hh) res.urls _ _ hloop

theorem Serial_fuel_le (f : fakeFetcher) (url : String) (st st' : SerialState) :
    ∀ (fuel fuel' : Nat), fuel ≤ fuel' →
      Serial fuel url f st = some st' → Serial fuel' url f st = some st' := by
  intro fuel fuel' hle h
  induction hle with
  | refl => exact h
  | step _ ih => exact Serial_fuel_succ f _ url st st' ih

/-- The result of `Serial` is the same for every sufficient amount of fuel. -/
theorem Serial_result (f : fakeFetcher) (url : String) (st : SerialState) :
    ∃ st', ∀ fuel, unmarkedCount f st.fetched < fuel → Serial fuel url f st = some st' := by
  obtain ⟨st', h⟩ := Serial_total f (unmarkedCount f st.fetched + 1) url st (Nat.lt_succ_self _)
  exact ⟨st', fun fuel hf => Serial_fuel_le f url st st' _ fuel hf h⟩

theorem callsInv_init : CallsInv ⟨FetchedMap.empty, []⟩ := by
  refine ⟨List.nodup_nil, ?_⟩
  intro u
  simp [FetchedMap.empty]

theorem closed_empty (f : fakeFetcher) (S : Set String) : Closed f FetchedMap.empty S := by
  intro w res c hw
  simp [FetchedMap.empty] at hw

/-- From the empty map, a returning `Serial` marks exactly the ids reachable from the seed. -/
theorem Serial_marked_iff_reach (f : fakeFetcher) (seed : String) (fuel : Nat)
    (st' : SerialState) (h : Serial fuel seed f ⟨FetchedMap.empty, []⟩ = some st') (v : String) :
    st'.fetched v = some true ↔ Reach f seed v := by
  have hp := Serial_post f fuel seed _ st' h
  constructor
  · intro hv
    rcases hp.sound v hv with e | e
    · simp [FetchedMap.empty] at e
    · exact e
  · intro hr
    exact closed_reach f st'.fetched seed v (hp.closed ∅ (closed_empty f ∅)) hp.marked hr

/-- Reachability spelled out as a path: a list of ids chained by edges from `a`, ending in `b`. -/
theorem Reach_iff_path (f : fakeFetcher) (a b : String) :
    Reach f a b ↔
      ∃ p : List String, List.Chain (Edge f) a p ∧ (a :: p).getLast (List.cons_ne_nil _ _) = b :=
  ⟨fun h => List.exists_chain_of_relationReflTransGen h,
   fun ⟨p, h1, h2⟩ => List.relationReflTransGen_of_exists_chain p h1 h2⟩

theorem Serial_calls_spec (f : fakeFetcher) (seed : String) (fuel : Nat)
    (st' : SerialState) (h : Serial fuel seed f ⟨FetchedMap.empty, []⟩ = some st') :
    st'.calls.Nodup ∧ ∀ v, v ∈ st'.calls ↔ Reach f seed v := by
  have hp := Serial_post f fuel seed _ st' h
  obtain ⟨hnd, hmem⟩ := hp.calls callsInv_init
  exact ⟨hnd, fun v => (hmem v).trans (Serial_marked_iff_reach f seed fuel st' h v)⟩

/-! ## `testAndSet` -/

theorem testAndSetAll_flags :
    ∀ (us : List String) (fs : fetchState) (i : Nat),
      (testAndSetAll fs us).1[i]? =
        us[i]?.map (fun u => fs.fetched.get u || decide (u ∈ us.take i)) := by
  intro us
  induction us with
  | nil => intro fs i; simp [testAndSetAll]
  | cons u us ih =>
    intro fs i
    cases i with
    | zero => simp [testAndSetAll, fetchState.testAndSet]
    | succ i =>
      simp only [testAndSetAll, List.getElem?_cons_succ, List.take_succ_cons, List.mem_cons]
      rw [ih]
      cases hu : us[i]? with
      | none => simp
      | some x =>
        simp only [Option.map_some', Option.some.injEq, fetchState.testAndSet]
        by_cases hx : x = u
        · subst hx
          have : (fs.fetched.set x true).get x = true :=
            (FetchedMap.get_eq_true _ _).mpr (FetchedMap.set_same _ _ _)
          simp [this]
        · have : (fs.fetched.set u true).get x = fs.fetched.get x := by
            unfold FetchedMap.get
            rw [FetchedMap.set_other _ _ _ _ hx]
          simp [this, hx]

theorem testAndSetAll_mono :
    ∀ (us : List String) (fs : fetchState) (u : String),
      fs.fetched u = some true → (testAndSetAll fs us).2.fetched u = some true := by
  intro us
  induction us with
  | nil => intro fs u h; exact h
  | cons a us ih =>
    intro fs u h
    simp only [testAndSetAll]
    exact ih _ u (FetchedMap.set_true_mono _ _ _ h)

theorem testAndSetAll_append :
    ∀ (us vs : List String) (fs : fetchState),
      testAndSetAll fs (us ++ vs) =
        ((testAndSetAll fs us).1 ++ (testAndSetAll (testAndSetAll fs us).2 vs).1,
          (testAndSetAll (testAndSetAll fs us).2 vs).2) := by
  intro us
  induction us with
  | nil => intro vs fs; simp [testAndSetAll]
  | cons a us ih =>
    intro vs fs
    rw [List.cons_append]
    simp only [testAndSetAll]
    rw [ih]
    rfl

/-! ## A failing fetch and an empty child list -/

theorem Serial_congr_missing (f f' : fakeFetcher) (x body : String)
    (hx : f.lookup x = none) (hx' : f'.lookup x = some ⟨body, []⟩)
    (hother : ∀ y, y ≠ x → f'.lookup y = f.lookup y) :
    ∀ (fuel : Nat) (seed : String) (st : SerialState),
      Serial fuel seed f st = Serial fuel seed f' st := by
  intro fuel
  induction fuel with
  | zero => intro seed st; rfl
  | succ fuel ih =>
    intro seed st
    by_cases hm : st.fetched seed = some true
    · rw [Serial_succ_marked fuel seed f st hm, Serial_succ_marked fuel seed f' st hm]
    · by_cases hs : seed = x
      · subst hs
        rw [Serial_succ_missing fuel seed f st hm hx,
          Serial_succ_found fuel seed f' st _ hm hx']
        rfl
      · have hl := hother seed hs
        cases hf : f.lookup seed with
        | none =>
          rw [hf] at hl
          rw [Serial_succ_missing fuel seed f st hm hf, Serial_succ_missing fuel seed f' st hm hl]
        | some res =>
          rw [hf] at hl
          rw [Serial_succ_found fuel seed f st res hm hf,
            Serial_succ_found fuel seed f' st res hm hl]
          have hfun : (fun s u => Serial fuel u f s) = (fun s u => Serial fuel u f' s) := by
            funext s u; exact ih u s
          rw [hfun]

theorem worker_congr_missing (f f' : fakeFetcher) (x body : String)
    (hx : f.lookup x = none) (hx' : f'.lookup x = some ⟨body, []⟩)
    (hother : ∀ y, y ≠ x → f'.lookup y = f.lookup y) (u : String) :
    worker u f = worker u f' := by
  by_cases hu : u = x
  · subst hu
    simp [worker, fakeFetcher.Fetch, hx, hx']
  · simp [worker, fakeFetcher.Fetch, hother u hu]

/-! ## The channel crawler: the step relation -/

theorem getElem?_split {α : Type} :
    ∀ (l : List α) (i : Nat) (u : α), l[i]? = some u →
      ∃ l1 l2, l = l1 ++ u :: l2 ∧ l.eraseIdx i = l1 ++ l2 := by
  intro l
  induction l with
  | nil => intro i u h; simp at h
  | cons a t ih =>
    intro i u h
    cases i with
    | zero =>
      simp only [List.getElem?_cons_zero, Option.some.injEq] at h
      exact ⟨[], t, by simp [h], by simp⟩
    | succ i =>
      simp only [List.getElem?_cons_succ] at h
      obtain ⟨l1, l2, h1, h2⟩ := ih i u h
      exact ⟨a :: l1, l2, by simp [h1], by simp [h2]⟩

theorem getElem?_append_cons {α : Type} (l1 : List α) (u : α) (l2 : List α) :
    (l1 ++ u :: l2)[l1.length]? = some u ∧ (l1 ++ u :: l2).eraseIdx l1.length = l1 ++ l2 := by
  induction l1 with
  | nil => simp
  | cons a t ih => simpa using ih

/-- Every enabled action is a step of the relation. -/
theorem Step_of_step (f : fakeFetcher) (s s' : ChanState) (a : Action)
    (h : step f s a = some s') : Step f s s' := by
  obtain ⟨n, fetched, pc, running, sending, calls, spawned⟩ := s
  cases a with
  | fetch i =>
    simp only [step] at h
    cases hu : running[i]? with
    | none => rw [hu] at h; simp at h
    | some u =>
      rw [hu] at h
      simp only [Option.some.injEq] at h
      obtain ⟨l1, l2, h1, h2⟩ := getElem?_split running i u hu
      subst h
      rw [h2]
      subst h1
      exact Step.fetch n fetched pc l1 u l2 sending calls spawned
  | recv i =>
    simp only [step] at h
    cases pc with
    | proc rest => simp at h
    | done => simp at h
    | recv =>
      cases hu : sending[i]? with
      | none => rw [hu] at h; simp at h
      | some urls =>
        rw [hu] at h
        simp only [Option.some.injEq] at h
        obtain ⟨l1, l2, h1, h2⟩ := getElem?_split sending i urls hu
        subst h
        rw [h2]
        subst h1
        exact Step.recv n fetched running l1 urls l2 calls spawned
  | coord =>
    simp only [step, coordinator] at h
    cases pc with
    | recv => simp at h
    | done => simp at h
    | proc rest =>
      cases rest with
      | nil =>
        simp only [Option.some.injEq] at h
        subst h
        by_cases hn : n - 1 = 0
        · simp only [hn, if_true]
          have := Step.stop (f := f) n fetched running sending calls spawned hn
          rw [hn] at this
          exact this
        · simp only [hn, if_false]
          exact Step.next n fetched running sending calls spawned hn
      | cons u rest =>
        by_cases hm : fetched.get u = true
        · simp only [hm, Bool.true_eq_false, beq_iff_eq, if_false, Option.some.injEq] at h
          subst h
          exact Step.skip n fetched u rest running sending calls spawned
            ((FetchedMap.get_eq_true _ _).mp hm)
        · have hm' : fetched.get u = false := by simpa using hm
          simp only [hm', beq_self_eq_true, if_true, Option.some.injEq] at h
          subst h
          exact Step.mark n fetched u rest running sending calls spawned
            (fun hc => hm ((FetchedMap.get_eq_true _ _).mpr hc))

/-- Every step of the relation is the effect of an enabled action. -/
theorem step_of_Step (f : fakeFetcher) (s s' : ChanState) (h : Step f s s') :
    ∃ a, step f s a = some s' := by
  cases h with
  | fetch n fetched pc l1 u l2 sending calls spawned =>
    refine ⟨Action.fetch l1.length, ?_⟩
    obtain ⟨h1, h2⟩ := getElem?_append_cons l1 u l2
    simp only [step, h1, h2]
  | recv n fetched running l1 urls l2 calls spawned =>
    refine ⟨Action.recv l1.length, ?_⟩
    obtain ⟨h1, h2⟩ := getElem?_append_cons l1 urls l2
    simp only [step, h1, h2]
  | mark n fetched u rest running sending calls spawned hm =>
    refine ⟨Action.coord, ?_⟩
    have hg : fetched.get u = false := by
      cases hb : fetched.get u with
      | false => rfl
      | true => exact absurd ((FetchedMap.get_eq_true _ _).mp hb) hm
    simp [step, coordinator, hg]
  | skip n fetched u rest running sending calls spawned hm =>
    refine ⟨Action.coord, ?_⟩
    have hg : fetched.get u = true := (FetchedMap.get_eq_true _ _).mpr hm
    simp [step, coordinator, hg]
  | stop n fetched running sending calls spawned hn =>
    exact ⟨Action.coord, by simp [step, coordinator, hn]⟩
  | next n fetched running sending calls spawned hn =>
    exact ⟨Action.coord, by simp [step, coordinator, hn]⟩

theorem CountInv_step (f : fakeFetcher) (s s' : ChanState) (h : Step f s s')
    (hi : CountInv s) : CountInv s' := by
  cases h <;> simp only [CountInv, List.length_append, List.length_cons, List.length_nil,
    Nat.cast_add, Nat.cast_one, Nat.cast_zero] at hi ⊢
  · cases ‹CoordPc› <;> simp only [] at hi ⊢
    · omega
    · omega
    · obtain ⟨_, h2, _⟩ := hi
      simp at h2
  · omega
  · omega
  · omega
  · refine ⟨by omega, ?_, ?_⟩ <;> apply List.eq_nil_of_length_eq_zero <;> omega
  · omega

/-! ## The channel crawler: invariants -/

theorem mem_worker_iff (f : fakeFetcher) (u c : String) : c ∈ worker u f ↔ Edge f u c := by
  unfold worker Edge
  cases hl : f.lookup u with
  | none => simp [fakeFetcher.Fetch, hl]
  | some res => simp [fakeFetcher.Fetch, hl]

theorem SpawnInv_step (f : fakeFetcher) (s s' : ChanState) (h : Step f s s')
    (hi : SpawnInv s) : SpawnInv s' := by
  cases h with
  | fetch n fetched pc l1 u l2 sending calls spawned =>
    obtain ⟨h1, h2, h3⟩ := hi
    refine ⟨h1, h2, List.Perm.trans ?_ h3⟩
    show (calls ++ [u] ++ (l1 ++ l2)).Perm (calls ++ (l1 ++ u :: l2))
    rw [List.append_assoc]
    exact List.Perm.append_left _ (@List.perm_middle _ u l1 l2).symm
  | recv n fetched running l1 urls l2 calls spawned => exact hi
  | mark n fetched u rest running sending calls spawned hm =>
    obtain ⟨h1, h2, h3⟩ := hi
    have hnot : u ∉ spawned := fun hc => hm ((h2 u).mp hc)
    refine ⟨?_, ?_, ?_⟩
    · show (spawned ++ [u]).Nodup
      rw [List.nodup_append]
      refine ⟨h1, List.nodup_singleton _, ?_⟩
      intro a ha hb
      rw [List.mem_singleton] at hb
      exact hnot (hb ▸ ha)
    · intro v
      show v ∈ spawned ++ [u] ↔ fetched.set u true v = some true
      rw [FetchedMap.set_true_iff, List.mem_append, List.mem_singleton, h2 v]
      exact or_comm
    · show (calls ++ (running ++ [u])).Perm (spawned ++ [u])
      rw [← List.append_assoc]
      exact List.Perm.append_right _ h3
  | skip n fetched u rest running sending calls spawned hm => exact hi
  | stop n fetched running sending calls spawned hn => exact hi
  | next n fetched running sending calls spawned hn => exact hi

theorem SoundInv_step (f : fakeFetcher) (seed : String) (s s' : ChanState) (h : Step f s s')
    (hi : SoundInv f seed s) : SoundInv f seed s' := by
  cases h with
  | fetch n fetched pc l1 u l2 sending calls spawned =>
    simp only [SoundInv, ChanState.pending, List.flatten_append, List.flatten_cons,
      List.flatten_nil, List.append_nil, List.mem_append, List.mem_cons] at hi ⊢
    obtain ⟨h1, h2, h3⟩ := hi
    refine ⟨h1, fun v hv => h2 v (by tauto), ?_⟩
    intro v hv
    rcases hv with hv | hv | hv
    · exact h3 v (Or.inl hv)
    · exact h3 v (Or.inr hv)
    · exact Relation.ReflTransGen.tail (h2 u (Or.inr (Or.inl rfl)))
        ((mem_worker_iff f u v).mp hv)
  | recv n fetched running l1 urls l2 calls spawned =>
    simp only [SoundInv, ChanState.pending, CoordPc.rest, List.flatten_append,
      List.flatten_cons, List.mem_append, List.nil_append] at hi ⊢
    obtain ⟨h1, h2, h3⟩ := hi
    exact ⟨h1, h2, fun v hv => h3 v (by tauto)⟩
  | mark n fetched u rest running sending calls spawned hm =>
    simp only [SoundInv, ChanState.pending, CoordPc.rest, List.mem_append, List.mem_cons,
      List.mem_singleton, FetchedMap.set_true_iff, List.not_mem_nil, or_false] at hi ⊢
    obtain ⟨h1, h2, h3⟩ := hi
    have hu : Reach f seed u := h3 u (Or.inl (Or.inl rfl))
    refine ⟨?_, ?_, fun v hv => h3 v (by tauto)⟩
    · intro v hv
      rcases hv with e | e
      · exact e ▸ hu
      · exact h1 v e
    · intro v hv
      rcases hv with e | e
      · exact h2 v e
      · exact e ▸ hu
  | skip n fetched u rest running sending calls spawned hm =>
    simp only [SoundInv, ChanState.pending, CoordPc.rest, List.mem_append,
      List.mem_cons] at hi ⊢
    obtain ⟨h1, h2, h3⟩ := hi
    exact ⟨h1, h2, fun v hv => h3 v (by tauto)⟩
  | stop n fetched running sending calls spawned hn => exact hi
  | next n fetched running sending calls spawned hn => exact hi

theorem ClosureInv_step (f : fakeFetcher) (seed : String) (s s' : ChanState)
    (h : Step f s s') (hi : ClosureInv f seed s) : ClosureInv f seed s' := by
  cases h with
  | fetch n fetched pc l1 u l2 sending calls spawned =>
    simp only [ClosureInv, ChanState.pending, List.flatten_append, List.flatten_cons,
      List.flatten_nil, List.append_nil, List.mem_append, List.mem_cons] at hi ⊢
    obtain ⟨h1, h2⟩ := hi
    refine ⟨by tauto, ?_⟩
    intro w res c hw hl hc
    rcases h2 w res c hw hl hc with e | (e | e | e) | e
    · exact Or.inl e
    · exact Or.inr (Or.inl (Or.inl e))
    · subst e
      exact Or.inr (Or.inr (Or.inr (Or.inr ((mem_worker_iff f w c).mpr ⟨res, hl, hc⟩))))
    · exact Or.inr (Or.inl (Or.inr e))
    · exact Or.inr (Or.inr (by tauto))
  | recv n fetched running l1 urls l2 calls spawned =>
    simp only [ClosureInv, ChanState.pending, CoordPc.rest, List.flatten_append,
      List.flatten_cons, List.mem_append, List.nil_append] at hi ⊢
    obtain ⟨h1, h2⟩ := hi
    refine ⟨by tauto, ?_⟩
    intro w res c hw hl hc
    have := h2 w res c hw hl hc
    tauto
  | mark n fetched u rest running sending calls spawned hm =>
    simp only [ClosureInv, ChanState.pending, CoordPc.rest, List.mem_append, List.mem_cons,
      List.mem_singleton, FetchedMap.set_true_iff, List.not_mem_nil, or_false] at hi ⊢
    obtain ⟨h1, h2⟩ := hi
    refine ⟨by tauto, ?_⟩
    intro w res c hw hl hc
    rcases hw with e | e
    · exact Or.inr (Or.inl (Or.inr e))
    · have := h2 w res c e hl hc
      tauto
  | skip n fetched u rest running sending calls spawned hm =>
    simp only [ClosureInv, ChanState.pending, CoordPc.rest, List.mem_append,
      List.mem_cons] at hi ⊢
    obtain ⟨h1, h2⟩ := hi
    refine ⟨?_, ?_⟩
    · rcases h1 with e | (e | e) | e
      · exact Or.inl e
      · exact Or.inl (e ▸ hm)
      · exact Or.inr (Or.inl e)
      · exact Or.inr (Or.inr e)
    · intro w res c hw hl hc
      rcases h2 w res c hw hl hc with e | e | (e | e) | e
      · exact Or.inl e
      · exact Or.inr (Or.inl e)
      · exact Or.inl (e ▸ hm)
      · exact Or.inr (Or.inr (Or.inl e))
      · exact Or.inr (Or.inr (Or.inr e))
  | stop n fetched running sending calls spawned hn => exact hi
  | next n fetched running sending calls spawned hn => exact hi

theorem ChanInv_init (f : fakeFetcher) (seed : String) :
    ChanInv f seed (ConcurrentChannel seed) := by
  refine ⟨?_, ?_, ?_, ?_⟩
  · simp [CountInv, ConcurrentChannel]
  · refine ⟨List.nodup_nil, ?_, List.Perm.refl _⟩
    intro u
    simp [ConcurrentChannel, FetchedMap.empty]
  · refine ⟨?_, ?_, ?_⟩
    · intro u hu; simp [ConcurrentChannel, FetchedMap.empty] at hu
    · intro u hu; simp [ConcurrentChannel] at hu
    · intro u hu
      simp [ConcurrentChannel, ChanState.pending, CoordPc.rest] at hu
      exact hu ▸ Relation.ReflTransGen.refl
  · refine ⟨Or.inr ?_, ?_⟩
    · simp [ConcurrentChannel, ChanState.pending, CoordPc.rest]
    · intro w res c hw
      simp [ConcurrentChannel, FetchedMap.empty] at hw

theorem ChanInv_step (f : fakeFetcher) (seed : String) (s s' : ChanState) (h : Step f s s')
    (hi : ChanInv f seed s) : ChanInv f seed s' :=
  ⟨CountInv_step f s s' h hi.count, SpawnInv_step f s s' h hi.spawn,
   SoundInv_step f seed s s' h hi.sound, ClosureInv_step f seed s s' h hi.closure⟩

/-! ## The channel crawler: executions -/

theorem reach_mem_universe (f : fakeFetcher) (seed u : String) (h : Reach f seed u) :
    u ∈ seed :: graphIds f := by
  rcases Relation.ReflTransGen.cases_tail h with e | ⟨w, _, res, hl, hc⟩
  · exact e ▸ List.mem_cons_self _ _
  · exact List.mem_cons_of_mem _ (child_mem_graphIds f w u res hl hc)

theorem FetchedMap.get_set_true (m : FetchedMap) (u v : String) :
    (m.set u true).get v = (decide (v = u) || m.get v) := by
  by_cases h : v = u
  · subst h
    simp [(FetchedMap.get_eq_true _ _).mpr (FetchedMap.set_same m v true)]
  · simp [FetchedMap.get, FetchedMap.set_other m u v true h, h]

theorem sum_filter_le {α : Type} (w : α → Nat) (p p' : α → Bool)
    (h : ∀ x, p' x = true → p x = true) :
    ∀ l : List α, ((l.filter p').map w).sum ≤ ((l.filter p).map w).sum := by
  intro l
  induction l with
  | nil => simp
  | cons x t ih =>
    cases hp' : p' x with
    | false =>
      cases hp : p x with
      | false => simpa [List.filter_cons, hp, hp'] using ih
      | true =>
        simp only [List.filter_cons, hp, hp', if_true, List.map_cons, List.sum_cons]
        simp only [Bool.false_eq_true, if_false]
        omega
    | true =>
      simp only [List.filter_cons, h x hp', hp', if_true, List.map_cons, List.sum_cons]
      omega

theorem sum_filter_drop {α : Type} (w : α → Nat) (p p' : α → Bool)
    (h : ∀ x, p' x = true → p x = true) (u : α) (hu : p u = true) (hu' : p' u = false) :
    ∀ l : List α, u ∈ l →
      ((l.filter p').map w).sum + w u ≤ ((l.filter p).map w).sum := by
  intro l
  induction l with
  | nil => intro hin; simp at hin
  | cons x t ih =>
    intro hin
    rcases List.mem_cons.mp hin with e | e
    · subst e
      have := sum_filter_le w p p' h t
      simp only [List.filter_cons, hu, hu', if_true, List.map_cons, List.sum_cons]
      simp only [Bool.false_eq_true, if_false]
      omega
    · have := ih e
      cases hp' : p' x with
      | false =>
        cases hp : p x with
        | false => simpa [List.filter_cons, hp, hp'] using this
        | true =>
          simp only [List.filter_cons, hp, hp', if_true, List.map_cons, List.sum_cons]
          simp only [Bool.false_eq_true, if_false]
          omega
      | true =>
        simp only [List.filter_cons, h x hp', hp', if_true, List.map_cons, List.sum_cons]
        omega

theorem sum_filter_mark (w : String → Nat) (m : FetchedMap) (u : String)
    (hm : m u ≠ some true) (l : List String) (hin : u ∈ l) :
    ((l.filter (fun v => !(m.set u true).get v)).map w).sum + w u ≤
      ((l.filter (fun v => !m.get v)).map w).sum := by
  refine sum_filter_drop w (fun v => !m.get v) (fun v => !(m.set u true).get v) ?_ u ?_ ?_ l hin
  · intro x hx
    simp only [FetchedMap.get_set_true, Bool.not_eq_true', Bool.or_eq_false_iff] at hx ⊢
    exact hx.2
  · cases hb : m.get u with
    | false => simp [hb]
    | true => exact absurd ((FetchedMap.get_eq_true _ _).mp hb) hm
  · simp [FetchedMap.get_set_true]

/-- Every step lowers the measure. -/
theorem chanMeasure_step (f : fakeFetcher) (seed : String) (s s' : ChanState)
    (h : Step f s s') (hi : SoundInv f seed s) :
    chanMeasure f seed s' < chanMeasure f seed s := by
  cases h with
  | fetch n fetched pc l1 u l2 sending calls spawned =>
    simp only [chanMeasure, List.map_append, List.map_cons, List.map_nil, List.sum_append,
      List.sum_cons, List.sum_nil]
    omega
  | recv n fetched running l1 urls l2 calls spawned =>
    simp only [chanMeasure, List.map_append, List.map_cons, List.sum_append, List.sum_cons,
      CoordPc.weight]
    omega
  | mark n fetched u rest running sending calls spawned hm =>
    have hu : u ∈ (seed :: graphIds f).dedup :=
      List.mem_dedup.mpr (reach_mem_universe f seed u
        (hi.2.2 u (by simp [ChanState.pending, CoordPc.rest])))
    have := sum_filter_mark (fun v => (worker v f).length + 4) fetched u hm _ hu
    simp only [chanMeasure, List.map_append, List.map_cons, List.map_nil, List.sum_append,
      List.sum_cons, List.sum_nil, CoordPc.weight, List.length_cons] at this ⊢
    omega
  | skip n fetched u rest running sending calls spawned hm =>
    simp only [chanMeasure, CoordPc.weight, List.length_cons]
    omega
  | stop n fetched running sending calls spawned hn =>
    simp only [chanMeasure, CoordPc.weight, List.length_nil]
    omega
  | next n fetched running sending calls spawned hn =>
    simp only [chanMeasure, CoordPc.weight, List.length_nil]
    omega

theorem run_cons (f : fakeFetcher) (s : ChanState) (a : Action) (as : List Action) :
    run f s (a :: as) = (step f s a).bind (fun s' => run f s' as) := rfl

theorem run_append (f : fakeFetcher) :
    ∀ (as bs : List Action) (s : ChanState),
      run f s (as ++ bs) = (run f s as).bind (fun s' => run f s' bs) := by
  intro as
  induction as with
  | nil => intro bs s; rfl
  | cons a as ih =>
    intro bs s
    rw [List.cons_append, run_cons, run_cons]
    cases step f s a with
    | none => rfl
    | some s1 => exact ih bs s1

/-- Along an execution the invariant is kept and the measure pays for every step. -/
theorem run_inv (f : fakeFetcher) (seed : String) :
    ∀ (sched : List Action) (s s' : ChanState), run f s sched = some s' →
      ChanInv f seed s →
      ChanInv f seed s' ∧ chanMeasure f seed s' + sched.length ≤ chanMeasure f seed s := by
  intro sched
  induction sched with
  | nil =>
    intro s s' h hi
    simp only [run, Option.some.injEq] at h
    subst h
    exact ⟨hi, by simp⟩
  | cons a as ih =>
    intro s s' h hi
    rw [run_cons] at h
    cases hs : step f s a with
    | none => rw [hs] at h; simp at h
    | some s1 =>
      rw [hs] at h
      simp only [Option.some_bind] at h
      have hstep := Step_of_step f s s1 a hs
      obtain ⟨hi', hm⟩ := ih s1 s' h (ChanInv_step f seed s s1 hstep hi)
      have hlt := chanMeasure_step f seed s s1 hstep hi.sound
      refine ⟨hi', ?_⟩
      simp only [List.length_cons]
      omega

/-- The invariant holds in every state an execution of `ConcurrentChannel` reaches. -/
theorem reachable_inv (f : fakeFetcher) (seed : String) (sched : List Action) (s : ChanState)
    (h : run f (ConcurrentChannel seed) sched = some s) : ChanInv f seed s :=
  (run_inv f seed sched _ s h (ChanInv_init f seed)).1

theorem chan_progress_isSome (f : fakeFetcher) (s : ChanState) (hc : CountInv s)
    (hpc : s.pc ≠ CoordPc.done) : ∃ a, (step f s a).isSome = true := by
  obtain ⟨n, fetched, pc, running, sending, calls, spawned⟩ := s
  cases pc with
  | done => exact absurd rfl hpc
  | recv =>
    simp only [CountInv] at hc
    cases running with
    | cons u t => exact ⟨Action.fetch 0, by simp [step]⟩
    | nil =>
      cases sending with
      | cons m t => exact ⟨Action.recv 0, by simp [step]⟩
      | nil =>
        obtain ⟨h1, h2⟩ := hc
        simp at h1
        omega
  | proc rest =>
    cases rest with
    | nil => exact ⟨Action.coord, by simp [step, coordinator]⟩
    | cons u rest =>
      by_cases hm : fetched.get u = true
      · exact ⟨Action.coord, by simp [step, coordinator, hm]⟩
      · have hm' : fetched.get u = false := by simpa using hm
        exact ⟨Action.coord, by simp [step, coordinator, hm']⟩

/-- No deadlock: unless the coordinator has returned, some action is enabled. -/
theorem chan_progress (f : fakeFetcher) (s : ChanState) (hc : CountInv s)
    (hpc : s.pc ≠ CoordPc.done) : ∃ a s', step f s a = some s' := by
  obtain ⟨a, ha⟩ := chan_progress_isSome f s hc hpc
  exact ⟨a, Option.isSome_iff_exists.mp ha⟩

/-- Once the coordinator has returned nothing can move. -/
theorem chan_done_stuck (f : fakeFetcher) (s : ChanState) (hc : CountInv s)
    (hpc : s.pc = CoordPc.done) (a : Action) : step f s a = none := by
  obtain ⟨n, fetched, pc, running, sending, calls, spawned⟩ := s
  simp only at hpc
  subst hpc
  simp only [CountInv] at hc
  obtain ⟨_, h2, _⟩ := hc
  subst h2
  cases a <;> simp [step, coordinator]

/-- Every state satisfying the invariant can be run to the coordinator's return. -/
theorem chan_completes (f : fakeFetcher) (seed : String) :
    ∀ (k : Nat) (s : ChanState), chanMeasure f seed s ≤ k → ChanInv f seed s →
      ∃ sched s', run f s sched = some s' ∧ s'.pc = CoordPc.done := by
  intro k
  induction k with
  | zero =>
    intro s hk hi
    by_cases hpc : s.pc = CoordPc.done
    · exact ⟨[], s, rfl, hpc⟩
    · obtain ⟨a, s1, hs⟩ := chan_progress f s hi.count hpc
      have := chanMeasure_step f seed s s1 (Step_of_step f s s1 a hs) hi.sound
      omega
  | succ k ih =>
    intro s hk hi
    by_cases hpc : s.pc = CoordPc.done
    · exact ⟨[], s, rfl, hpc⟩
    · obtain ⟨a, s1, hs⟩ := chan_progress f s hi.count hpc
      have hstep := Step_of_step f s s1 a hs
      have hlt := chanMeasure_step f seed s s1 hstep hi.sound
      obtain ⟨sched, s', hr, hd⟩ := ih s1 (by omega) (ChanInv_step f seed s s1 hstep hi)
      exact ⟨a :: sched, s', by rw [run_cons, hs]; exact hr, hd⟩

/-- When the coordinator has returned, the marked ids are the reachable ones. -/
theorem chan_done_marked (f : fakeFetcher) (seed : String) (s : ChanState)
    (hi : ChanInv f seed s) (hd : s.pc = CoordPc.done) (v : String) :
    s.fetched v = some true ↔ Reach f seed v := by
  obtain ⟨n, fetched, pc, running, sending, calls, spawned⟩ := s
  simp only at hd
  subst hd
  obtain ⟨hcount, _, hsound, hclos⟩ := hi
  simp only [CountInv] at hcount
  obtain ⟨_, hr, hs⟩ := hcount
  subst hr hs
  simp only [ClosureInv, ChanState.pending, CoordPc.rest, List.flatten_nil, List.append_nil,
    List.not_mem_nil, or_false] at hclos
  constructor
  · exact hsound.1 v
  · intro hreach
    refine closed_reach f fetched seed v ?_ hclos.1 hreach
    intro w res c hw _ hl hc
    exact hclos.2 w res c hw hl hc

/-- When the coordinator has returned, every spawned worker has made its one call. -/
theorem chan_done_calls (s : ChanState) (hc : CountInv s) (hs : SpawnInv s)
    (hd : s.pc = CoordPc.done) : s.calls.Perm s.spawned := by
  obtain ⟨n, fetched, pc, running, sending, calls, spawned⟩ := s
  simp only at hd
  subst hd
  simp only [CountInv] at hc
  obtain ⟨_, hr, _⟩ := hc
  subst hr
  have := hs.2.2
  simpa using this

/-! ## The channel crawler: the counter -/

theorem CountInv_nonneg (s : ChanState) (hc : CountInv s) : 0 ≤ s.n := by
  obtain ⟨n, fetched, pc, running, sending, calls, spawned⟩ := s
  cases pc <;> simp only [CountInv] at hc ⊢ <;> omega

theorem CountInv_pos (s : ChanState) (hc : CountInv s) (hpc : s.pc ≠ CoordPc.done) :
    0 < s.n := by
  obtain ⟨n, fetched, pc, running, sending, calls, spawned⟩ := s
  cases pc with
  | done => exact absurd rfl hpc
  | recv => simp only [CountInv] at hc ⊢; omega
  | proc rest => simp only [CountInv] at hc ⊢; omega

theorem CountInv_zero_iff (s : ChanState) (hc : CountInv s) :
    s.n = 0 ↔ s.pc = CoordPc.done := by
  constructor
  · intro h0
    by_contra hpc
    have := CountInv_pos s hc hpc
    omega
  · intro hd
    obtain ⟨n, fetched, pc, running, sending, calls, spawned⟩ := s
    simp only at hd
    subst hd
    exact hc.1

theorem CountInv_recv (s : ChanState) (hc : CountInv s) (hpc : s.pc = CoordPc.recv) :
    0 < s.n ∧ (s.running ≠ [] ∨ s.sending ≠ []) := by
  obtain ⟨n, fetched, pc, running, sending, calls, spawned⟩ := s
  simp only at hpc
  subst hpc
  simp only [CountInv] at hc
  refine ⟨hc.2, ?_⟩
  by_contra hne
  simp only [ne_eq, not_or, not_not] at hne
  obtain ⟨h1, h2⟩ := hne
  subst h1 h2
  simp at hc
  omega

theorem CountInv_done (s : ChanState) (hc : CountInv s) (hpc : s.pc = CoordPc.done) :
    s.running = [] ∧ s.sending = [] := by
  obtain ⟨n, fetched, pc, running, sending, calls, spawned⟩ := s
  simp only at hpc
  subst hpc
  exact hc.2

theorem CountInv_proc_nil (s : ChanState) (hc : CountInv s) (hpc : s.pc = CoordPc.proc []) :
    s.n - 1 = 0 ↔ s.running = [] ∧ s.sending = [] := by
  obtain ⟨n, fetched, pc, running, sending, calls, spawned⟩ := s
  simp only at hpc
  subst hpc
  simp only [CountInv] at hc ⊢
  constructor
  · intro h
    constructor <;> apply List.eq_nil_of_length_eq_zero <;> omega
  · rintro ⟨h1, h2⟩
    subst h1 h2
    simp at hc
    omega

/-- In the states of an execution, `n = 0` occurs once if the execution ends with the
coordinator returned, and not at all otherwise. -/
theorem runStates_count_zero (f : fakeFetcher) (seed : String) :
    ∀ (sched : List Action) (s : ChanState) (tr : List ChanState),
      runStates f s sched = some tr → ChanInv f seed s →
      ∃ s', run f s sched = some s' ∧ tr.getLast? = some s' ∧
        (tr.map (fun t => t.n)).count 0 = if s'.pc = CoordPc.done then 1 else 0 := by
  intro sched
  induction sched with
  | nil =>
    intro s tr h hi
    simp only [runStates, Option.some.injEq] at h
    subst h
    refine ⟨s, rfl, rfl, ?_⟩
    by_cases hd : s.pc = CoordPc.done
    · simp [hd, (CountInv_zero_iff s hi.count).mpr hd]
    · have : s.n ≠ 0 := fun h0 => hd ((CountInv_zero_iff s hi.count).mp h0)
      rw [if_neg hd, List.map_cons, List.map_nil,
        List.count_cons_of_ne (fun e => this e.symm)]
      rfl
  | cons a as ih =>
    intro s tr h hi
    simp only [runStates] at h
    cases hs : step f s a with
    | none => rw [hs] at h; simp at h
    | some s1 =>
      rw [hs] at h
      simp only [Option.some_bind, Option.map_eq_some'] at h
      obtain ⟨tr1, h1, rfl⟩ := h
      obtain ⟨s', hr, hlast, hcount⟩ :=
        ih s1 tr1 h1 (ChanInv_step f seed s s1 (Step_of_step f s s1 a hs) hi)
      have hnd : s.pc ≠ CoordPc.done := by
        intro hd
        rw [chan_done_stuck f s hi.count hd a] at hs
        simp at hs
      have hn : s.n ≠ 0 := fun h0 => hnd ((CountInv_zero_iff s hi.count).mp h0)
      refine ⟨s', by rw [run_cons, hs]; exact hr, ?_, ?_⟩
      · cases tr1 with
        | nil => simp at hlast
        | cons t ts => simpa [List.getLast?_cons_cons] using hlast
      · rw [List.map_cons, List.count_cons_of_ne (fun e => hn e.symm)]
        exact hcount

/-! ## `Fetch` and the key-value handlers -/

theorem lookup_eq_none_iff_not_key (f : fakeFetcher) (u : String) :
    f.lookup u = none ↔ u ∉ f.map Prod.fst := by
  induction f with
  | nil => simp
  | cons p t ih =>
    obtain ⟨k, r⟩ := p
    by_cases hk : u = k
    · have hb : (u == k) = true := by simpa using hk
      simp [List.lookup_cons, hb, hk]
    · have hb : (u == k) = false := by simpa using hk
      rw [List.lookup_cons, hb]
      simp only [List.map_cons, List.mem_cons, not_or]
      exact ⟨fun h => ⟨hk, ih.mp h⟩, fun h => ih.mpr h.2⟩

/-- After a sequence of puts a `Get`, whatever the reply it is handed, stores the value of
the last put on the key, or else what the store held for the key before the puts, the empty
string when it held nothing. -/
theorem KV.Get_putAll (as : List PutArgs) :
    ∀ (kv : KV) (k : String) (gr : GetReply),
      ((kv.putAll as).Get ⟨k⟩ gr).2.1.Value =
        ((as.reverse.find? (fun a => a.Key = k)).map (fun a => a.Value)).getD
          ((kv.data k).getD "") := by
  induction as with
  | nil => intro kv k gr; simp [KV.putAll, KV.Get]
  | cons a as ih =>
    intro kv k gr
    rw [KV.putAll, ih]
    simp only [List.reverse_cons, List.find?_append, List.find?_cons, List.find?_nil]
    cases hfind : as.reverse.find? (fun a => a.Key = k) with
    | some b => simp
    | none =>
      by_cases hk : a.Key = k
      · simp [hk, KV.Put]
      · have hk' : ¬ k = a.Key := fun e => hk e.symm
        simp [hk, hk', KV.Put]

/-! ## The channel crawler: one message, and the messages consumed -/

/-- Processing one message: from the point where the coordinator holds `urls`, its next
`urls.length + 1` steps mark and spawn a duplicate-free list `new` of ids, the unmarked ids
of `urls`, and leave `n + new.length - 1` in the counter. -/
theorem coord_message (f : fakeFetcher) :
    ∀ (urls : List String) (n : Int) (fetched : FetchedMap) (running : List String)
      (sending : List (List String)) (calls spawned : List String),
      ∃ (new : List String) (fetched' : FetchedMap),
        run f ⟨n, fetched, CoordPc.proc urls, running, sending, calls, spawned⟩
            (List.replicate (urls.length + 1) Action.coord) =
          some ⟨n + new.length - 1, fetched',
            if n + new.length - 1 = 0 then CoordPc.done else CoordPc.recv,
            running ++ new, sending, calls, spawned ++ new⟩ ∧
        new.Nodup ∧ (∀ v, v ∈ new ↔ v ∈ urls ∧ fetched v ≠ some true) ∧
        (∀ v, fetched' v = if v ∈ new then some true else fetched v) := by
  intro urls
  induction urls with
  | nil =>
    intro n fetched running sending calls spawned
    refine ⟨[], fetched, ?_, List.nodup_nil, by simp, by simp⟩
    simp [run, step, coordinator]
  | cons u rest ih =>
    intro n fetched running sending calls spawned
    by_cases hm : fetched.get u = true
    · have hmark : fetched u = some true := (FetchedMap.get_eq_true _ _).mp hm
      obtain ⟨new, fetched', hrun, hnd, hmem, hfet⟩ :=
        ih n fetched running sending calls spawned
      refine ⟨new, fetched', ?_, hnd, ?_, hfet⟩
      · rw [List.length_cons, List.replicate_succ, run_cons]
        simp only [step, coordinator, hm, Bool.true_eq_false, beq_iff_eq, if_false,
          Option.some_bind]
        exact hrun
      · intro v
        rw [hmem v, List.mem_cons]
        constructor
        · rintro ⟨h1, h2⟩; exact ⟨Or.inr h1, h2⟩
        · rintro ⟨h1 | h1, h2⟩
          · exact absurd (h1 ▸ hmark) h2
          · exact ⟨h1, h2⟩
    · have hm' : fetched.get u = false := by simpa using hm
      have hun : fetched u ≠ some true := fun hc => hm ((FetchedMap.get_eq_true _ _).mpr hc)
      obtain ⟨new, fetched', hrun, hnd, hmem, hfet⟩ :=
        ih (n + 1) (fetched.set u true) (running ++ [u]) sending calls (spawned ++ [u])
      have hnot : u ∉ new := by
        intro hc
        exact ((hmem u).mp hc).2 (FetchedMap.set_same _ _ _)
      refine ⟨u :: new, fetched', ?_, List.nodup_cons.mpr ⟨hnot, hnd⟩, ?_, ?_⟩
      · rw [List.length_cons, List.replicate_succ, run_cons]
        simp only [step, coordinator, hm', beq_self_eq_true, if_true, Option.some_bind]
        rw [hrun]
        simp only [List.length_cons, Nat.cast_add, Nat.cast_one, List.append_assoc,
          List.singleton_append]
        have e : n + 1 + (new.length : Int) - 1 = n + ((new.length : Int) + 1) - 1 := by omega
        rw [e]
      · intro v
        rw [List.mem_cons, hmem v, List.mem_cons]
        constructor
        · rintro (h | ⟨h1, h2⟩)
          · exact ⟨Or.inl h, h ▸ hun⟩
          · exact ⟨Or.inr h1, fun hc => h2 (FetchedMap.set_true_mono _ _ _ hc)⟩
        · rintro ⟨h1 | h1, h2⟩
          · exact Or.inl h1
          · by_cases hv : v = u
            · exact Or.inl hv
            · exact Or.inr ⟨h1, fun hc =>
                ((FetchedMap.set_true_iff _ _ _).mp hc).elim hv h2⟩
      · intro v
        rw [hfet v]
        by_cases hv : v = u
        · subst hv
          simp [FetchedMap.set_same]
        · simp [hv, FetchedMap.set_other _ _ _ _ hv]

theorem newIds_spec (fetched : FetchedMap) (urls : List String) :
    (newIds fetched urls).Nodup ∧
      ∀ v, v ∈ newIds fetched urls ↔ v ∈ urls ∧ fetched v ≠ some true := by
  refine ⟨(List.nodup_dedup urls).filter _, ?_⟩
  intro v
  simp only [newIds, List.mem_filter, List.mem_dedup, Bool.not_eq_true',
    FetchedMap.get_eq_false]
  constructor
  · rintro ⟨h1, h2⟩
    refine ⟨h1, ?_⟩
    intro hc
    rcases h2 with e | e <;> simp [e] at hc
  · rintro ⟨h1, h2⟩
    refine ⟨h1, ?_⟩
    cases hv : fetched v with
    | none => exact Or.inl rfl
    | some b =>
      cases b with
      | false => exact Or.inr rfl
      | true => exact absurd hv h2

/-- What one action does to the senders blocked and the calls made. -/
theorem step_balance (f : fakeFetcher) (s s' : ChanState) (a : Action)
    (h : step f s a = some s') :
    (s'.sending.length : Int) + recvCount [a] - s'.calls.length =
      (s.sending.length : Int) - s.calls.length := by
  obtain ⟨n, fetched, pc, running, sending, calls, spawned⟩ := s
  cases a with
  | fetch i =>
    simp only [step] at h
    cases hu : running[i]? with
    | none => rw [hu] at h; simp at h
    | some u =>
      rw [hu] at h
      simp only [Option.some.injEq] at h
      subst h
      simp [recvCount]
  | recv i =>
    simp only [step] at h
    cases pc with
    | proc rest => simp at h
    | done => simp at h
    | recv =>
      cases hu : sending[i]? with
      | none => rw [hu] at h; simp at h
      | some urls =>
        rw [hu] at h
        simp only [Option.some.injEq] at h
        obtain ⟨l1, l2, h1, h2⟩ := getElem?_split sending i urls hu
        subst h
        simp only [h2]
        subst h1
        simp [recvCount]
        omega
  | coord =>
    have hstep := Step_of_step f _ s' Action.coord h
    simp only [step, coordinator] at h
    cases pc with
    | recv => simp at h
    | done => simp at h
    | proc rest =>
      cases rest with
      | nil =>
        simp only [Option.some.injEq] at h
        subst h
        simp [recvCount]
      | cons u rest =>
        by_cases hm : fetched.get u = true
        · simp only [hm, Bool.true_eq_false, beq_iff_eq, if_false, Option.some.injEq] at h
          subst h
          simp [recvCount]
        · have hm' : fetched.get u = false := by simpa using hm
          simp only [hm', beq_self_eq_true, if_true, Option.some.injEq] at h
          subst h
          simp [recvCount]

theorem recvCount_cons (a : Action) (as : List Action) :
    recvCount (a :: as) = recvCount [a] + recvCount as := by
  cases a <;> simp [recvCount, Nat.add_comm]

theorem run_balance (f : fakeFetcher) :
    ∀ (sched : List Action) (s s' : ChanState), run f s sched = some s' →
      (s'.sending.length : Int) + recvCount sched - s'.calls.length =
        (s.sending.length : Int) - s.calls.length := by
  intro sched
  induction sched with
  | nil =>
    intro s s' h
    simp only [run, Option.some.injEq] at h
    subst h
    simp [recvCount]
  | cons a as ih =>
    intro s s' h
    rw [run_cons] at h
    cases hs : step f s a with
    | none => rw [hs] at h; simp at h
    | some s1 =>
      rw [hs] at h
      simp only [Option.some_bind] at h
      have h1 := step_balance f s s1 a hs
      have h2 := ih s1 s' h
      rw [recvCount_cons]
      push_cast
      omega

/-- At a receive, `n` is the number of senders spawned, the seed's sender included, less the
number of messages consumed. -/
theorem recv_counter (f : fakeFetcher) (seed : String) (sched : List Action) (s : ChanState)
    (h : run f (ConcurrentChannel seed) sched = some s) (hpc : s.pc = CoordPc.recv) :
    s.n = (s.spawned.length : Int) + 1 - recvCount sched ∧
      s.n = (s.running.length : Int) + s.sending.length := by
  have hi := reachable_inv f seed sched s h
  have hb := run_balance f sched _ s h
  have hperm := hi.spawn.2.2.length_eq
  have hc := hi.count
  obtain ⟨n, fetched, pc, running, sending, calls, spawned⟩ := s
  simp only at hpc
  subst hpc
  simp only [CountInv] at hc
  simp only [ConcurrentChannel, List.length_cons, List.length_nil, List.length_append] at hb hperm
  simp only []
  constructor
  · omega
  · exact hc.1

/-! ## The sequential crawler: visiting order and initially marked ids -/

theorem children_of_lookup_some (f : fakeFetcher) (u : String) (res : fakeResult)
    (h : f.lookup u = some res) : children f u = res.urls := by
  simp [children, h]

theorem children_of_lookup_none (f : fakeFetcher) (u : String) (h : f.lookup u = none) :
    children f u = [] := by
  simp [children, h]

theorem dfsPreorder_nil (f : fakeFetcher) (k : Nat) (order : List String) :
    dfsPreorder f k [] order = some order := by
  cases k <;> rfl

theorem dfsPreorder_succ_mem (f : fakeFetcher) (k : Nat) (u : String)
    (stack order : List String) (h : u ∈ order) :
    dfsPreorder f (k + 1) (u :: stack) order = dfsPreorder f k stack order := by
  rw [dfsPreorder, if_pos h]

theorem dfsPreorder_succ_new (f : fakeFetcher) (k : Nat) (u : String)
    (stack order : List String) (h : u ∉ order) :
    dfsPreorder f (k + 1) (u :: stack) order =
      dfsPreorder f k (children f u ++ stack) (order ++ [u]) := by
  rw [dfsPreorder, if_neg h]

/-- More fuel does not change the order found. -/
theorem dfsPreorder_fuel_succ (f : fakeFetcher) :
    ∀ (k : Nat) (stack order r : List String),
      dfsPreorder f k stack order = some r → dfsPreorder f (k + 1) stack order = some r := by
  intro k
  induction k with
  | zero =>
    intro stack order r h
    cases stack with
    | nil => rw [dfsPreorder_nil] at h ⊢; exact h
    | cons u t => simp [dfsPreorder] at h
  | succ k ih =>
    intro stack order r h
    cases stack with
    | nil => rw [dfsPreorder_nil] at h ⊢; exact h
    | cons u t =>
      by_cases hu : u ∈ order
      · rw [dfsPreorder_succ_mem f k u t order hu] at h
        rw [dfsPreorder_succ_mem f (k + 1) u t order hu]
        exact ih t order r h
      · rw [dfsPreorder_succ_new f k u t order hu] at h
        rw [dfsPreorder_succ_new f (k + 1) u t order hu]
        exact ih _ _ r h

theorem dfsPreorder_fuel_le (f : fakeFetcher) (stack order r : List String) :
    ∀ (k k' : Nat), k ≤ k' →
      dfsPreorder f k stack order = some r → dfsPreorder f k' stack order = some r := by
  intro k k' hle h
  induction hle with
  | refl => exact h
  | step _ ih => exact dfsPreorder_fuel_succ f _ stack order r ih

theorem dfsPreorder_unique (f : fakeFetcher) (stack order r r' : List String) (k k' : Nat)
    (h : dfsPreorder f k stack order = some r) (h' : dfsPreorder f k' stack order = some r') :
    r = r' := by
  have h1 := dfsPreorder_fuel_le f stack order r k (max k k') (le_max_left _ _) h
  have h2 := dfsPreorder_fuel_le f stack order r' k' (max k k') (le_max_right _ _) h'
  rw [h1] at h2
  exact Option.some.inj h2

/-- A call of `Serial` is one visit of the stack machine: the calls it adds are those the
depth-first order adds for the url on top of the stack. -/
theorem Serial_dfs (f : fakeFetcher) :
    ∀ (fuel : Nat) (url : String) (st st' : SerialState),
      Serial fuel url f st = some st' → CallsInv st →
      ∀ (stack r : List String) (k : Nat), dfsPreorder f k stack st'.calls = some r →
        ∃ k', dfsPreorder f k' (url :: stack) st.calls = some r := by
  intro fuel
  induction fuel with
  | zero => intro url st st' h; simp [Serial] at h
  | succ fuel ih =>
    intro url st st' h hinv stack r k hr
    rcases Serial_cases fuel url f st st' h with ⟨hm, rfl⟩ | ⟨hm, hl, rfl⟩ | ⟨hm, res, hl, hloop⟩
    · exact ⟨k + 1, by
        rw [dfsPreorder_succ_mem f k url stack _ ((hinv.2 url).mpr hm)]; exact hr⟩
    · refine ⟨k + 1, ?_⟩
      rw [dfsPreorder_succ_new f k url stack _ (fun hc => hm ((hinv.2 url).mp hc)),
        children_of_lookup_none f url hl]
      exact hr
    · have hloop' : ∀ (urls : List String) (t : SerialState),
          urls.foldlM (fun s u => Serial fuel u f s) t = some st' → CallsInv t →
          ∃ k', dfsPreorder f k' (urls ++ stack) t.calls = some r := by
        intro urls
        induction urls with
        | nil =>
          intro t ht _
          simp only [List.foldlM_nil, Option.pure_def, Option.some.injEq] at ht
          subst ht
          exact ⟨k, hr⟩
        | cons a rest ihl =>
          intro t ht hti
          rw [List.foldlM_cons] at ht
          cases ha : Serial fuel a f t with
          | none => rw [ha] at ht; simp at ht
          | some t1 =>
            rw [ha] at ht
            simp only [Option.bind_eq_bind, Option.some_bind] at ht
            obtain ⟨k1, hk1⟩ := ihl t1 ht ((Serial_post f fuel a t t1 ha).calls hti)
            exact ih a t t1 ha hti (rest ++ stack) r k1 hk1
      obtain ⟨k', hk'⟩ := hloop' res.urls (st.visit url) hloop (visit_callsInv st url hm hinv)
      refine ⟨k' + 1, ?_⟩
      rw [dfsPreorder_succ_new f k' url stack _ (fun hc => hm ((hinv.2 url).mp hc)),
        children_of_lookup_some f url res hl]
      exact hk'

theorem WhiteReach_mono (f : fakeFetcher) (m m' : FetchedMap) (a b : String)
    (hm : ∀ u, m u = some true → m' u = some true) (h : WhiteReach f m' a b) :
    WhiteReach f m a b := by
  refine ⟨fun hc => h.1 (hm a hc), ?_⟩
  exact Relation.ReflTransGen.mono (fun x y hxy => ⟨hxy.1, fun hc => hxy.2 (hm y hc)⟩) h.2

theorem WhiteReach_head (f : fakeFetcher) (m : FetchedMap) (a c b : String)
    (ha : m a ≠ some true) (he : Edge f a c) (h : WhiteReach f m c b) :
    WhiteReach f m a b :=
  ⟨ha, Relation.ReflTransGen.head ⟨he, h.1⟩ h.2⟩

/-- What `Serial` newly marks lies on a path of ids that were unmarked at the call. -/
theorem Serial_white_sound (f : fakeFetcher) :
    ∀ (fuel : Nat) (url : String) (st st' : SerialState),
      Serial fuel url f st = some st' →
      ∀ v, st'.fetched v = some true →
        st.fetched v = some true ∨ WhiteReach f st.fetched url v := by
  intro fuel
  induction fuel with
  | zero => intro url st st' h; simp [Serial] at h
  | succ fuel ih =>
    intro url st st' h v hv
    rcases Serial_cases fuel url f st st' h with ⟨hm, rfl⟩ | ⟨hm, hl, rfl⟩ | ⟨hm, res, hl, hloop⟩
    · exact Or.inl hv
    · rcases (FetchedMap.set_true_iff _ _ _).mp hv with e | e
      · exact Or.inr (by rw [e]; exact ⟨hm, Relation.ReflTransGen.refl⟩)
      · exact Or.inl e
    · have hinv := foldlM_option_inv (fun s u => Serial fuel u f s)
        (fun t => (∀ u, (st.visit url).fetched u = some true → t.fetched u = some true) ∧
          (∀ u, t.fetched u = some true → (st.visit url).fetched u = some true ∨
            ∃ c ∈ res.urls, WhiteReach f (st.visit url).fetched c u))
        res.urls (st.visit url) st'
        (by
          intro a ha t t' ⟨h1, h2⟩ hstep
          refine ⟨fun u hu => (Serial_post f fuel a t t' hstep).mono u (h1 u hu), ?_⟩
          intro u hu
          rcases ih a t t' hstep u hu with e | e
          · exact h2 u e
          · exact Or.inr ⟨a, ha, WhiteReach_mono f _ _ a u h1 e⟩)
        ⟨fun _ hu => hu, fun _ hu => Or.inl hu⟩ hloop
      rcases hinv.2 v hv with e | ⟨c, hc, e⟩
      · rcases (FetchedMap.set_true_iff _ _ _).mp e with e1 | e1
        · exact Or.inr (by rw [e1]; exact ⟨hm, Relation.ReflTransGen.refl⟩)
        · exact Or.inl e1
      · refine Or.inr (WhiteReach_head f _ url c v hm ⟨res, hl, hc⟩ ?_)
        exact WhiteReach_mono f _ _ c v (fun u hu => FetchedMap.set_true_mono _ _ _ hu) e

/-- Whatever a path of unmarked ids leads to from the url is marked when `Serial` returns. -/
theorem Serial_white_complete (f : fakeFetcher) (fuel : Nat) (url : String)
    (st st' : SerialState) (h : Serial fuel url f st = some st') (v : String)
    (hw : WhiteReach f st.fetched url v) : st'.fetched v = some true := by
  have hp := Serial_post f fuel url st st' h
  have hcl : Closed f st'.fetched {w | st.fetched w = some true} :=
    hp.closed _ (fun w res c hw hS _ _ => absurd hw hS)
  obtain ⟨h0, hpath⟩ := hw
  have key : st'.fetched v = some true ∧ st.fetched v ≠ some true := by
    induction hpath with
    | refl => exact ⟨hp.marked, h0⟩
    | tail _ hstep ihp =>
      obtain ⟨⟨res, hl, hc⟩, hun⟩ := hstep
      exact ⟨hcl _ res _ ihp.1 ihp.2 hl hc, hun⟩
  exact key.1

/-! ## The mutex crawler: the step relation -/

theorem getElem?_split_length {α : Type} :
    ∀ (l : List α) (i : Nat) (u : α), l[i]? = some u →
      ∃ l1 l2, l = l1 ++ u :: l2 ∧ i = l1.length := by
  intro l
  induction l with
  | nil => intro i u h; simp at h
  | cons a t ih =>
    intro i u h
    cases i with
    | zero =>
      simp only [List.getElem?_cons_zero, Option.some.injEq] at h
      exact ⟨[], t, by simp [h], rfl⟩
    | succ i =>
      simp only [List.getElem?_cons_succ] at h
      obtain ⟨l1, l2, h1, h2⟩ := ih i u h
      exact ⟨a :: l1, l2, by simp [h1], by simp [h2]⟩

theorem set_append_cons {α : Type} (l1 : List α) (t t' : α) (l2 : List α) :
    (l1 ++ t :: l2).set l1.length t' = l1 ++ t' :: l2 := by
  induction l1 with
  | nil => rfl
  | cons a l ih => simp [ih]

theorem getElem?_replace {α : Type} (l1 : List α) (t t' : α) (l2 : List α) (j : Nat) :
    (l1 ++ t' :: l2)[j]? = if j = l1.length then some t' else (l1 ++ t :: l2)[j]? := by
  by_cases hj : j = l1.length
  · subst hj
    rw [if_pos rfl, List.getElem?_append_right (le_refl _), Nat.sub_self,
      List.getElem?_cons_zero]
  · rw [if_neg hj]
    rcases Nat.lt_or_gt_of_ne hj with h | h
    · rw [List.getElem?_append_left h, List.getElem?_append_left h]
    · have h1 : l1.length ≤ j := Nat.le_of_lt h
      rw [List.getElem?_append_right h1, List.getElem?_append_right h1]
      obtain ⟨k, hk⟩ : ∃ k, j - l1.length = k + 1 := ⟨j - l1.length - 1, by omega⟩
      rw [hk]
      rfl

/-- Every enabled move is a step of the relation. -/
theorem MStep_of_mstep (f : fakeFetcher) (s s' : MutexState) (i : Nat)
    (h : mstep f s i = some s') : MStep f s s' := by
  obtain ⟨fs, tasks, wg, calls⟩ := s
  unfold mstep at h
  cases ht : tasks[i]? with
  | none => simp only [ht] at h; exact absurd h (by simp)
  | some t =>
    obtain ⟨l1, l2, h1, h2⟩ := getElem?_split_length tasks i t ht
    subst h1 h2
    simp only [ht] at h
    obtain ⟨url, par, pc⟩ := t
    cases pc with
    | start =>
      simp only [Option.some.injEq, set_append_cons] at h
      subst h
      by_cases hm : fs.fetched.get url = true
      · have := MStep.lose (f := f) fs l1 url par l2 wg calls
          ((FetchedMap.get_eq_true _ _).mp hm)
        simpa [fetchState.testAndSet, hm] using this
      · have hm' : fs.fetched.get url = false := by simpa using hm
        have := MStep.win (f := f) fs l1 url par l2 wg calls
          (fun hc => hm ((FetchedMap.get_eq_true _ _).mpr hc))
        simpa [fetchState.testAndSet, hm'] using this
    | fetch =>
      simp only [Option.some.injEq, set_append_cons] at h
      subst h
      cases hl : f.lookup url with
      | none =>
        have := MStep.fetchFail (f := f) fs l1 url par l2 wg calls hl
        simpa [(Fetch_of_lookup_none f url hl).1] using this
      | some res =>
        have := MStep.fetchOk (f := f) fs l1 url par l2 wg calls res hl
        obtain ⟨he, hu⟩ := Fetch_of_lookup_some f url res hl
        simpa [he, hu] using this
    | spawn rest =>
      cases rest with
      | nil =>
        simp only [Option.some.injEq, set_append_cons] at h
        subst h
        exact MStep.spawnEnd fs l1 url par l2 wg calls
      | cons u rest =>
        simp only [Option.some.injEq, set_append_cons] at h
        subst h
        have := MStep.spawn (f := f) fs l1 url par u rest l2 wg calls
        simpa using this
    | wait =>
      by_cases hw : wg l1.length = 0
      · simp only [hw, if_true, Option.some.injEq, set_append_cons] at h
        subst h
        exact MStep.join fs l1 url par l2 wg calls hw
      · simp only [hw, if_false] at h
        exact absurd h (by simp)
    | returned =>
      cases par with
      | none => simp at h
      | some p =>
        simp only [Option.some.injEq, set_append_cons] at h
        subst h
        exact MStep.signal fs l1 url p l2 wg calls
    | finished => simp at h

theorem getElem?_middle {α : Type} (l1 : List α) (t : α) (l2 : List α) :
    (l1 ++ t :: l2)[l1.length]? = some t := by
  rw [List.getElem?_append_right (le_refl _), Nat.sub_self, List.getElem?_cons_zero]

/-- Every step of the relation is an enabled move of some call. -/
theorem mstep_of_MStep (f : fakeFetcher) (s s' : MutexState) (h : MStep f s s') :
    ∃ i, mstep f s i = some s' := by
  cases h with
  | win fs l1 url par l2 wg calls hm =>
    refine ⟨l1.length, ?_⟩
    have hg : fs.fetched.get url = false := by
      cases hb : fs.fetched.get url with
      | false => rfl
      | true => exact absurd ((FetchedMap.get_eq_true _ _).mp hb) hm
    simp only [mstep, getElem?_middle, set_append_cons]
    simp [fetchState.testAndSet, hg]
  | lose fs l1 url par l2 wg calls hm =>
    refine ⟨l1.length, ?_⟩
    have hg : fs.fetched.get url = true := (FetchedMap.get_eq_true _ _).mpr hm
    simp only [mstep, getElem?_middle, set_append_cons]
    simp [fetchState.testAndSet, hg]
  | fetchFail fs l1 url par l2 wg calls hl =>
    refine ⟨l1.length, ?_⟩
    simp only [mstep, getElem?_middle, set_append_cons]
    simp [(Fetch_of_lookup_none f url hl).1]
  | fetchOk fs l1 url par l2 wg calls res hl =>
    refine ⟨l1.length, ?_⟩
    obtain ⟨he, hu⟩ := Fetch_of_lookup_some f url res hl
    simp only [mstep, getElem?_middle, set_append_cons]
    simp [he, hu]
  | spawn fs l1 url par u rest l2 wg calls =>
    refine ⟨l1.length, ?_⟩
    simp only [mstep, getElem?_middle, set_append_cons]
  | spawnEnd fs l1 url par l2 wg calls =>
    refine ⟨l1.length, ?_⟩
    simp only [mstep, getElem?_middle, set_append_cons]
  | join fs l1 url par l2 wg calls hw =>
    refine ⟨l1.length, ?_⟩
    simp only [mstep, getElem?_middle, set_append_cons, hw, if_true]
  | signal fs l1 url p l2 wg calls =>
    refine ⟨l1.length, ?_⟩
    simp only [mstep, getElem?_middle, set_append_cons]

/-! ## The mutex crawler: shape and `WaitGroup` invariants -/

theorem forall_getElem?_replace {α : Type} (P : Nat → α → Prop) (l1 : List α) (t t' : α)
    (l2 : List α) (h : ∀ j x, (l1 ++ t :: l2)[j]? = some x → P j x) (ht' : P l1.length t') :
    ∀ j x, (l1 ++ t' :: l2)[j]? = some x → P j x := by
  intro j x hx
  rw [getElem?_replace l1 t t' l2 j] at hx
  by_cases hj : j = l1.length
  · rw [if_pos hj] at hx
    rw [hj, ← Option.some.inj hx]
    exact ht'
  · rw [if_neg hj] at hx
    exact h j x hx

theorem forall_getElem?_concat {α : Type} (P : Nat → α → Prop) (l : List α) (c : α)
    (h : ∀ j x, l[j]? = some x → P j x) (hc : P l.length c) :
    ∀ j x, (l ++ [c])[j]? = some x → P j x := by
  intro j x hx
  rcases Nat.lt_or_ge j l.length with hj | hj
  · rw [List.getElem?_append_left hj] at hx
    exact h j x hx
  · rw [List.getElem?_append_right hj] at hx
    have hj0 : j - l.length = 0 := by
      by_contra hne
      obtain ⟨k, hk⟩ : ∃ k, j - l.length = k + 1 := ⟨j - l.length - 1, by omega⟩
      rw [hk] at hx
      simp at hx
    rw [hj0, List.getElem?_cons_zero] at hx
    have : j = l.length := by omega
    rw [this, ← Option.some.inj hx]
    exact hc

theorem append_cons_ne_nil {α : Type} (l1 : List α) (t : α) (l2 : List α) :
    l1 ++ t :: l2 ≠ [] := by
  simp

theorem ShapeInv_step (f : fakeFetcher) (s s' : MutexState) (h : MStep f s s')
    (hi : ShapeInv s) : ShapeInv s' := by
  obtain ⟨_, hall⟩ := hi
  cases h with
  | win fs l1 url par l2 wg calls hm =>
    exact ⟨append_cons_ne_nil _ _ _, forall_getElem?_replace TaskShape l1 _ _ l2 hall
      (by
        obtain ⟨h1, h2, _⟩ := hall _ _ (getElem?_middle l1 _ l2)
        exact ⟨h1, h2, fun hc => absurd hc (by simp)⟩)⟩
  | lose fs l1 url par l2 wg calls hm =>
    exact ⟨append_cons_ne_nil _ _ _, forall_getElem?_replace TaskShape l1 _ _ l2 hall
      (by
        obtain ⟨h1, h2, _⟩ := hall _ _ (getElem?_middle l1 _ l2)
        exact ⟨h1, h2, fun hc => absurd hc (by simp)⟩)⟩
  | fetchFail fs l1 url par l2 wg calls hl =>
    exact ⟨append_cons_ne_nil _ _ _, forall_getElem?_replace TaskShape l1 _ _ l2 hall
      (by
        obtain ⟨h1, h2, _⟩ := hall _ _ (getElem?_middle l1 _ l2)
        exact ⟨h1, h2, fun hc => absurd hc (by simp)⟩)⟩
  | fetchOk fs l1 url par l2 wg calls res hl =>
    exact ⟨append_cons_ne_nil _ _ _, forall_getElem?_replace TaskShape l1 _ _ l2 hall
      (by
        obtain ⟨h1, h2, _⟩ := hall _ _ (getElem?_middle l1 _ l2)
        exact ⟨h1, h2, fun hc => absurd hc (by simp)⟩)⟩
  | spawn fs l1 url par u rest l2 wg calls =>
    refine ⟨by simp, ?_⟩
    have hmid := forall_getElem?_replace TaskShape l1 _
      (⟨url, par, TaskPc.spawn rest⟩ : Task) l2 hall
      (by
        obtain ⟨h1, h2, _⟩ := hall _ _ (getElem?_middle l1 _ l2)
        exact ⟨h1, h2, fun hc => absurd hc (by simp)⟩)
    have := forall_getElem?_concat TaskShape _ (⟨u, some l1.length, TaskPc.start⟩ : Task) hmid
      (by
        refine ⟨?_, ?_, fun hc => absurd hc (by simp)⟩
        · simp
        · intro p hp
          simp only [Option.some.injEq] at hp
          subst hp
          simp)
    simpa using this
  | spawnEnd fs l1 url par l2 wg calls =>
    exact ⟨append_cons_ne_nil _ _ _, forall_getElem?_replace TaskShape l1 _ _ l2 hall
      (by
        obtain ⟨h1, h2, _⟩ := hall _ _ (getElem?_middle l1 _ l2)
        exact ⟨h1, h2, fun hc => absurd hc (by simp)⟩)⟩
  | join fs l1 url par l2 wg calls hw =>
    exact ⟨append_cons_ne_nil _ _ _, forall_getElem?_replace TaskShape l1 _ _ l2 hall
      (by
        obtain ⟨h1, h2, _⟩ := hall _ _ (getElem?_middle l1 _ l2)
        exact ⟨h1, h2, fun hc => absurd hc (by simp)⟩)⟩
  | signal fs l1 url p l2 wg calls =>
    exact ⟨append_cons_ne_nil _ _ _, forall_getElem?_replace TaskShape l1 _ _ l2 hall
      (by
        obtain ⟨h1, h2, _⟩ := hall _ _ (getElem?_middle l1 _ l2)
        exact ⟨h1, h2, fun _ => by simp⟩)⟩

theorem liveChildren_split (i : Nat) (l1 : List Task) (t : Task) (l2 : List Task) :
    liveChildren i (l1 ++ t :: l2) =
      liveChildren i l1 + liveChildren i [t] + liveChildren i l2 := by
  simp only [liveChildren, List.countP_append, List.countP_cons, List.countP_nil]
  omega

theorem liveChildren_concat (i : Nat) (l : List Task) (t : Task) :
    liveChildren i (l ++ [t]) = liveChildren i l + liveChildren i [t] := by
  simp only [liveChildren, List.countP_append]

theorem liveChildren_one (i : Nat) (t : Task) :
    liveChildren i [t] = if t.parent = some i ∧ t.pc ≠ TaskPc.finished then 1 else 0 := by
  by_cases h : t.parent = some i ∧ t.pc ≠ TaskPc.finished
  · rw [if_pos h]
    simp [liveChildren, h.1, h.2]
  · rw [if_neg h]
    simp only [liveChildren, List.countP_cons, List.countP_nil]
    simp only [ne_eq, not_and, not_not] at h
    by_cases hp : t.parent = some i
    · simp [hp, h hp]
    · simp [hp]

/-- No call beyond the end of the list has a goroutine. -/
theorem liveChildren_beyond (s : MutexState) (hs : ShapeInv s) (i : Nat)
    (hi : s.tasks.length ≤ i) : liveChildren i s.tasks = 0 := by
  unfold liveChildren
  rw [List.countP_eq_zero]
  intro t ht
  obtain ⟨j, hj⟩ := List.mem_iff_getElem?.mp ht
  have hlt : j < s.tasks.length := by
    by_contra hge
    rw [List.getElem?_eq_none (Nat.le_of_not_lt hge)] at hj
    simp at hj
  intro hc
  simp only [Bool.and_eq_true, decide_eq_true_eq] at hc
  have := (hs.2 j t hj).2.1 i hc.1
  omega

theorem WaitInv_step (f : fakeFetcher) (s s' : MutexState) (h : MStep f s s')
    (hs : ShapeInv s) (hi : WaitInv s) : WaitInv s' := by
  obtain ⟨hcount, hidle⟩ := hi
  cases h with
  | win fs l1 url par l2 wg calls hm =>
    refine ⟨fun i => ?_, forall_getElem?_replace (fun j t => t.pc.idle → wg j = 0) l1 _ _ l2
      hidle (fun _ => hidle _ _ (getElem?_middle l1 _ l2) trivial)⟩
    have := hcount i
    simp only [liveChildren_split, liveChildren_one] at this ⊢
    simpa using this
  | lose fs l1 url par l2 wg calls hm =>
    refine ⟨fun i => ?_, forall_getElem?_replace (fun j t => t.pc.idle → wg j = 0) l1 _ _ l2
      hidle (fun _ => hidle _ _ (getElem?_middle l1 _ l2) trivial)⟩
    have := hcount i
    simp only [liveChildren_split, liveChildren_one] at this ⊢
    simpa using this
  | fetchFail fs l1 url par l2 wg calls hl =>
    refine ⟨fun i => ?_, forall_getElem?_replace (fun j t => t.pc.idle → wg j = 0) l1 _ _ l2
      hidle (fun _ => hidle _ _ (getElem?_middle l1 _ l2) trivial)⟩
    have := hcount i
    simp only [liveChildren_split, liveChildren_one] at this ⊢
    simpa using this
  | fetchOk fs l1 url par l2 wg calls res hl =>
    refine ⟨fun i => ?_, forall_getElem?_replace (fun j t => t.pc.idle → wg j = 0) l1 _ _ l2
      hidle (fun hc => absurd hc (by simp [TaskPc.idle]))⟩
    have := hcount i
    simp only [liveChildren_split, liveChildren_one] at this ⊢
    simpa using this
  | spawn fs l1 url par u rest l2 wg calls =>
    refine ⟨fun i => ?_, ?_⟩
    · have := hcount i
      simp only [← List.append_assoc, List.cons_append, liveChildren_concat]
      simp only [List.append_assoc, liveChildren_split, liveChildren_one] at this ⊢
      by_cases hil : i = l1.length
      · subst hil
        simp only [Function.update_same]
        simp at this ⊢
        omega
      · rw [Function.update_noteq hil]
        have hne : ¬ (some l1.length = some i) := by
          intro hc; exact hil (Option.some.inj hc).symm
        simp [hne] at this ⊢
        omega
    · have hold : ∀ j x, (l1 ++ (⟨url, par, TaskPc.spawn (u :: rest)⟩ : Task) :: l2)[j]? = some x →
          x.pc.idle → Function.update wg l1.length (wg l1.length + 1) j = 0 := by
        intro j x hx hidx
        by_cases hj : j = l1.length
        · subst hj
          rw [getElem?_middle] at hx
          rw [← Option.some.inj hx] at hidx
          exact absurd hidx (by simp [TaskPc.idle])
        · rw [Function.update_noteq hj]
          exact hidle j x hx hidx
      have hmid := forall_getElem?_replace
        (fun j (t : Task) => t.pc.idle → Function.update wg l1.length (wg l1.length + 1) j = 0)
        l1 _ (⟨url, par, TaskPc.spawn rest⟩ : Task) l2 hold
        (fun hc => absurd hc (by simp [TaskPc.idle]))
      have hlast := forall_getElem?_concat
        (fun j (t : Task) => t.pc.idle → Function.update wg l1.length (wg l1.length + 1) j = 0)
        _ (⟨u, some l1.length, TaskPc.start⟩ : Task) hmid
        (by
          intro _
          have hlen : (l1 ++ (⟨url, par, TaskPc.spawn rest⟩ : Task) :: l2).length ≠ l1.length := by
            simp
          have h0 := liveChildren_beyond _ hs
            (l1 ++ (⟨url, par, TaskPc.spawn rest⟩ : Task) :: l2).length (by simp)
          have hc := hcount (l1 ++ (⟨url, par, TaskPc.spawn rest⟩ : Task) :: l2).length
          simp only [] at h0 hc
          rw [Function.update_noteq hlen, hc, h0]
          rfl)
      simpa using hlast
  | spawnEnd fs l1 url par l2 wg calls =>
    refine ⟨fun i => ?_, forall_getElem?_replace (fun j t => t.pc.idle → wg j = 0) l1 _ _ l2
      hidle (fun hc => absurd hc (by simp [TaskPc.idle]))⟩
    have := hcount i
    simp only [liveChildren_split, liveChildren_one] at this ⊢
    simpa using this
  | join fs l1 url par l2 wg calls hw =>
    refine ⟨fun i => ?_, forall_getElem?_replace (fun j t => t.pc.idle → wg j = 0) l1 _ _ l2
      hidle (fun _ => hw)⟩
    have := hcount i
    simp only [liveChildren_split, liveChildren_one] at this ⊢
    simpa using this
  | signal fs l1 url p l2 wg calls =>
    have hplt : p < l1.length :=
      (hs.2 _ _ (getElem?_middle l1 _ l2)).2.1 p rfl
    have hpos : 1 ≤ wg p := by
      have := hcount p
      simp only [liveChildren_split, liveChildren_one] at this
      simp at this
      omega
    refine ⟨fun i => ?_, ?_⟩
    · have := hcount i
      simp only [liveChildren_split, liveChildren_one] at this ⊢
      by_cases hip : i = p
      · subst hip
        simp only [Function.update_same]
        simp at this ⊢
        omega
      · rw [Function.update_noteq hip]
        have hne : ¬ (some p = some i) := by
          intro hc; exact hip (Option.some.inj hc).symm
        simp [hne] at this ⊢
        omega
    · have hold : ∀ j x, (l1 ++ (⟨url, some p, TaskPc.returned⟩ : Task) :: l2)[j]? = some x →
          x.pc.idle → Function.update wg p (wg p - 1) j = 0 := by
        intro j x hx hidx
        by_cases hj : j = p
        · subst hj
          have := hidle j x hx hidx
          simp only [] at this
          omega
        · rw [Function.update_noteq hj]
          exact hidle j x hx hidx
      exact forall_getElem?_replace
        (fun j (t : Task) => t.pc.idle → Function.update wg p (wg p - 1) j = 0)
        l1 _ _ l2 hold
        (fun _ => by
          rw [Function.update_noteq (Nat.ne_of_gt hplt)]
          exact hidle _ _ (getElem?_middle l1 _ l2) trivial)

/-- Join: a call that has returned has no goroutine left that has not finished. -/
theorem join_children (s : MutexState) (hw : WaitInv s) (i : Nat) (ti : Task)
    (hti : s.tasks[i]? = some ti)
    (hpc : ti.pc = TaskPc.returned ∨ ti.pc = TaskPc.finished) :
    ∀ t ∈ s.tasks, t.parent = some i → t.pc = TaskPc.finished := by
  have hidle : ti.pc.idle := by
    rcases hpc with e | e <;> rw [e] <;> trivial
  have h0 : liveChildren i s.tasks = 0 := by
    have h1 := hw.1 i
    rw [hw.2 i ti hti hidle] at h1
    exact_mod_cast h1.symm
  unfold liveChildren at h0
  rw [List.countP_eq_zero] at h0
  intro t ht hp
  by_contra hne
  exact h0 t ht (by simp [hp, hne])

/-- When the top-level call has returned, every goroutine of the traversal has finished. -/
theorem all_finished (s : MutexState) (hs : ShapeInv s) (hw : WaitInv s)
    (hroot : s.rootPc = some TaskPc.returned) :
    ∀ j t, s.tasks[j]? = some t → j ≠ 0 → t.pc = TaskPc.finished := by
  obtain ⟨r, hr0, hrpc⟩ : ∃ r, s.tasks[0]? = some r ∧ r.pc = TaskPc.returned := by
    unfold MutexState.rootPc at hroot
    cases h0 : s.tasks[0]? with
    | none => rw [h0] at hroot; simp at hroot
    | some r =>
      rw [h0] at hroot
      simp only [Option.map_some', Option.some.injEq] at hroot
      exact ⟨r, rfl, hroot⟩
  intro j
  induction j using Nat.strong_induction_on with
  | _ j ih =>
    intro t ht hj
    obtain ⟨hnone, hlt, _⟩ := hs.2 j t ht
    cases hp : t.parent with
    | none => exact absurd (hnone.mp hp) hj
    | some p =>
      have hpj : p < j := hlt p hp
      have hjlen : j < s.tasks.length := by
        by_contra hge
        rw [List.getElem?_eq_none (Nat.le_of_not_lt hge)] at ht
        simp at ht
      have hplen : p < s.tasks.length := by omega
      have htp : s.tasks[p]? = some (s.tasks[p]) := List.getElem?_eq_getElem hplen
      have hmem : t ∈ s.tasks := List.mem_iff_getElem?.mpr ⟨j, ht⟩
      by_cases hp0 : p = 0
      · subst hp0
        exact join_children s hw 0 r hr0 (Or.inl hrpc) t hmem hp
      · exact join_children s hw p _ htp (Or.inr (ih p hpj _ htp hp0)) t hmem hp

/-! ## The mutex crawler: what is visited -/

theorem fetching_append (l1 l2 : List Task) :
    fetching (l1 ++ l2) = fetching l1 ++ fetching l2 := by
  simp [fetching]

theorem fetching_nil : fetching [] = [] := rfl

theorem fetching_cons (t : Task) (l : List Task) :
    fetching (t :: l) = (if t.pc = TaskPc.fetch then [t.url] else []) ++ fetching l := by
  by_cases h : t.pc = TaskPc.fetch <;> simp [fetching, List.filter_cons, h]

theorem perm_insert_middle {α : Type} (a b c : List α) (x : α) :
    (a ++ (b ++ x :: c)).Perm (x :: (a ++ (b ++ c))) := by
  rw [← List.append_assoc, ← List.append_assoc]
  exact List.perm_middle

theorem set_true_of_marked (m : FetchedMap) (url v : String) (h : m url = some true) :
    m.set url true v = some true ↔ m v = some true := by
  rw [FetchedMap.set_true_iff]
  constructor
  · rintro (e | e)
    · exact e ▸ h
    · exact e
  · exact Or.inr

theorem FetchInv_step (f : fakeFetcher) (s s' : MutexState) (h : MStep f s s')
    (hi : FetchInv s) : FetchInv s' := by
  cases h with
  | win fs l1 url par l2 wg calls hm =>
    simp only [FetchInv, fetching_append, fetching_cons, if_true, reduceCtorEq, if_false,
      List.nil_append, List.singleton_append, fetchState.testAndSet] at hi ⊢
    obtain ⟨hnd, hmem⟩ := hi
    have hperm := perm_insert_middle calls (fetching l1) (fetching l2) url
    have hnot : url ∉ calls ++ (fetching l1 ++ fetching l2) := fun hc => hm ((hmem url).mp hc)
    refine ⟨hperm.nodup_iff.mpr (List.nodup_cons.mpr ⟨hnot, hnd⟩), ?_⟩
    intro v
    rw [hperm.mem_iff, List.mem_cons, hmem v, FetchedMap.set_true_iff]
  | lose fs l1 url par l2 wg calls hm =>
    simp only [FetchInv, fetching_append, fetching_cons, fetchState.testAndSet, reduceCtorEq,
      if_false, List.nil_append] at hi ⊢
    obtain ⟨hnd, hmem⟩ := hi
    exact ⟨hnd, fun v => (hmem v).trans (set_true_of_marked _ _ _ hm).symm⟩
  | fetchFail fs l1 url par l2 wg calls hl =>
    simp only [FetchInv, fetching_append, fetching_cons, if_true, reduceCtorEq, if_false,
      List.nil_append, List.singleton_append] at hi ⊢
    obtain ⟨hnd, hmem⟩ := hi
    have hperm : (calls ++ [url] ++ (fetching l1 ++ fetching l2)).Perm
        (calls ++ (fetching l1 ++ url :: fetching l2)) := by
      rw [List.append_assoc]
      exact List.Perm.append_left _ (@List.perm_middle _ url (fetching l1) (fetching l2)).symm
    exact ⟨hperm.nodup_iff.mpr hnd, fun v => (hperm.mem_iff).trans (hmem v)⟩
  | fetchOk fs l1 url par l2 wg calls res hl =>
    simp only [FetchInv, fetching_append, fetching_cons, if_true, reduceCtorEq, if_false,
      List.nil_append, List.singleton_append] at hi ⊢
    obtain ⟨hnd, hmem⟩ := hi
    have hperm : (calls ++ [url] ++ (fetching l1 ++ fetching l2)).Perm
        (calls ++ (fetching l1 ++ url :: fetching l2)) := by
      rw [List.append_assoc]
      exact List.Perm.append_left _ (@List.perm_middle _ url (fetching l1) (fetching l2)).symm
    exact ⟨hperm.nodup_iff.mpr hnd, fun v => (hperm.mem_iff).trans (hmem v)⟩
  | spawn fs l1 url par u rest l2 wg calls =>
    simp only [FetchInv, fetching_append, fetching_cons, reduceCtorEq, if_false,
      List.nil_append, fetching_nil, List.append_nil] at hi ⊢
    exact hi
  | spawnEnd fs l1 url par l2 wg calls =>
    simp only [FetchInv, fetching_append, fetching_cons, reduceCtorEq, if_false,
      List.nil_append] at hi ⊢
    exact hi
  | join fs l1 url par l2 wg calls hw =>
    simp only [FetchInv, fetching_append, fetching_cons, reduceCtorEq, if_false,
      List.nil_append] at hi ⊢
    exact hi
  | signal fs l1 url p l2 wg calls =>
    simp only [FetchInv, fetching_append, fetching_cons, reduceCtorEq, if_false,
      List.nil_append] at hi ⊢
    exact hi

theorem mem_mid {α : Type} (l1 : List α) (t : α) (l2 : List α) : t ∈ l1 ++ t :: l2 := by
  simp

theorem mem_swap {α : Type} (l1 : List α) (t t' : α) (l2 : List α) (x : α)
    (h : x ∈ l1 ++ t :: l2) : x = t ∨ x ∈ l1 ++ t' :: l2 := by
  simp only [List.mem_append, List.mem_cons] at h ⊢
  tauto

theorem mem_concat_cases {α : Type} (l1 : List α) (t t' : α) (l2 : List α) (c x : α)
    (h : x ∈ l1 ++ t' :: l2 ++ [c]) : x = t' ∨ x = c ∨ x ∈ l1 ++ t :: l2 := by
  simp only [List.mem_append, List.mem_cons, List.mem_singleton, List.not_mem_nil,
    or_false] at h ⊢
  tauto

theorem mem_swap_concat {α : Type} (l1 : List α) (t t' : α) (l2 : List α) (c x : α)
    (h : x ∈ l1 ++ t :: l2) : x = t ∨ x ∈ l1 ++ t' :: l2 ++ [c] := by
  simp only [List.mem_append, List.mem_cons, List.mem_singleton, List.not_mem_nil,
    or_false] at h ⊢
  tauto

theorem MSoundInv_step (f : fakeFetcher) (seed : String) (s s' : MutexState)
    (h : MStep f s s') (hi : MSoundInv f seed s) : MSoundInv f seed s' := by
  obtain ⟨h1, h2, h3⟩ := hi
  cases h with
  | win fs l1 url par l2 wg calls hm =>
    refine ⟨?_, ?_, ?_⟩
    · intro v hv
      rcases (FetchedMap.set_true_iff _ _ _).mp hv with e | e
      · rw [e]; exact h2 (⟨url, par, TaskPc.start⟩ : Task) (mem_mid l1 _ l2)
      · exact h1 v e
    · intro x hx
      rcases mem_swap l1 _ ⟨url, par, TaskPc.start⟩ l2 x hx with e | e
      · rw [e]; exact h2 (⟨url, par, TaskPc.start⟩ : Task) (mem_mid l1 _ l2)
      · exact h2 x e
    · intro x hx rest hpc
      rcases mem_swap l1 _ ⟨url, par, TaskPc.start⟩ l2 x hx with e | e
      · rw [e] at hpc; exact absurd hpc (by simp)
      · exact h3 x e rest hpc
  | lose fs l1 url par l2 wg calls hm =>
    refine ⟨?_, ?_, ?_⟩
    · intro v hv
      exact h1 v ((set_true_of_marked _ _ _ hm).mp hv)
    · intro x hx
      rcases mem_swap l1 _ ⟨url, par, TaskPc.start⟩ l2 x hx with e | e
      · rw [e]; exact h2 (⟨url, par, TaskPc.start⟩ : Task) (mem_mid l1 _ l2)
      · exact h2 x e
    · intro x hx rest hpc
      rcases mem_swap l1 _ ⟨url, par, TaskPc.start⟩ l2 x hx with e | e
      · rw [e] at hpc; exact absurd hpc (by simp)
      · exact h3 x e rest hpc
  | fetchFail fs l1 url par l2 wg calls hl =>
    refine ⟨h1, ?_, ?_⟩
    · intro x hx
      rcases mem_swap l1 _ ⟨url, par, TaskPc.fetch⟩ l2 x hx with e | e
      · rw [e]; exact h2 (⟨url, par, TaskPc.fetch⟩ : Task) (mem_mid l1 _ l2)
      · exact h2 x e
    · intro x hx rest hpc
      rcases mem_swap l1 _ ⟨url, par, TaskPc.fetch⟩ l2 x hx with e | e
      · rw [e] at hpc; exact absurd hpc (by simp)
      · exact h3 x e rest hpc
  | fetchOk fs l1 url par l2 wg calls res hl =>
    have hurl : Reach f seed url := h2 _ (mem_mid l1 _ l2)
    refine ⟨h1, ?_, ?_⟩
    · intro x hx
      rcases mem_swap l1 _ ⟨url, par, TaskPc.fetch⟩ l2 x hx with e | e
      · rw [e]; exact hurl
      · exact h2 x e
    · intro x hx rest hpc c hc
      rcases mem_swap l1 _ ⟨url, par, TaskPc.fetch⟩ l2 x hx with e | e
      · rw [e] at hpc
        simp only [TaskPc.spawn.injEq] at hpc
        rw [← hpc] at hc
        exact Relation.ReflTransGen.tail hurl ⟨res, hl, hc⟩
      · exact h3 x e rest hpc c hc
  | spawn fs l1 url par u rest l2 wg calls =>
    have hold := h3 _ (mem_mid l1 ⟨url, par, TaskPc.spawn (u :: rest)⟩ l2) (u :: rest) rfl
    refine ⟨h1, ?_, ?_⟩
    · intro x hx
      rcases mem_concat_cases l1 ⟨url, par, TaskPc.spawn (u :: rest)⟩ _ l2 _ x hx with e | e | e
      · rw [e]; exact h2 (⟨url, par, TaskPc.spawn (u :: rest)⟩ : Task) (mem_mid l1 _ l2)
      · rw [e]; exact hold u (List.mem_cons_self _ _)
      · exact h2 x e
    · intro x hx rest' hpc c hc
      rcases mem_concat_cases l1 ⟨url, par, TaskPc.spawn (u :: rest)⟩ _ l2 _ x hx with e | e | e
      · rw [e] at hpc
        simp only [TaskPc.spawn.injEq] at hpc
        rw [← hpc] at hc
        exact hold c (List.mem_cons_of_mem _ hc)
      · rw [e] at hpc; exact absurd hpc (by simp)
      · exact h3 x e rest' hpc c hc
  | spawnEnd fs l1 url par l2 wg calls =>
    refine ⟨h1, ?_, ?_⟩
    · intro x hx
      rcases mem_swap l1 _ ⟨url, par, TaskPc.spawn []⟩ l2 x hx with e | e
      · rw [e]; exact h2 (⟨url, par, TaskPc.spawn []⟩ : Task) (mem_mid l1 _ l2)
      · exact h2 x e
    · intro x hx rest hpc
      rcases mem_swap l1 _ ⟨url, par, TaskPc.spawn []⟩ l2 x hx with e | e
      · rw [e] at hpc; exact absurd hpc (by simp)
      · exact h3 x e rest hpc
  | join fs l1 url par l2 wg calls hw =>
    refine ⟨h1, ?_, ?_⟩
    · intro x hx
      rcases mem_swap l1 _ ⟨url, par, TaskPc.wait⟩ l2 x hx with e | e
      · rw [e]; exact h2 (⟨url, par, TaskPc.wait⟩ : Task) (mem_mid l1 _ l2)
      · exact h2 x e
    · intro x hx rest hpc
      rcases mem_swap l1 _ ⟨url, par, TaskPc.wait⟩ l2 x hx with e | e
      · rw [e] at hpc; exact absurd hpc (by simp)
      · exact h3 x e rest hpc
  | signal fs l1 url p l2 wg calls =>
    refine ⟨h1, ?_, ?_⟩
    · intro x hx
      rcases mem_swap l1 _ ⟨url, some p, TaskPc.returned⟩ l2 x hx with e | e
      · rw [e]; exact h2 (⟨url, some p, TaskPc.returned⟩ : Task) (mem_mid l1 _ l2)
      · exact h2 x e
    · intro x hx rest hpc
      rcases mem_swap l1 _ ⟨url, some p, TaskPc.returned⟩ l2 x hx with e | e
      · rw [e] at hpc; exact absurd hpc (by simp)
      · exact h3 x e rest hpc

theorem Pend_swap (l1 : List Task) (t t' : Task) (l2 : List Task) (c : String)
    (h : Pend (l1 ++ t :: l2) c) :
    (t.url = c ∧ t.pc = TaskPc.start) ∨ Pend (l1 ++ t' :: l2) c := by
  obtain ⟨x, hx, hu, hp⟩ := h
  rcases mem_swap l1 t t' l2 x hx with e | e
  · left; rw [← e]; exact ⟨hu, hp⟩
  · right; exact ⟨x, e, hu, hp⟩

theorem Owes_swap (l1 : List Task) (t t' : Task) (l2 : List Task) (w c : String)
    (h : Owes (l1 ++ t :: l2) w c) :
    (t.url = w ∧ (t.pc = TaskPc.fetch ∨ ∃ rest, t.pc = TaskPc.spawn rest ∧ c ∈ rest)) ∨
      Owes (l1 ++ t' :: l2) w c := by
  obtain ⟨x, hx, hu, hp⟩ := h
  rcases mem_swap l1 t t' l2 x hx with e | e
  · left; rw [← e]; exact ⟨hu, hp⟩
  · right; exact ⟨x, e, hu, hp⟩

theorem Pend_concat (l : List Task) (x : Task) (c : String) (h : Pend l c) :
    Pend (l ++ [x]) c := by
  obtain ⟨y, hy, hu, hp⟩ := h
  exact ⟨y, List.mem_append_left _ hy, hu, hp⟩

theorem Owes_concat (l : List Task) (x : Task) (w c : String) (h : Owes l w c) :
    Owes (l ++ [x]) w c := by
  obtain ⟨y, hy, hu, hp⟩ := h
  exact ⟨y, List.mem_append_left _ hy, hu, hp⟩

/-- A step that changes neither the marks nor what the moving call owes keeps the
completeness invariant. -/
theorem MClosure_quiet (f : fakeFetcher) (seed : String) (fs : fetchState)
    (l1 : List Task) (t t' : Task) (l2 : List Task) (wg wg' : Nat → Int)
    (calls calls' : List String)
    (hstart : t.pc ≠ TaskPc.start)
    (howe : ∀ w res c, t.url = w → f.lookup w = some res → c ∈ res.urls →
      (t.pc = TaskPc.fetch ∨ ∃ rest, t.pc = TaskPc.spawn rest ∧ c ∈ rest) →
      Owes (l1 ++ t' :: l2) w c ∨ Pend (l1 ++ t' :: l2) c)
    (hi : MClosureInv f seed ⟨fs, l1 ++ t :: l2, wg, calls⟩) :
    MClosureInv f seed ⟨fs, l1 ++ t' :: l2, wg', calls'⟩ := by
  obtain ⟨h1, h2⟩ := hi
  refine ⟨?_, ?_⟩
  · rcases h1 with hm | hp
    · exact Or.inl hm
    · rcases Pend_swap l1 t t' l2 seed hp with ⟨_, e⟩ | e
      · exact absurd e hstart
      · exact Or.inr e
  · intro w res c hw hl hc
    rcases h2 w res c hw hl hc with hm | ho | hp
    · exact Or.inl hm
    · rcases Owes_swap l1 t t' l2 w c ho with ⟨e, e2⟩ | e
      · rcases howe w res c e hl hc e2 with r | r
        · exact Or.inr (Or.inl r)
        · exact Or.inr (Or.inr r)
      · exact Or.inr (Or.inl e)
    · rcases Pend_swap l1 t t' l2 c hp with ⟨_, e⟩ | e
      · exact absurd e hstart
      · exact Or.inr (Or.inr e)

theorem MClosureInv_step (f : fakeFetcher) (seed : String) (s s' : MutexState)
    (h : MStep f s s') (hi : MClosureInv f seed s) : MClosureInv f seed s' := by
  cases h with
  | win fs l1 url par l2 wg calls hm =>
    obtain ⟨h1, h2⟩ := hi
    have hmono : ∀ v, fs.fetched v = some true → (fs.testAndSet url).2.fetched v = some true :=
      fun v hv => (FetchedMap.set_true_iff _ _ _).mpr (Or.inr hv)
    have hself : (fs.testAndSet url).2.fetched url = some true :=
      (FetchedMap.set_true_iff _ _ _).mpr (Or.inl rfl)
    refine ⟨?_, ?_⟩
    · rcases h1 with hmk | hp
      · exact Or.inl (hmono _ hmk)
      · rcases Pend_swap l1 _ ⟨url, par, TaskPc.fetch⟩ l2 seed hp with ⟨e, _⟩ | e
        · left
          simp only [] at e
          rw [← e]; exact hself
        · exact Or.inr e
    · intro w res c hw hl hc
      rcases (FetchedMap.set_true_iff _ _ _).mp hw with e | hw'
      · right; left
        exact ⟨⟨url, par, TaskPc.fetch⟩, mem_mid l1 _ l2, e.symm, Or.inl rfl⟩
      · rcases h2 w res c hw' hl hc with hmk | ho | hp
        · exact Or.inl (hmono _ hmk)
        · rcases Owes_swap l1 _ ⟨url, par, TaskPc.fetch⟩ l2 w c ho with ⟨_, e2⟩ | e
          · simp at e2
          · exact Or.inr (Or.inl e)
        · rcases Pend_swap l1 _ ⟨url, par, TaskPc.fetch⟩ l2 c hp with ⟨e, _⟩ | e
          · left
            simp only [] at e
            rw [← e]; exact hself
          · exact Or.inr (Or.inr e)
  | lose fs l1 url par l2 wg calls hm =>
    obtain ⟨h1, h2⟩ := hi
    have hiff : ∀ v, (fs.testAndSet url).2.fetched v = some true ↔ fs.fetched v = some true :=
      fun v => set_true_of_marked _ _ _ hm
    refine ⟨?_, ?_⟩
    · rcases h1 with hmk | hp
      · exact Or.inl ((hiff _).mpr hmk)
      · rcases Pend_swap l1 _ ⟨url, par, TaskPc.returned⟩ l2 seed hp with ⟨e, _⟩ | e
        · left
          simp only [] at e
          rw [← e]; exact (hiff _).mpr hm
        · exact Or.inr e
    · intro w res c hw hl hc
      rcases h2 w res c ((hiff _).mp hw) hl hc with hmk | ho | hp
      · exact Or.inl ((hiff _).mpr hmk)
      · rcases Owes_swap l1 _ ⟨url, par, TaskPc.returned⟩ l2 w c ho with ⟨_, e2⟩ | e
        · simp at e2
        · exact Or.inr (Or.inl e)
      · rcases Pend_swap l1 _ ⟨url, par, TaskPc.returned⟩ l2 c hp with ⟨e, _⟩ | e
        · left
          simp only [] at e
          rw [← e]; exact (hiff _).mpr hm
        · exact Or.inr (Or.inr e)
  | fetchFail fs l1 url par l2 wg calls hl =>
    refine MClosure_quiet f seed fs l1 _ _ l2 wg wg calls _ (by simp) ?_ hi
    intro w res c e hl' _ _
    simp only [] at e
    rw [← e, hl] at hl'
    simp at hl'
  | fetchOk fs l1 url par l2 wg calls res hl =>
    refine MClosure_quiet f seed fs l1 _ _ l2 wg wg calls _ (by simp) ?_ hi
    intro w res' c e hl' hc _
    simp only [] at e
    rw [← e, hl] at hl'
    simp only [Option.some.injEq] at hl'
    left
    exact ⟨⟨url, par, TaskPc.spawn res.urls⟩, mem_mid l1 _ l2, e,
      Or.inr ⟨res.urls, rfl, hl' ▸ hc⟩⟩
  | spawn fs l1 url par u rest l2 wg calls =>
    obtain ⟨h1, h2⟩ := hi
    refine ⟨?_, ?_⟩
    · rcases h1 with hmk | hp
      · exact Or.inl hmk
      · rcases Pend_swap l1 _ ⟨url, par, TaskPc.spawn rest⟩ l2 seed hp with ⟨_, e⟩ | e
        · simp at e
        · exact Or.inr (Pend_concat _ _ _ e)
    · intro w res c hw hl hc
      rcases h2 w res c hw hl hc with hmk | ho | hp
      · exact Or.inl hmk
      · rcases Owes_swap l1 _ ⟨url, par, TaskPc.spawn rest⟩ l2 w c ho with ⟨e, e2⟩ | e
        · simp only [reduceCtorEq, false_or, TaskPc.spawn.injEq, exists_eq_left'] at e2
          simp only [] at e
          rcases List.mem_cons.mp e2 with ec | ec
          · right; right
            exact ⟨⟨u, some l1.length, TaskPc.start⟩, by simp, ec.symm, rfl⟩
          · right; left
            exact Owes_concat _ _ _ _
              ⟨⟨url, par, TaskPc.spawn rest⟩, mem_mid l1 _ l2, e, Or.inr ⟨rest, rfl, ec⟩⟩
        · exact Or.inr (Or.inl (Owes_concat _ _ _ _ e))
      · rcases Pend_swap l1 _ ⟨url, par, TaskPc.spawn rest⟩ l2 c hp with ⟨_, e⟩ | e
        · simp at e
        · exact Or.inr (Or.inr (Pend_concat _ _ _ e))
  | spawnEnd fs l1 url par l2 wg calls =>
    refine MClosure_quiet f seed fs l1 _ _ l2 wg wg calls _ (by simp) ?_ hi
    intro w res c _ _ _ e2
    simp at e2
  | join fs l1 url par l2 wg calls hw =>
    refine MClosure_quiet f seed fs l1 _ _ l2 wg wg calls _ (by simp) ?_ hi
    intro w res c _ _ _ e2
    simp at e2
  | signal fs l1 url p l2 wg calls =>
    refine MClosure_quiet f seed fs l1 _ _ l2 wg _ calls _ (by simp) ?_ hi
    intro w res c _ _ _ e2
    simp at e2

theorem liveChildren_nil (i : Nat) : liveChildren i [] = 0 := rfl

theorem MutexInv_init (f : fakeFetcher) (seed : String) :
    MutexInv f seed (ConcurrentMutex seed makeState) := by
  refine ⟨⟨by simp [ConcurrentMutex], ?_⟩, ⟨?_, ?_⟩, ⟨?_, ?_⟩, ⟨?_, ?_, ?_⟩, ⟨?_, ?_⟩⟩
  · intro j t ht
    cases j with
    | zero =>
      simp only [ConcurrentMutex, List.getElem?_cons_zero, Option.some.injEq] at ht
      subst ht
      exact ⟨by simp, by simp, by simp⟩
    | succ j => simp [ConcurrentMutex] at ht
  · intro i
    simp [ConcurrentMutex, liveChildren]
  · intro j t _ _
    rfl
  · simp [ConcurrentMutex, fetching]
  · intro u
    simp [ConcurrentMutex, fetching, makeState, FetchedMap.empty]
  · intro u hu
    simp [ConcurrentMutex, makeState, FetchedMap.empty] at hu
  · intro t ht
    simp only [ConcurrentMutex, List.mem_singleton] at ht
    subst ht
    exact Relation.ReflTransGen.refl
  · intro t ht rest hpc
    simp only [ConcurrentMutex, List.mem_singleton] at ht
    subst ht
    simp at hpc
  · right
    exact ⟨_, List.mem_singleton.mpr rfl, rfl, rfl⟩
  · intro w res c hw
    simp [ConcurrentMutex, makeState, FetchedMap.empty] at hw

theorem MutexInv_step (f : fakeFetcher) (seed : String) (s s' : MutexState)
    (h : MStep f s s') (hi : MutexInv f seed s) : MutexInv f seed s' :=
  ⟨ShapeInv_step f s s' h hi.shape, WaitInv_step f s s' h hi.shape hi.wait,
    FetchInv_step f s s' h hi.fetch, MSoundInv_step f seed s s' h hi.sound,
    MClosureInv_step f seed s s' h hi.closure⟩

/-- Every step of `ConcurrentMutex` lowers the measure. -/
theorem mutexMeasure_step (f : fakeFetcher) (seed : String) (s s' : MutexState)
    (h : MStep f s s') (hi : MSoundInv f seed s) :
    mutexMeasure f seed s' < mutexMeasure f seed s := by
  cases h with
  | win fs l1 url par l2 wg calls hm =>
    have hu : url ∈ (seed :: graphIds f).dedup :=
      List.mem_dedup.mpr (reach_mem_universe f seed url
        (hi.2.1 (⟨url, par, TaskPc.start⟩ : Task) (mem_mid l1 _ l2)))
    have := sum_filter_mark (fun v => 3 * (children f v).length + 4) fs.fetched url hm _ hu
    simp only [mutexMeasure, fetchState.testAndSet, List.map_append, List.map_cons,
      List.sum_append, List.sum_cons, Task.weight] at this ⊢
    omega
  | lose fs l1 url par l2 wg calls hm =>
    have := sum_filter_le (fun v => 3 * (children f v).length + 4)
      (fun v => !fs.fetched.get v) (fun v => !(fs.fetched.set url true).get v)
      (by
        intro x hx
        simp only [FetchedMap.get_set_true, Bool.not_eq_true', Bool.or_eq_false_iff] at hx ⊢
        exact hx.2) (seed :: graphIds f).dedup
    simp only [mutexMeasure, fetchState.testAndSet, List.map_append, List.map_cons,
      List.sum_append, List.sum_cons, Task.weight] at this ⊢
    omega
  | fetchFail fs l1 url par l2 wg calls hl =>
    simp only [mutexMeasure, List.map_append, List.map_cons, List.sum_append, List.sum_cons,
      Task.weight]
    omega
  | fetchOk fs l1 url par l2 wg calls res hl =>
    simp only [mutexMeasure, List.map_append, List.map_cons, List.sum_append, List.sum_cons,
      Task.weight, children_of_lookup_some f url res hl]
    omega
  | spawn fs l1 url par u rest l2 wg calls =>
    simp only [mutexMeasure, List.map_append, List.map_cons, List.map_nil, List.sum_append,
      List.sum_cons, List.sum_nil, Task.weight, List.length_cons]
    omega
  | spawnEnd fs l1 url par l2 wg calls =>
    simp only [mutexMeasure, List.map_append, List.map_cons, List.sum_append, List.sum_cons,
      Task.weight, List.length_nil]
    omega
  | join fs l1 url par l2 wg calls hw =>
    simp only [mutexMeasure, List.map_append, List.map_cons, List.sum_append, List.sum_cons,
      Task.weight]
    omega
  | signal fs l1 url p l2 wg calls =>
    simp only [mutexMeasure, List.map_append, List.map_cons, List.sum_append, List.sum_cons,
      Task.weight]
    omega

theorem mrun_cons (f : fakeFetcher) (s : MutexState) (i : Nat) (is : List Nat) :
    mrun f s (i :: is) = (mstep f s i).bind (fun s' => mrun f s' is) := rfl

theorem mrun_append (f : fakeFetcher) :
    ∀ (as bs : List Nat) (s : MutexState),
      mrun f s (as ++ bs) = (mrun f s as).bind (fun s' => mrun f s' bs) := by
  intro as
  induction as with
  | nil => intro bs s; rfl
  | cons a as ih =>
    intro bs s
    rw [List.cons_append, mrun_cons, mrun_cons]
    cases mstep f s a with
    | none => rfl
    | some s1 => exact ih bs s1

/-- Along an interleaving the invariant is kept and the measure pays for every step. -/
theorem mrun_inv (f : fakeFetcher) (seed : String) :
    ∀ (sched : List Nat) (s s' : MutexState), mrun f s sched = some s' →
      MutexInv f seed s →
      MutexInv f seed s' ∧ mutexMeasure f seed s' + sched.length ≤ mutexMeasure f seed s := by
  intro sched
  induction sched with
  | nil =>
    intro s s' h hi
    simp only [mrun, Option.some.injEq] at h
    subst h
    exact ⟨hi, by simp⟩
  | cons a as ih =>
    intro s s' h hi
    rw [mrun_cons] at h
    cases hs : mstep f s a with
    | none => rw [hs] at h; simp at h
    | some s1 =>
      rw [hs] at h
      simp only [Option.some_bind] at h
      have hstep := MStep_of_mstep f s s1 a hs
      obtain ⟨hi', hm⟩ := ih s1 s' h (MutexInv_step f seed s s1 hstep hi)
      have hlt := mutexMeasure_step f seed s s1 hstep hi.sound
      refine ⟨hi', ?_⟩
      simp only [List.length_cons]
      omega

/-- The invariant holds in every state an interleaving of `ConcurrentMutex` reaches. -/
theorem mreachable_inv (f : fakeFetcher) (seed : String) (sched : List Nat) (s : MutexState)
    (h : mrun f (ConcurrentMutex seed makeState) sched = some s) : MutexInv f seed s :=
  (mrun_inv f seed sched _ s h (MutexInv_init f seed)).1

/-- A call blocked in `done.Wait()` has a goroutine of its own that has not finished. -/
theorem blocked_child (s : MutexState) (hs : ShapeInv s) (hw : WaitInv s) (j : Nat)
    (h : s.wg j ≠ 0) :
    ∃ k t, j < k ∧ s.tasks[k]? = some t ∧ t.parent = some j ∧ t.pc ≠ TaskPc.finished := by
  have h1 := hw.1 j
  have hpos : 0 < liveChildren j s.tasks := by
    rcases Nat.eq_zero_or_pos (liveChildren j s.tasks) with e | e
    · rw [e] at h1; exact absurd h1 h
    · exact e
  unfold liveChildren at hpos
  obtain ⟨t, ht, hp⟩ := List.countP_pos_iff.mp hpos
  simp only [Bool.and_eq_true, decide_eq_true_eq] at hp
  obtain ⟨k, hk⟩ := List.mem_iff_getElem?.mp ht
  exact ⟨k, t, (hs.2 k t hk).2.1 j hp.1, hk, hp.1, hp.2⟩

theorem mstep_isSome_of_pc (f : fakeFetcher) (s : MutexState) (j : Nat) (t : Task)
    (ht : s.tasks[j]? = some t)
    (hpc : t.pc = TaskPc.start ∨ t.pc = TaskPc.fetch ∨ (∃ rest, t.pc = TaskPc.spawn rest) ∨
      (t.pc = TaskPc.wait ∧ s.wg j = 0) ∨ (t.pc = TaskPc.returned ∧ t.parent ≠ none)) :
    (mstep f s j).isSome = true := by
  obtain ⟨url, par, pc⟩ := t
  unfold mstep
  rw [ht]
  rcases hpc with e | e | ⟨rest, e⟩ | ⟨e, hw⟩ | ⟨e, hp⟩
  · simp only [] at e
    subst e
    rfl
  · simp only [] at e
    subst e
    rfl
  · simp only [] at e
    subst e
    cases rest <;> rfl
  · simp only [] at e
    subst e
    simp [hw]
  · simp only [] at e hp
    subst e
    cases par with
    | none => exact absurd rfl hp
    | some p => rfl

/-- A call that has not finished, or one of the goroutines below it, can move. -/
theorem mutex_progress_from (f : fakeFetcher) (s : MutexState) (hs : ShapeInv s)
    (hw : WaitInv s) :
    ∀ (n j : Nat) (t : Task), s.tasks.length - j ≤ n → s.tasks[j]? = some t →
      t.pc ≠ TaskPc.finished → (t.pc = TaskPc.returned → t.parent ≠ none) →
      ∃ i, (mstep f s i).isSome = true := by
  intro n
  induction n with
  | zero =>
    intro j t hn ht _ _
    have hlt : j < s.tasks.length := by
      by_contra hge
      rw [List.getElem?_eq_none (Nat.le_of_not_lt hge)] at ht
      simp at ht
    omega
  | succ n ih =>
    intro j t hn ht hfin hret
    have hlt : j < s.tasks.length := by
      by_contra hge
      rw [List.getElem?_eq_none (Nat.le_of_not_lt hge)] at ht
      simp at ht
    cases hpc : t.pc with
    | start => exact ⟨j, mstep_isSome_of_pc f s j t ht (Or.inl hpc)⟩
    | fetch => exact ⟨j, mstep_isSome_of_pc f s j t ht (Or.inr (Or.inl hpc))⟩
    | spawn rest =>
      exact ⟨j, mstep_isSome_of_pc f s j t ht (Or.inr (Or.inr (Or.inl ⟨rest, hpc⟩)))⟩
    | wait =>
      by_cases h0 : s.wg j = 0
      · exact ⟨j, mstep_isSome_of_pc f s j t ht (Or.inr (Or.inr (Or.inr (Or.inl ⟨hpc, h0⟩))))⟩
      · obtain ⟨k, t', hjk, hk, hp, hne⟩ := blocked_child s hs hw j h0
        have hklt : k < s.tasks.length := by
          by_contra hge
          rw [List.getElem?_eq_none (Nat.le_of_not_lt hge)] at hk
          simp at hk
        exact ih k t' (by omega) hk hne (fun _ => by rw [hp]; simp)
    | returned =>
      exact ⟨j, mstep_isSome_of_pc f s j t ht
        (Or.inr (Or.inr (Or.inr (Or.inr ⟨hpc, hret hpc⟩))))⟩
    | finished => exact absurd hpc hfin

/-- No deadlock: unless the top-level call has returned, some call can move. -/
theorem mutex_progress (f : fakeFetcher) (s : MutexState) (hs : ShapeInv s) (hw : WaitInv s)
    (hroot : s.rootPc ≠ some TaskPc.returned) : ∃ i s', mstep f s i = some s' := by
  obtain ⟨hne, hshape⟩ := hs
  cases htasks : s.tasks with
  | nil => exact absurd htasks hne
  | cons r l =>
    have hr0 : s.tasks[0]? = some r := by rw [htasks]; exact List.getElem?_cons_zero
    obtain ⟨hnone, _, hfin⟩ := hshape 0 r hr0
    have hpar : r.parent = none := hnone.mpr rfl
    have hrpc : r.pc ≠ TaskPc.returned := by
      intro e
      apply hroot
      unfold MutexState.rootPc
      rw [hr0]
      simp [e]
    obtain ⟨i, hi⟩ := mutex_progress_from f s ⟨hne, hshape⟩ hw s.tasks.length 0 r
      (by omega) hr0 (fun e => hfin e hpar) (fun e => absurd e hrpc)
    exact ⟨i, Option.isSome_iff_exists.mp hi⟩

/-- Once the top-level call has returned, no call can move. -/
theorem mutex_done_stuck (f : fakeFetcher) (s : MutexState) (hs : ShapeInv s) (hw : WaitInv s)
    (hroot : s.rootPc = some TaskPc.returned) (i : Nat) : mstep f s i = none := by
  have hall := all_finished s hs hw hroot
  unfold mstep
  cases ht : s.tasks[i]? with
  | none => rfl
  | some t =>
    by_cases hi : i = 0
    · subst hi
      have hpar : t.parent = none := (hs.2 0 t ht).1.mpr rfl
      have hpc : t.pc = TaskPc.returned := by
        unfold MutexState.rootPc at hroot
        rw [ht] at hroot
        simpa using hroot
      obtain ⟨url, par, pc⟩ := t
      simp only [] at hpar hpc
      subst hpar hpc
      rfl
    · have hpc := hall i t ht hi
      obtain ⟨url, par, pc⟩ := t
      simp only [] at hpc
      subst hpc
      rfl

/-- Every state satisfying the invariant can be run to the top-level call's return. -/
theorem mutex_completes (f : fakeFetcher) (seed : String) :
    ∀ (k : Nat) (s : MutexState), mutexMeasure f seed s ≤ k → MutexInv f seed s →
      ∃ sched s', mrun f s sched = some s' ∧ s'.rootPc = some TaskPc.returned := by
  intro k
  induction k with
  | zero =>
    intro s hk hi
    by_cases hpc : s.rootPc = some TaskPc.returned
    · exact ⟨[], s, rfl, hpc⟩
    · obtain ⟨a, s1, hs⟩ := mutex_progress f s hi.shape hi.wait hpc
      have := mutexMeasure_step f seed s s1 (MStep_of_mstep f s s1 a hs) hi.sound
      omega
  | succ k ih =>
    intro s hk hi
    by_cases hpc : s.rootPc = some TaskPc.returned
    · exact ⟨[], s, rfl, hpc⟩
    · obtain ⟨a, s1, hs⟩ := mutex_progress f s hi.shape hi.wait hpc
      have hstep := MStep_of_mstep f s s1 a hs
      have hlt := mutexMeasure_step f seed s s1 hstep hi.sound
      obtain ⟨sched, s', hr, hd⟩ := ih s1 (by omega) (MutexInv_step f seed s s1 hstep hi)
      exact ⟨a :: sched, s', by rw [mrun_cons, hs]; exact hr, hd⟩

/-- When the top-level call has returned, every call has returned. -/
theorem mutex_done_pcs (s : MutexState) (hs : ShapeInv s) (hw : WaitInv s)
    (hroot : s.rootPc = some TaskPc.returned) :
    ∀ t ∈ s.tasks, t.pc = TaskPc.returned ∨ t.pc = TaskPc.finished := by
  intro t ht
  obtain ⟨j, hj⟩ := List.mem_iff_getElem?.mp ht
  by_cases h0 : j = 0
  · subst h0
    left
    unfold MutexState.rootPc at hroot
    rw [hj] at hroot
    simpa using hroot
  · exact Or.inr (all_finished s hs hw hroot j t hj h0)

/-- When the top-level call has returned, the marked ids are the reachable ones. -/
theorem mutex_done_marked (f : fakeFetcher) (seed : String) (s : MutexState)
    (hi : MutexInv f seed s) (hroot : s.rootPc = some TaskPc.returned) (v : String) :
    s.fs.fetched v = some true ↔ Reach f seed v := by
  have hpcs := mutex_done_pcs s hi.shape hi.wait hroot
  have hnopend : ∀ c, ¬ Pend s.tasks c := by
    rintro c ⟨t, ht, _, hp⟩
    rcases hpcs t ht with e | e <;> rw [e] at hp <;> simp at hp
  have hnoowes : ∀ w c, ¬ Owes s.tasks w c := by
    rintro w c ⟨t, ht, _, hp⟩
    rcases hpcs t ht with e | e <;> rw [e] at hp <;> simp at hp
  obtain ⟨h1, h2⟩ := hi.closure
  have hseed : s.fs.fetched seed = some true := by
    rcases h1 with h | h
    · exact h
    · exact absurd h (hnopend seed)
  constructor
  · exact hi.sound.1 v
  · intro hreach
    refine closed_reach f s.fs.fetched seed v ?_ hseed hreach
    intro w res c hw _ hl hc
    rcases h2 w res c hw hl hc with h | h | h
    · exact h
    · exact absurd h (hnoowes w c)
    · exact absurd h (hnopend c)

/-- When the top-level call has returned, the `Fetch` calls made are pairwise distinct and
are the marked ids. -/
theorem mutex_done_calls (s : MutexState) (hs : ShapeInv s) (hw : WaitInv s) (hf : FetchInv s)
    (hroot : s.rootPc = some TaskPc.returned) :
    s.calls.Nodup ∧ ∀ u, u ∈ s.calls ↔ s.fs.fetched u = some true := by
  have hpcs := mutex_done_pcs s hs hw hroot
  have hnil : fetching s.tasks = [] := by
    unfold fetching
    rw [List.map_eq_nil_iff, List.filter_eq_nil_iff]
    intro t ht
    rcases hpcs t ht with e | e <;> simp [e]
  unfold FetchInv at hf
  rw [hnil, List.append_nil] at hf
  exact hf

/-! ## The three-page graph -/

theorem abc_reach (v : String) :
    Reach abcFetcher "A" v ↔ v = "A" ∨ v = "B" ∨ v = "C" := by
  have hA : abcFetcher.lookup "A" = some { body := "", urls := ["B", "C"] } := by decide
  have hB : abcFetcher.lookup "B" = some { body := "", urls := ["A", "C"] } := by decide
  have hC : abcFetcher.lookup "C" = some { body := "", urls := [] } := by decide
  constructor
  · intro h
    induction h with
    | refl => exact Or.inl rfl
    | tail _ hstep ih =>
      obtain ⟨res, hl, hc⟩ := hstep
      rcases ih with e | e | e
      · rw [e, hA] at hl
        simp only [Option.some.injEq] at hl
        rw [← hl] at hc
        simp only [List.mem_cons, List.mem_singleton, List.not_mem_nil, or_false] at hc
        tauto
      · rw [e, hB] at hl
        simp only [Option.some.injEq] at hl
        rw [← hl] at hc
        simp only [List.mem_cons, List.mem_singleton, List.not_mem_nil, or_false] at hc
        tauto
      · rw [e, hC] at hl
        simp only [Option.some.injEq] at hl
        rw [← hl] at hc
        simp at hc
  · rintro (e | e | e)
    · rw [e]
      exact Relation.ReflTransGen.refl
    · rw [e]
      exact Relation.ReflTransGen.single ⟨_, hA, by simp⟩
    · rw [e]
      exact Relation.ReflTransGen.single ⟨_, hA, by simp⟩

theorem abc_found (u : String) (h : u = "A" ∨ u = "B" ∨ u = "C") :
    (abcFetcher.Fetch u).err = none ∧ (abcFetcher.Fetch u).out = "found:   " ++ u ++ "\n" := by
  rcases h with e | e | e <;> rw [e] <;> exact ⟨by decide, by decide⟩

theorem perm_abc (l : List String) (hnd : l.Nodup)
    (hmem : ∀ v, v ∈ l ↔ v = "A" ∨ v = "B" ∨ v = "C") : l.Perm ["A", "B", "C"] := by
  refine (List.perm_ext_iff_of_nodup hnd (by decide)).mpr ?_
  intro v
  rw [hmem v]
  simp

/-! ## `testAndSet` under the mutex -/

/-- Every enabled statement is a step of the relation. -/
theorem LStep_of_lstep (s s' : LockState) (i : Nat) (h : lstep s i = some s') :
    LStep s s' := by
  obtain ⟨locked, fetched, callers⟩ := s
  unfold lstep at h
  cases ht : callers[i]? with
  | none => simp only [ht] at h; exact absurd h (by simp)
  | some c =>
    obtain ⟨l1, l2, h1, h2⟩ := getElem?_split_length callers i c ht
    subst h1 h2
    simp only [ht] at h
    obtain ⟨url, pc⟩ := c
    cases pc with
    | lock =>
      cases locked with
      | true => simp at h
      | false =>
        simp only [Bool.false_eq_true, if_false, Option.some.injEq, set_append_cons] at h
        subst h
        exact LStep.acquire fetched l1 url l2
    | read =>
      simp only [Option.some.injEq, set_append_cons] at h
      subst h
      exact LStep.load locked fetched l1 url l2
    | write r =>
      simp only [Option.some.injEq, set_append_cons] at h
      subst h
      exact LStep.store locked fetched l1 url r l2
    | unlock r =>
      simp only [Option.some.injEq, set_append_cons] at h
      subst h
      exact LStep.release locked fetched l1 url r l2
    | ret r => simp at h

theorem excl_replace_crit (l1 : List Caller) (t t' : Caller) (l2 : List Caller)
    (ht : t.pc.critical = true) (h : Excl (l1 ++ t :: l2)) : Excl (l1 ++ t' :: l2) := by
  intro i j ci cj hi hj hci hcj
  rw [getElem?_replace l1 t t' l2] at hi hj
  by_cases hik : i = l1.length
  · by_cases hjk : j = l1.length
    · rw [hik, hjk]
    · rw [if_neg hjk] at hj
      exact absurd (h j l1.length cj t hj (getElem?_middle l1 t l2) hcj ht) hjk
  · rw [if_neg hik] at hi
    by_cases hjk : j = l1.length
    · exact absurd (h i l1.length ci t hi (getElem?_middle l1 t l2) hci ht) hik
    · rw [if_neg hjk] at hj
      exact h i j ci cj hi hj hci hcj

theorem excl_replace_none (l1 : List Caller) (t t' : Caller) (l2 : List Caller)
    (h : ∀ c ∈ l1 ++ t :: l2, c.pc.critical = false) : Excl (l1 ++ t' :: l2) := by
  intro i j ci cj hi hj hci hcj
  rw [getElem?_replace l1 t t' l2] at hi hj
  by_cases hik : i = l1.length
  · by_cases hjk : j = l1.length
    · rw [hik, hjk]
    · rw [if_neg hjk] at hj
      have := h cj (List.mem_iff_getElem?.mpr ⟨j, hj⟩)
      rw [hcj] at this
      exact absurd this (by simp)
  · rw [if_neg hik] at hi
    have := h ci (List.mem_iff_getElem?.mpr ⟨i, hi⟩)
    rw [hci] at this
    exact absurd this (by simp)

theorem Exclusion_step (s s' : LockState) (h : LStep s s') (hi : Exclusion s) :
    Exclusion s' := by
  obtain ⟨hex, hlk⟩ := hi
  cases h with
  | acquire fetched l1 url l2 =>
    refine ⟨excl_replace_none l1 ⟨url, LockPc.lock⟩ _ l2 ?_, ?_⟩
    · intro c hc
      simp only [] at hlk
      cases hcr : c.pc.critical with
      | false => rfl
      | true => exact absurd (hlk.mpr ⟨c, hc, hcr⟩) (by simp)
    · exact ⟨fun _ => ⟨_, mem_mid l1 _ l2, rfl⟩, fun _ => rfl⟩
  | load locked fetched l1 url l2 =>
    refine ⟨excl_replace_crit l1 ⟨url, LockPc.read⟩ _ l2 rfl hex, ?_⟩
    have hl : locked = true := hlk.mpr ⟨_, mem_mid l1 _ l2, rfl⟩
    exact ⟨fun _ => ⟨_, mem_mid l1 _ l2, rfl⟩, fun _ => hl⟩
  | store locked fetched l1 url r l2 =>
    refine ⟨excl_replace_crit l1 ⟨url, LockPc.write r⟩ _ l2 rfl hex, ?_⟩
    have hl : locked = true := hlk.mpr ⟨_, mem_mid l1 _ l2, rfl⟩
    exact ⟨fun _ => ⟨_, mem_mid l1 _ l2, rfl⟩, fun _ => hl⟩
  | release locked fetched l1 url r l2 =>
    refine ⟨excl_replace_crit l1 ⟨url, LockPc.unlock r⟩ _ l2 rfl hex, ?_⟩
    constructor
    · intro hc
      exact absurd hc (by simp)
    · rintro ⟨c, hc, hcr⟩
      exfalso
      obtain ⟨j, hj⟩ := List.mem_iff_getElem?.mp hc
      rw [getElem?_replace l1 ⟨url, LockPc.unlock r⟩ _ l2] at hj
      by_cases hjk : j = l1.length
      · rw [if_pos hjk] at hj
        simp only [Option.some.injEq] at hj
        rw [← hj] at hcr
        simp [LockPc.critical] at hcr
      · rw [if_neg hjk] at hj
        exact hjk (hex j l1.length c _ hj (getElem?_middle l1 _ l2) hcr rfl)

/-- Replacing a caller by one on the same url keeps the winner, as long as the winner stays
past its write and nobody else comes to have read `false`. -/
theorem winner_replace (u : String) (l1 : List Caller) (t t' : Caller) (l2 : List Caller)
    (i : Nat) (hw : Winner u (l1 ++ t :: l2) i) (hurl : t'.url = t.url)
    (hkeep : t.pc = LockPc.unlock false ∨ t.pc = LockPc.ret false →
      t'.pc = LockPc.unlock false ∨ t'.pc = LockPc.ret false)
    (hother : t.url = u → t.pc.readFalse = false → t'.pc.readFalse = false) :
    Winner u (l1 ++ t' :: l2) i := by
  obtain ⟨⟨c, hc, hcu, hcpc⟩, hoth⟩ := hw
  by_cases hik : i = l1.length
  · subst hik
    rw [getElem?_middle] at hc
    simp only [Option.some.injEq] at hc
    subst hc
    refine ⟨⟨t', getElem?_middle l1 t' l2, hurl.trans hcu, hkeep hcpc⟩, ?_⟩
    intro j c' hj hu hne
    rw [getElem?_replace l1 t t' l2, if_neg hne] at hj
    exact hoth j c' hj hu hne
  · refine ⟨⟨c, ?_, hcu, hcpc⟩, ?_⟩
    · rw [getElem?_replace l1 t t' l2, if_neg hik]
      exact hc
    · intro j c' hj hu hne
      rw [getElem?_replace l1 t t' l2] at hj
      by_cases hjk : j = l1.length
      · rw [if_pos hjk] at hj
        simp only [Option.some.injEq] at hj
        subst hj
        have htu : t.url = u := hurl.symm.trans hu
        exact hother htu (hoth l1.length t (getElem?_middle l1 t l2) htu (hjk ▸ hne))
      · rw [if_neg hjk] at hj
        exact hoth j c' hj hu hne

theorem FirstInv_step (u : String) (s s' : LockState) (h : LStep s s') (hex : Exclusion s)
    (hi : FirstInv u s) : FirstInv u s' := by
  obtain ⟨hb, hc⟩ := hi
  cases h with
  | acquire fetched l1 url l2 =>
    refine ⟨?_, ?_⟩
    · intro hm c hmem hcu
      rcases mem_swap l1 _ ⟨url, LockPc.lock⟩ l2 c hmem with e | e
      · rw [e]; exact Or.inr (Or.inl rfl)
      · exact hb hm c e hcu
    · intro hm
      obtain ⟨i, hw⟩ := hc hm
      exact ⟨i, winner_replace u l1 _ _ l2 i hw rfl (by simp) (fun _ _ => rfl)⟩
  | load locked fetched l1 url l2 =>
    refine ⟨?_, ?_⟩
    · intro hm c hmem hcu
      rcases mem_swap l1 _ ⟨url, LockPc.read⟩ l2 c hmem with e | e
      · rw [e] at hcu ⊢
        simp only [] at hcu hm
        right; right
        have hg : fetched.get url = false := by
          rw [hcu]
          cases hgu : fetched.get u with
          | false => rfl
          | true => exact absurd ((FetchedMap.get_eq_true _ _).mp hgu) hm
        simp only [hg]
      · exact hb hm c e hcu
    · intro hm
      obtain ⟨i, hw⟩ := hc hm
      refine ⟨i, winner_replace u l1 _ _ l2 i hw rfl (by simp) ?_⟩
      intro hu _
      simp only [] at hu hm
      have hg : fetched.get url = true := by
        rw [hu]
        exact (FetchedMap.get_eq_true _ _).mpr hm
      simp only [hg]
      rfl
  | store locked fetched l1 url r l2 =>
    refine ⟨?_, ?_⟩
    · intro hm c hmem hcu
      have hm0 : fetched u ≠ some true := fun hc0 => hm (FetchedMap.set_true_mono _ _ _ hc0)
      rcases mem_swap l1 _ ⟨url, LockPc.write r⟩ l2 c hmem with e | e
      · rw [e] at hcu
        simp only [] at hcu
        exact absurd (hcu ▸ FetchedMap.set_same fetched url true) hm
      · exact hb hm0 c e hcu
    · intro hm
      by_cases hm0 : fetched u = some true
      · obtain ⟨i, hw⟩ := hc hm0
        refine ⟨i, winner_replace u l1 _ _ l2 i hw rfl (by simp) ?_⟩
        intro _ hr
        cases r with
        | false => simp [LockPc.readFalse] at hr
        | true => rfl
      · have hurl : u = url := by
          rcases (FetchedMap.set_true_iff _ _ _).mp hm with e | e
          · exact e
          · exact absurd e hm0
        have hr : r = false := by
          rcases hb hm0 ⟨url, LockPc.write r⟩ (mem_mid l1 _ l2) hurl.symm with e | e | e
          · simp at e
          · simp at e
          · simpa using e
        subst hr
        refine ⟨l1.length, ⟨⟨_, getElem?_middle l1 _ l2, hurl.symm, Or.inl rfl⟩, ?_⟩⟩
        intro j c hj hcu hne
        rw [getElem?_replace l1 ⟨url, LockPc.write false⟩ _ l2, if_neg hne] at hj
        rcases hb hm0 c (List.mem_iff_getElem?.mpr ⟨j, hj⟩) hcu with e | e | e
        · rw [e]; rfl
        · rw [e]; rfl
        · exact absurd (hex.1 j l1.length c _ hj (getElem?_middle l1 _ l2)
            (by rw [e]; rfl) rfl) hne
  | release locked fetched l1 url r l2 =>
    refine ⟨?_, ?_⟩
    · intro hm c hmem hcu
      rcases mem_swap l1 _ ⟨url, LockPc.unlock r⟩ l2 c hmem with e | e
      · rw [e] at hcu
        simp only [] at hcu
        rcases hb hm ⟨url, LockPc.unlock r⟩ (mem_mid l1 _ l2) hcu with e2 | e2 | e2 <;>
          simp at e2
      · exact hb hm c e hcu
    · intro hm
      obtain ⟨i, hw⟩ := hc hm
      refine ⟨i, winner_replace u l1 _ _ l2 i hw rfl ?_ ?_⟩
      · intro hr
        simp only [LockPc.unlock.injEq, reduceCtorEq, or_false] at hr
        subst hr
        exact Or.inr rfl
      · intro _ hr
        cases r with
        | false => simp [LockPc.readFalse] at hr
        | true => rfl

theorem urls_step (s s' : LockState) (h : LStep s s') :
    s'.callers.map (fun c => c.url) = s.callers.map (fun c => c.url) := by
  cases h <;> simp

theorem LockInv_step (urls : List String) (u : String) (s s' : LockState) (h : LStep s s')
    (hi : LockInv urls u s) : LockInv urls u s' :=
  ⟨(urls_step s s' h).trans hi.urls, Exclusion_step s s' h hi.excl,
    FirstInv_step u s s' h hi.excl hi.first⟩

theorem LockInv_init (fs : fetchState) (urls : List String) (u : String)
    (hu : fs.fetched u ≠ some true) : LockInv urls u (concurrentCalls fs urls) := by
  have hall : ∀ c ∈ (concurrentCalls fs urls).callers, c.pc = LockPc.lock := by
    intro c hc
    simp only [concurrentCalls, List.mem_map] at hc
    obtain ⟨v, _, e⟩ := hc
    rw [← e]
  refine ⟨by simp [concurrentCalls, Function.comp_def], ⟨?_, ?_⟩, ⟨?_, ?_⟩⟩
  · intro i j ci cj hi _ hci _
    have := hall ci (List.mem_iff_getElem?.mpr ⟨i, hi⟩)
    rw [this] at hci
    simp [LockPc.critical] at hci
  · constructor
    · intro h
      simp [concurrentCalls] at h
    · rintro ⟨c, hc, hcr⟩
      rw [hall c hc] at hcr
      simp [LockPc.critical] at hcr
  · intro _ c hc _
    exact Or.inl (hall c hc)
  · intro h
    exact absurd h hu

theorem lockMeasure_init (fs : fetchState) (urls : List String) :
    lockMeasure (concurrentCalls fs urls) = 4 * urls.length := by
  unfold lockMeasure concurrentCalls
  induction urls with
  | nil => rfl
  | cons v vs ih =>
    simp only [List.map_cons, List.sum_cons, List.length_cons, LockPc.steps] at ih ⊢
    omega

/-- Every statement run lowers the measure by one. -/
theorem lockMeasure_step (s s' : LockState) (h : LStep s s') :
    lockMeasure s' + 1 = lockMeasure s := by
  cases h <;>
    simp only [lockMeasure, List.map_append, List.map_cons, List.sum_append, List.sum_cons,
      LockPc.steps] <;> omega

theorem lrun_cons (s : LockState) (i : Nat) (is : List Nat) :
    lrun s (i :: is) = (lstep s i).bind (fun s' => lrun s' is) := rfl

/-- Along an interleaving the invariant is kept and every statement is paid for. -/
theorem lrun_inv (urls : List String) (u : String) :
    ∀ (sched : List Nat) (s s' : LockState), lrun s sched = some s' →
      LockInv urls u s →
      LockInv urls u s' ∧ lockMeasure s' + sched.length = lockMeasure s := by
  intro sched
  induction sched with
  | nil =>
    intro s s' h hi
    simp only [lrun, Option.some.injEq] at h
    subst h
    exact ⟨hi, by simp⟩
  | cons a as ih =>
    intro s s' h hi
    rw [lrun_cons] at h
    cases hs : lstep s a with
    | none => rw [hs] at h; simp at h
    | some s1 =>
      rw [hs] at h
      simp only [Option.some_bind] at h
      have hstep := LStep_of_lstep s s1 a hs
      obtain ⟨hi', hm⟩ := ih s1 s' h (LockInv_step urls u s s1 hstep hi)
      have hlt := lockMeasure_step s s1 hstep
      refine ⟨hi', ?_⟩
      simp only [List.length_cons]
      omega

/-- No deadlock: unless every caller has returned, some caller can run a statement. -/
theorem lock_progress (s : LockState) (hex : Exclusion s) (hn : ¬ allReturned s) :
    ∃ i s', lstep s i = some s' := by
  by_cases hcrit : ∃ c ∈ s.callers, c.pc.critical = true
  · obtain ⟨c, hc, hcr⟩ := hcrit
    obtain ⟨k, hk⟩ := List.mem_iff_getElem?.mp hc
    obtain ⟨url, pc⟩ := c
    refine ⟨k, Option.isSome_iff_exists.mp ?_⟩
    unfold lstep
    rw [hk]
    cases pc with
    | lock => simp [LockPc.critical] at hcr
    | read => rfl
    | write r => rfl
    | unlock r => rfl
    | ret r => simp [LockPc.critical] at hcr
  · have hl : s.locked = false := by
      cases hlk : s.locked with
      | false => rfl
      | true => exact absurd (hex.2.mp hlk) hcrit
    unfold allReturned at hn
    push_neg at hn
    obtain ⟨c, hc, hret⟩ := hn
    obtain ⟨k, hk⟩ := List.mem_iff_getElem?.mp hc
    have hncr : c.pc.critical ≠ true := fun e => hcrit ⟨c, hc, e⟩
    obtain ⟨url, pc⟩ := c
    refine ⟨k, Option.isSome_iff_exists.mp ?_⟩
    unfold lstep
    rw [hk]
    cases pc with
    | lock => simp [hl]
    | read => simp [LockPc.critical] at hncr
    | write r => simp [LockPc.critical] at hncr
    | unlock r => simp [LockPc.critical] at hncr
    | ret r => simp [LockPc.isRet] at hret

/-- Every state satisfying the invariant can be run on until every caller has returned. -/
theorem lock_completes (urls : List String) (u : String) :
    ∀ (k : Nat) (s : LockState), lockMeasure s ≤ k → LockInv urls u s →
      ∃ sched s', lrun s sched = some s' ∧ allReturned s' := by
  intro k
  induction k with
  | zero =>
    intro s hk hi
    by_cases hd : allReturned s
    · exact ⟨[], s, rfl, hd⟩
    · obtain ⟨a, s1, hs⟩ := lock_progress s hi.excl hd
      have := lockMeasure_step s s1 (LStep_of_lstep s s1 a hs)
      omega
  | succ k ih =>
    intro s hk hi
    by_cases hd : allReturned s
    · exact ⟨[], s, rfl, hd⟩
    · obtain ⟨a, s1, hs⟩ := lock_progress s hi.excl hd
      have hstep := LStep_of_lstep s s1 a hs
      have hlt := lockMeasure_step s s1 hstep
      obtain ⟨sched, s', hr, hd'⟩ := ih s1 (by omega) (LockInv_step urls u s s1 hstep hi)
      exact ⟨a :: sched, s', by rw [lrun_cons, hs]; exact hr, hd'⟩

/-- When every caller has returned, one caller on `u` has returned `false` and every other
caller on `u` has returned `true`. -/
theorem lock_done_winner (urls : List String) (u : String) (s : LockState)
    (hi : LockInv urls u s) (hmem : u ∈ urls) (hd : allReturned s) :
    s.fetched u = some true ∧
    ∃ i : Nat, s.callers[i]? = some ⟨u, LockPc.ret false⟩ ∧
      ∀ (j : Nat) (c : Caller), s.callers[j]? = some c → c.url = u → j ≠ i →
        c.pc = LockPc.ret true := by
  have hm : s.fetched u = some true := by
    by_contra hm
    rw [← hi.urls, List.mem_map] at hmem
    obtain ⟨c, hc, hcu⟩ := hmem
    have hret := hd c hc
    rcases hi.first.1 hm c hc hcu with e | e | e <;> rw [e] at hret <;>
      simp [LockPc.isRet] at hret
  obtain ⟨i, ⟨c, hc, hcu, hcpc⟩, hoth⟩ := hi.first.2 hm
  refine ⟨hm, i, ?_, ?_⟩
  · have hret := hd c (List.mem_iff_getElem?.mpr ⟨i, hc⟩)
    obtain ⟨url, pc⟩ := c
    simp only [] at hcu hcpc hret
    subst hcu
    rcases hcpc with e | e
    · rw [e] at hret
      simp [LockPc.isRet] at hret
    · rw [hc, e]
  · intro j c' hj hu hne
    have hret := hd c' (List.mem_iff_getElem?.mpr ⟨j, hj⟩)
    have hrf := hoth j c' hj hu hne
    cases hpc : c'.pc with
    | lock => rw [hpc] at hret; simp [LockPc.isRet] at hret
    | read => rw [hpc] at hret; simp [LockPc.isRet] at hret
    | write r => rw [hpc] at hret; simp [LockPc.isRet] at hret
    | unlock r => rw [hpc] at hret; simp [LockPc.isRet] at hret
    | ret r =>
      rw [hpc] at hrf
      cases r with
      | false => simp [LockPc.readFalse] at hrf
      | true => rfl

/-! # The claims -/

/-- C1: for every finite fetcher and seed, `Serial` started on the empty map returns (with
any fuel above the number of unmarked ids of the graph, always with the same result), and
whenever it returns, the ids marked `true` in `fetched` are exactly the ids reachable from
the seed along edges of the fetcher. -/
theorem Serial_marks_exactly_reachable (f : fakeFetcher) (seed : String) :
    (∃ st', ∀ fuel, unmarkedCount f FetchedMap.empty < fuel →
      Serial fuel seed f ⟨FetchedMap.empty, []⟩ = some st') ∧
    (∀ fuel st', Serial fuel seed f ⟨FetchedMap.empty, []⟩ = some st' →
      ∀ v, st'.fetched v = some true ↔ Reach f seed v) :=
  ⟨Serial_result f seed ⟨FetchedMap.empty, []⟩,
   fun fuel st' h v => Serial_marked_iff_reach f seed fuel st' h v⟩

/-- C1, at the fixture of the source: the run returns and marks what is reachable. -/
theorem Serial_marks_exactly_reachable_witness :
    ∃ st', Serial 7 "http://golang.org/" fetcher ⟨FetchedMap.empty, []⟩ = some st' ∧
      ∀ v, st'.fetched v = some true ↔ Reach fetcher "http://golang.org/" v :=
  ⟨_, rfl, (Serial_marks_exactly_reachable fetcher "http://golang.org/").2 7 _ rfl⟩

/-- C2: for every finite fetcher and seed, `Serial` started on the empty map returns, and
the sequence of `Fetch` calls it made contains every id reachable from the seed exactly
once and no id that is not reachable. -/
theorem Serial_fetches_each_reachable_once (f : fakeFetcher) (seed : String) :
    (∃ st', ∀ fuel, unmarkedCount f FetchedMap.empty < fuel →
      Serial fuel seed f ⟨FetchedMap.empty, []⟩ = some st') ∧
    (∀ fuel st', Serial fuel seed f ⟨FetchedMap.empty, []⟩ = some st' →
      (∀ v, Reach f seed v → st'.calls.count v = 1) ∧
      (∀ v, ¬ Reach f seed v → st'.calls.count v = 0)) := by
  refine ⟨Serial_result f seed ⟨FetchedMap.empty, []⟩, ?_⟩
  intro fuel st' h
  obtain ⟨hnd, hmem⟩ := Serial_calls_spec f seed fuel st' h
  exact ⟨fun v hv => List.count_eq_one_of_mem hnd ((hmem v).mpr hv),
    fun v hv => List.count_eq_zero_of_not_mem (fun hc => hv ((hmem v).mp hc))⟩

/-- C2, at the fixture of the source. -/
theorem Serial_fetches_each_reachable_once_witness :
    ∃ st', Serial 7 "http://golang.org/" fetcher ⟨FetchedMap.empty, []⟩ = some st' ∧
      (∀ v, Reach fetcher "http://golang.org/" v → st'.calls.count v = 1) ∧
      (∀ v, ¬ Reach fetcher "http://golang.org/" v → st'.calls.count v = 0) :=
  ⟨_, rfl, (Serial_fetches_each_reachable_once fetcher "http://golang.org/").2 7 _ rfl⟩

/-- C3: for every finite fetcher (cycles and self-loops included), every url and every
initial map, `Serial` terminates: any fuel above the number of ids of the graph not yet
marked yields the result; a recursive call is only made after marking an unmarked id of
the graph, which strictly lowers that number, and no call ever raises it. -/
theorem Serial_terminates (f : fakeFetcher) (url : String) (st : SerialState) :
    (∃ st', ∀ fuel, unmarkedCount f st.fetched < fuel → Serial fuel url f st = some st') ∧
    (∀ res, f.lookup url = some res → st.fetched url ≠ some true →
      unmarkedCount f (st.visit url).fetched < unmarkedCount f st.fetched) ∧
    (∀ fuel st', Serial fuel url f st = some st' →
      unmarkedCount f st'.fetched ≤ unmarkedCount f st.fetched) :=
  ⟨Serial_result f url st,
   fun res hl hm => unmarkedCount_visit_lt f st.fetched url (key_mem_graphIds f url res hl) hm,
   fun fuel st' h => unmarkedCount_mono f st.fetched st'.fetched
     (Serial_post f fuel url st st' h).mono⟩

/-- C3, on a graph with a self-loop and a cycle, from a map that already marks one id. -/
theorem Serial_terminates_witness :
    (∃ st', ∀ fuel, 2 < fuel →
      Serial fuel "a" [("a", ⟨"", ["a", "b"]⟩), ("b", ⟨"", ["a", "c"]⟩)]
        ⟨FetchedMap.empty.set "c" true, []⟩ = some st') :=
  (Serial_terminates [("a", ⟨"", ["a", "b"]⟩), ("b", ⟨"", ["a", "c"]⟩)] "a"
    ⟨FetchedMap.empty.set "c" true, []⟩).1.imp
    (fun _ h fuel hf => h fuel (lt_of_le_of_lt (by decide) hf))

/-- C4: for every `fetchState` and url, `testAndSet(url)` returns `false` when the url is
absent from the map or mapped to `false`, returns `true` when it is mapped to `true`, and in
both cases leaves the url mapped to `true`. -/
theorem testAndSet_spec (fs : fetchState) (url : String) :
    ((fs.fetched url = none ∨ fs.fetched url = some false) → (fs.testAndSet url).1 = false) ∧
    (fs.fetched url = some true → (fs.testAndSet url).1 = true) ∧
    (fs.testAndSet url).2.fetched url = some true :=
  ⟨fun h => (FetchedMap.get_eq_false _ _).mpr h,
   fun h => (FetchedMap.get_eq_true _ _).mpr h,
   FetchedMap.set_same _ _ _⟩

/-- C4, at an absent, a `false` and a `true` entry. -/
theorem testAndSet_spec_witness :
    ((makeState.testAndSet "a").1 = false ∧
      (fetchState.testAndSet ⟨FetchedMap.empty.set "a" false⟩ "a").1 = false) ∧
    (fetchState.testAndSet ⟨FetchedMap.empty.set "a" true⟩ "a").1 = true ∧
    (makeState.testAndSet "a").2.fetched "a" = some true :=
  ⟨⟨(testAndSet_spec makeState "a").1 (Or.inl rfl),
    (testAndSet_spec ⟨FetchedMap.empty.set "a" false⟩ "a").1 (Or.inr (by decide))⟩,
   (testAndSet_spec ⟨FetchedMap.empty.set "a" true⟩ "a").2.1 (by decide),
   (testAndSet_spec makeState "a").2.2⟩

/-- C5: on a state from `makeState`, in every finite sequence of `testAndSet` calls the
call at position `i` returns `false` exactly when its url does not occur at an earlier
position (so the first call on a url returns `false` and every later one `true`); and a
url mapped to `true` after some prefix of the calls is still mapped to `true` after any
further calls, on whatever urls. -/
theorem testAndSet_first_call_only (us : List String) :
    (∀ i, (testAndSetAll makeState us).1[i]? =
      us[i]?.map (fun u => decide (u ∈ us.take i))) ∧
    (∀ (vs : List String) (u : String),
      (testAndSetAll makeState us).2.fetched u = some true →
      (testAndSetAll makeState (us ++ vs)).2.fetched u = some true) := by
  constructor
  · intro i
    rw [testAndSetAll_flags]
    simp [makeState, FetchedMap.get, FetchedMap.empty]
  · intro vs u h
    rw [testAndSetAll_append]
    exact testAndSetAll_mono vs _ u h

/-- C5, on the calls `a, b, a, c, b`. -/
theorem testAndSet_first_call_only_witness :
    (testAndSetAll makeState ["a", "b", "a", "c", "b"]).1 = [false, false, true, false, true] ∧
    (testAndSetAll makeState (["a", "b"] ++ ["a", "c", "b"])).2.fetched "a" = some true :=
  ⟨by decide,
   (testAndSet_first_call_only ["a", "b"]).2 ["a", "c", "b"] "a" (by decide)⟩

/-- C6: let `x` be unknown to `f`, and let `f'` agree with `f` except that it maps `x` to an
empty child list. Then `Serial`, from every seed and initial state and with every fuel,
yields the same final map and the same sequence of fetched ids under `f` and under `f'`;
`Serial` always returns; a call on an unmarked `x` returns `x` marked and fetched with no
recursive call (it needs no fuel for one); and `worker` sends the same message under both. -/
theorem fetch_failure_is_childless (f f' : fakeFetcher) (x body : String)
    (hx : f.lookup x = none) (hx' : f'.lookup x = some ⟨body, []⟩)
    (hother : ∀ y, y ≠ x → f'.lookup y = f.lookup y) :
    (∀ fuel seed st, Serial fuel seed f st = Serial fuel seed f' st) ∧
    (∀ seed st, ∃ st', ∀ fuel, unmarkedCount f st.fetched < fuel →
      Serial fuel seed f st = some st') ∧
    (∀ st, st.fetched x ≠ some true → Serial 1 x f st = some (st.visit x)) ∧
    (∀ u, worker u f = worker u f') ∧ worker x f = [] :=
  ⟨Serial_congr_missing f f' x body hx hx' hother,
   fun seed st => Serial_result f seed st,
   fun st hm => Serial_succ_missing 0 x f st hm hx,
   worker_congr_missing f f' x body hx hx' hother,
   by simp [worker, fakeFetcher.Fetch, hx]⟩

/-- C6, with `b` unknown to the fetcher `a -> [b]` and then added with no child. -/
theorem fetch_failure_is_childless_witness :
    (∀ fuel seed st, Serial fuel seed [("a", ⟨"", ["b"]⟩)] st =
      Serial fuel seed [("b", ⟨"", []⟩), ("a", ⟨"", ["b"]⟩)] st) ∧
    worker "b" [("a", ⟨"", ["b"]⟩)] = [] :=
  have h := fetch_failure_is_childless [("a", ⟨"", ["b"]⟩)]
    [("b", ⟨"", []⟩), ("a", ⟨"", ["b"]⟩)] "b" "" (by decide) (by decide)
    (by
      intro y hy
      have hb : (y == "b") = false := by simpa using hy
      simp [List.lookup, hb])
  ⟨h.1, h.2.2.2.2⟩

/-- C7: on every finite fetcher and seed, every partial execution of `ConcurrentChannel` (any
order of worker fetches and message deliveries) can be run on to the coordinator's return;
`Serial` from the empty map returns; and whenever the coordinator has returned, its
`fetched` map marks exactly the ids that the map left by `Serial` marks. -/
theorem ConcurrentChannel_marks_as_Serial (f : fakeFetcher) (seed : String) :
    (∀ sched s, run f (ConcurrentChannel seed) sched = some s →
      ∃ sched' s', run f s sched' = some s' ∧ s'.pc = CoordPc.done) ∧
    (∃ st', ∀ fuel, unmarkedCount f FetchedMap.empty < fuel →
      Serial fuel seed f ⟨FetchedMap.empty, []⟩ = some st') ∧
    (∀ sched s fuel st', run f (ConcurrentChannel seed) sched = some s →
      s.pc = CoordPc.done → Serial fuel seed f ⟨FetchedMap.empty, []⟩ = some st' →
      ∀ v, s.fetched v = some true ↔ st'.fetched v = some true) := by
  refine ⟨?_, Serial_result f seed ⟨FetchedMap.empty, []⟩, ?_⟩
  · intro sched s h
    exact chan_completes f seed _ s (le_refl _) (reachable_inv f seed sched s h)
  · intro sched s fuel st' h hd hser v
    rw [chan_done_marked f seed s (reachable_inv f seed sched s h) hd v,
      Serial_marked_iff_reach f seed fuel st' hser v]

/-- C7, on the graph `a -> [b, b]`, `b -> [a]` with a complete schedule. -/
theorem ConcurrentChannel_marks_as_Serial_witness :
    ∃ s st', run cycleFetcher (ConcurrentChannel "a") cycleSchedule = some s ∧
      s.pc = CoordPc.done ∧
      Serial 3 "a" cycleFetcher ⟨FetchedMap.empty, []⟩ = some st' ∧
      ∀ v, s.fetched v = some true ↔ st'.fetched v = some true :=
  ⟨_, _, rfl, rfl, rfl,
    (ConcurrentChannel_marks_as_Serial cycleFetcher "a").2.2 cycleSchedule _ 3 _ rfl rfl rfl⟩

/-- C8: in every state reached by an execution of `ConcurrentChannel`, whatever the order
of worker fetches and message deliveries: a worker has been spawned for an id exactly when
the id is marked, and then once; every spawned worker is for an id reachable from the seed;
the `Fetch` calls made are calls of spawned workers, at most one each; the execution can be
run on to the coordinator's return; and in that final state, as in every state in which the
coordinator has returned, exactly one worker has been spawned and exactly one `Fetch` call
made for every reachable id (the seed included), and none for any other id. -/
theorem coordinator_spawns_each_reachable_once (f : fakeFetcher) (seed : String)
    (sched : List Action) (s : ChanState)
    (h : run f (ConcurrentChannel seed) sched = some s) :
    (∀ v, s.spawned.count v ≤ 1) ∧
    (∀ v, v ∈ s.spawned → Reach f seed v) ∧
    (∀ v, s.calls.count v ≤ s.spawned.count v) ∧
    (s.pc = CoordPc.done →
      (∀ v, Reach f seed v → s.spawned.count v = 1 ∧ s.calls.count v = 1) ∧
      (∀ v, ¬ Reach f seed v → s.spawned.count v = 0 ∧ s.calls.count v = 0)) ∧
    (∀ v, s.spawned.count v = if s.fetched v = some true then 1 else 0) ∧
    (∃ sched' s', run f s sched' = some s' ∧ s'.pc = CoordPc.done ∧
      run f (ConcurrentChannel seed) (sched ++ sched') = some s' ∧
      (∀ v, Reach f seed v → s'.spawned.count v = 1 ∧ s'.calls.count v = 1) ∧
      (∀ v, ¬ Reach f seed v → s'.spawned.count v = 0 ∧ s'.calls.count v = 0)) := by
  have hdone : ∀ (t : ChanState), ChanInv f seed t → t.pc = CoordPc.done →
      (∀ v, Reach f seed v → t.spawned.count v = 1 ∧ t.calls.count v = 1) ∧
      (∀ v, ¬ Reach f seed v → t.spawned.count v = 0 ∧ t.calls.count v = 0) := by
    intro t hi hd
    obtain ⟨hnd, hiff, _⟩ := hi.spawn
    have hcalls := chan_done_calls t hi.count hi.spawn hd
    constructor
    · intro v hv
      have hmem : v ∈ t.spawned := (hiff v).mpr ((chan_done_marked f seed t hi hd v).mpr hv)
      have h1 := List.count_eq_one_of_mem hnd hmem
      exact ⟨h1, by rw [hcalls.count_eq v]; exact h1⟩
    · intro v hv
      have hmem : v ∉ t.spawned :=
        fun hc => hv ((chan_done_marked f seed t hi hd v).mp ((hiff v).mp hc))
      have h0 := List.count_eq_zero_of_not_mem hmem
      exact ⟨h0, by rw [hcalls.count_eq v]; exact h0⟩
  have hi := reachable_inv f seed sched s h
  obtain ⟨hnd, hiff, hperm⟩ := hi.spawn
  refine ⟨fun v => List.nodup_iff_count_le_one.mp hnd v,
    fun v hv => hi.sound.1 v ((hiff v).mp hv), ?_, hdone s hi, ?_, ?_⟩
  · intro v
    rw [← hperm.count_eq v, List.count_append]
    omega
  · intro v
    by_cases hm : s.fetched v = some true
    · rw [if_pos hm]
      exact List.count_eq_one_of_mem hnd ((hiff v).mpr hm)
    · rw [if_neg hm]
      exact List.count_eq_zero_of_not_mem (fun hc => hm ((hiff v).mp hc))
  · obtain ⟨sched', s', hr, hd⟩ := chan_completes f seed _ s (le_refl _) hi
    have hfull : run f (ConcurrentChannel seed) (sched ++ sched') = some s' := by
      rw [run_append, h]
      exact hr
    have hi' := reachable_inv f seed (sched ++ sched') s' hfull
    exact ⟨sched', s', hr, hd, hfull, hdone s' hi' hd⟩

/-- C8, on the graph `a -> [b, b]`, `b -> [a]`: `b` comes twice in one message and `a` in
two messages, and each gets one worker and one `Fetch` call; from the start the execution
can be run to such a final state. -/
theorem coordinator_spawns_each_reachable_once_witness :
    (∃ s, run cycleFetcher (ConcurrentChannel "a") cycleSchedule = some s ∧
      s.spawned = ["a", "b"] ∧ s.calls = ["a", "b"] ∧
      (∀ v, Reach cycleFetcher "a" v → s.spawned.count v = 1 ∧ s.calls.count v = 1) ∧
      (∀ v, ¬ Reach cycleFetcher "a" v → s.spawned.count v = 0 ∧ s.calls.count v = 0)) ∧
    (∃ sched' s', run cycleFetcher (ConcurrentChannel "a") sched' = some s' ∧
      s'.pc = CoordPc.done ∧
      (∀ v, Reach cycleFetcher "a" v → s'.spawned.count v = 1 ∧ s'.calls.count v = 1) ∧
      (∀ v, ¬ Reach cycleFetcher "a" v → s'.spawned.count v = 0 ∧ s'.calls.count v = 0)) :=
  ⟨⟨_, rfl, rfl, rfl,
    (coordinator_spawns_each_reachable_once cycleFetcher "a" cycleSchedule _ rfl).2.2.2.1 rfl⟩,
   (coordinator_spawns_each_reachable_once cycleFetcher "a" [] _ rfl).2.2.2.2.2.elim
    (fun sched' hx => hx.elim (fun s' hs => ⟨sched', s', hs.2.2.1, hs.2.1, hs.2.2.2⟩))⟩

/-- C9: in every state reached by an execution of `ConcurrentChannel`, `n ≥ 0`; `n = 0`
holds exactly in the state in which the coordinator has left its loop, a state from which
nothing moves, so `n > 0` while a message is processed and while the coordinator waits to
receive; among the states of an execution `n = 0` occurs exactly once when the execution
ends with the coordinator returned and never otherwise; and every execution can be run on
to that state. -/
theorem coordinator_counter_zero_once (f : fakeFetcher) (seed : String) :
    (∀ sched s, run f (ConcurrentChannel seed) sched = some s →
      0 ≤ s.n ∧ (s.n = 0 ↔ s.pc = CoordPc.done) ∧ (s.pc ≠ CoordPc.done → 0 < s.n) ∧
      (s.n = 0 → ∀ a, step f s a = none)) ∧
    (∀ sched tr, runStates f (ConcurrentChannel seed) sched = some tr →
      ∃ s', run f (ConcurrentChannel seed) sched = some s' ∧ tr.getLast? = some s' ∧
        (tr.map (fun t => t.n)).count 0 = if s'.pc = CoordPc.done then 1 else 0) ∧
    (∀ sched s, run f (ConcurrentChannel seed) sched = some s →
      ∃ sched' s', run f s sched' = some s' ∧ s'.pc = CoordPc.done) := by
  refine ⟨?_, ?_, ?_⟩
  · intro sched s h
    have hc := (reachable_inv f seed sched s h).count
    exact ⟨CountInv_nonneg s hc, CountInv_zero_iff s hc, CountInv_pos s hc,
      fun h0 a => chan_done_stuck f s hc ((CountInv_zero_iff s hc).mp h0) a⟩
  · intro sched tr h
    exact runStates_count_zero f seed sched _ tr h (ChanInv_init f seed)
  · intro sched s h
    exact chan_completes f seed _ s (le_refl _) (reachable_inv f seed sched s h)

/-- C9, on the graph `a -> [b, b]`, `b -> [a]`: the values of `n` along a complete run. -/
theorem coordinator_counter_zero_once_witness :
    (runStates cycleFetcher (ConcurrentChannel "a") cycleSchedule).map
        (fun tr => tr.map (fun t => t.n)) = some [1, 1, 2, 1, 1, 1, 2, 2, 1, 1, 1, 1, 0] ∧
    ∃ s', run cycleFetcher (ConcurrentChannel "a") cycleSchedule = some s' ∧
      0 ≤ s'.n ∧ (s'.n = 0 ↔ s'.pc = CoordPc.done) :=
  ⟨by decide, _, rfl,
    ((coordinator_counter_zero_once cycleFetcher "a").1 cycleSchedule _ rfl).1,
    ((coordinator_counter_zero_once cycleFetcher "a").1 cycleSchedule _ rfl).2.1⟩

/-- C10: for every finite fetcher and seed, an execution of `ConcurrentChannel` has at most
`chanMeasure` steps; in every reached state in which the coordinator has not returned some
move is enabled, and when it is about to receive, `n > 0` and a worker is running or a
sender is blocked; the decrement at the end of a message yields `0` exactly when no worker
runs and no sender is blocked, and then the coordinator returns leaving none behind; and
every execution can be run on to the coordinator's return. -/
theorem ConcurrentChannel_terminates (f : fakeFetcher) (seed : String) :
    (∀ sched s, run f (ConcurrentChannel seed) sched = some s →
      sched.length ≤ chanMeasure f seed (ConcurrentChannel seed)) ∧
    (∀ sched s, run f (ConcurrentChannel seed) sched = some s →
      (s.pc ≠ CoordPc.done → ∃ a s', step f s a = some s') ∧
      (s.pc = CoordPc.recv → 0 < s.n ∧ (s.running ≠ [] ∨ s.sending ≠ [])) ∧
      (s.pc = CoordPc.proc [] → (s.n - 1 = 0 ↔ s.running = [] ∧ s.sending = [])) ∧
      (s.n = 0 ↔ s.pc = CoordPc.done) ∧
      (s.pc = CoordPc.done → s.running = [] ∧ s.sending = [])) ∧
    (∀ sched s, run f (ConcurrentChannel seed) sched = some s →
      ∃ sched' s', run f s sched' = some s' ∧ s'.pc = CoordPc.done) := by
  refine ⟨?_, ?_, ?_⟩
  · intro sched s h
    have := (run_inv f seed sched _ s h (ChanInv_init f seed)).2
    omega
  · intro sched s h
    have hc := (reachable_inv f seed sched s h).count
    exact ⟨chan_progress f s hc, CountInv_recv s hc, CountInv_proc_nil s hc,
      CountInv_zero_iff s hc, CountInv_done s hc⟩
  · intro sched s h
    exact chan_completes f seed _ s (le_refl _) (reachable_inv f seed sched s h)

/-- C10, on the graph `a -> [b, b]`, `b -> [a]`: a complete run of 12 steps, within the
bound 14, ends with nothing running and nothing pending. -/
theorem ConcurrentChannel_terminates_witness :
    ∃ s, run cycleFetcher (ConcurrentChannel "a") cycleSchedule = some s ∧
      cycleSchedule.length ≤ 14 ∧ s.pc = CoordPc.done ∧ s.running = [] ∧ s.sending = [] :=
  ⟨_, rfl,
    le_of_le_of_eq ((ConcurrentChannel_terminates cycleFetcher "a").1 cycleSchedule _ rfl)
      (by decide),
    rfl,
    ((ConcurrentChannel_terminates cycleFetcher "a").2.1 cycleSchedule _ rfl).2.2.2.2 rfl⟩

/-- C12: for every `fakeFetcher` and url: when the url is a key, `Fetch` returns the urls
stored for it with a `nil` error and prints `found:   <url>`; when it is not a key, `Fetch`
returns no url with the error `not found: <url>` and prints `missing: <url>`; so `Fetch`
fails exactly when the url is not a key. (`Fetch` only reads `f`: it is a function of `f`
and the url, with no fetcher among its results.) -/
theorem Fetch_found_or_missing (f : fakeFetcher) (url : String) :
    (url ∈ f.map Prod.fst → ∃ res, f.lookup url = some res ∧ (url, res) ∈ f ∧
      f.Fetch url = { urls := res.urls, err := none, out := "found:   " ++ url ++ "\n" }) ∧
    (url ∉ f.map Prod.fst →
      f.Fetch url = { urls := [], err := some ("not found: " ++ url),
                      out := "missing: " ++ url ++ "\n" }) ∧
    ((f.Fetch url).err ≠ none ↔ url ∉ f.map Prod.fst) := by
  refine ⟨?_, ?_, ?_⟩
  · intro hk
    cases hl : f.lookup url with
    | none => exact absurd hk ((lookup_eq_none_iff_not_key f url).mp hl)
    | some res => exact ⟨res, rfl, lookup_mem f url res hl, by simp [fakeFetcher.Fetch, hl]⟩
  · intro hk
    simp [fakeFetcher.Fetch, (lookup_eq_none_iff_not_key f url).mpr hk]
  · rw [Fetch_err_iff, lookup_eq_none_iff_not_key]

/-- C12, on the fixture of the source: a known and an unknown url. -/
theorem Fetch_found_or_missing_witness :
    fetcher.Fetch "http://golang.org/pkg/os/" =
      { urls := ["http://golang.org/", "http://golang.org/pkg/"], err := none,
        out := "found:   http://golang.org/pkg/os/\n" } ∧
    fetcher.Fetch "http://golang.org/cmd/" =
      { urls := [], err := some "not found: http://golang.org/cmd/",
        out := "missing: http://golang.org/cmd/\n" } :=
  ⟨by decide,
   (Fetch_found_or_missing fetcher "http://golang.org/cmd/").2.1 (by decide)⟩

/-- C14: for every store, keys `k`, `k'`, value `v` and replies handed in, whatever they
hold: `Get(k')` overwrites the reply with the value stored for `k'`, with the empty string
when the store holds nothing for `k'`; after `Put(k, v)` a `Get(k')` yields `v` when
`k' = k` and otherwise what a `Get(k')` before the `Put` yields; `Put(k, v)` stores `v` at
`k` and leaves every other key as it was; on the fresh store, after any sequence of puts,
`Get(k')` yields the value of the last put on `k'`, or the empty string if there was none;
both handlers return a `nil` error, and `Get` leaves the data unchanged (as `Put` leaves its
reply). -/
theorem KV_put_get (kv : KV) (k k' v : String) (gr gr' : GetReply) (pr : PutReply) :
    ((kv.Put ⟨k, v⟩ pr).1.Get ⟨k'⟩ gr).2.1.Value =
      (if k' = k then v else (kv.Get ⟨k'⟩ gr').2.1.Value) ∧
    (kv.data k' = none → (kv.Get ⟨k'⟩ gr).2.1 = ⟨""⟩) ∧
    (∀ w, kv.data k' = some w → (kv.Get ⟨k'⟩ gr).2.1 = ⟨w⟩) ∧
    (kv.Put ⟨k, v⟩ pr).1.data k' = (if k' = k then some v else kv.data k') ∧
    (∀ as : List PutArgs, ((KV.new.putAll as).Get ⟨k'⟩ gr).2.1.Value =
      ((as.reverse.find? (fun a => a.Key = k')).map (fun a => a.Value)).getD "") ∧
    (kv.Get ⟨k'⟩ gr).2.2 = none ∧ (kv.Put ⟨k, v⟩ pr).2.2 = none ∧
    (kv.Get ⟨k'⟩ gr).1 = kv ∧ (kv.Put ⟨k, v⟩ pr).2.1 = pr := by
  refine ⟨?_, ?_, ?_, rfl, ?_, rfl, rfl, rfl, rfl⟩
  · by_cases h : k' = k
    · simp [KV.Get, KV.Put, h]
    · simp [KV.Get, KV.Put, h]
  · intro h
    simp [KV.Get, h]
  · intro w h
    simp [KV.Get, h]
  · intro as
    rw [KV.Get_putAll]
    rfl

/-- C14, on the requests of `main`, `put("subject", "6.5840")` and then `get("subject")`,
and on a key never put, each time with a reply that comes in holding `stale`. -/
theorem KV_put_get_witness :
    ((KV.new.Put ⟨"subject", "6.5840"⟩ {}).1.Get ⟨"subject"⟩ ⟨"stale"⟩).2.1.Value = "6.5840" ∧
    ((KV.new.putAll [⟨"subject", "6.5840"⟩]).Get ⟨"other"⟩ ⟨"stale"⟩).2.1.Value = "" ∧
    (KV.new.Get ⟨"other"⟩ ⟨"stale"⟩).2.1 = ⟨""⟩ :=
  ⟨(KV_put_get KV.new "subject" "subject" "6.5840" ⟨"stale"⟩ ⟨""⟩ {}).1.trans (by decide),
   ((KV_put_get KV.new "subject" "other" "6.5840" ⟨"stale"⟩ ⟨""⟩ {}).2.2.2.2.1
      [⟨"subject", "6.5840"⟩]).trans (by decide),
   (KV_put_get KV.new "subject" "other" "6.5840" ⟨"stale"⟩ ⟨""⟩ {}).2.1 rfl⟩

/-- C17, as stated, fails at the very first receive: the coordinator is about to receive
with `n = 1`, while no worker has been spawned, so that no dispatched fetch is awaiting
consumption. -/
theorem counter_not_outstanding_at_start :
    run cycleFetcher (ConcurrentChannel "a") [] = some (ConcurrentChannel "a") ∧
    (ConcurrentChannel "a").pc = CoordPc.recv ∧
    (ConcurrentChannel "a").spawned = [] ∧
    (ConcurrentChannel "a").n ≠ outstandingFetches [] (ConcurrentChannel "a") :=
  ⟨rfl, rfl, rfl, by decide⟩

/-- C17, amended: at every point at which the coordinator is about to receive, `n` equals
the number of fetches dispatched (workers spawned) whose result message it has not yet
consumed, plus one as long as the initial message holding the seed has not been consumed;
that is, `n` is the number of workers still running plus the number of senders blocked on
the channel. -/
theorem counter_counts_unconsumed_senders (f : fakeFetcher) (seed : String)
    (sched : List Action) (s : ChanState)
    (h : run f (ConcurrentChannel seed) sched = some s) (hpc : s.pc = CoordPc.recv) :
    s.n = outstandingFetches sched s + (if recvCount sched = 0 then 1 else 0) ∧
    s.n = (s.running.length : Int) + s.sending.length := by
  obtain ⟨h1, h2⟩ := recv_counter f seed sched s h hpc
  refine ⟨?_, h2⟩
  rw [h1]
  unfold outstandingFetches
  by_cases h0 : recvCount sched = 0
  · simp [h0]
  · rw [if_neg h0]
    have : 1 ≤ recvCount sched := Nat.one_le_iff_ne_zero.mpr h0
    push_cast [Nat.cast_sub this]
    omega

/-- C17, amended, after the seed's message has been processed on `a -> [b, b]`, `b -> [a]`:
one worker spawned, one message consumed, `n = 1`. -/
theorem counter_counts_unconsumed_senders_witness :
    ∃ s, run cycleFetcher (ConcurrentChannel "a") [Action.recv 0, Action.coord, Action.coord]
        = some s ∧ s.pc = CoordPc.recv ∧ s.n = 1 ∧
      s.n = outstandingFetches [Action.recv 0, Action.coord, Action.coord] s +
        (if recvCount [Action.recv 0, Action.coord, Action.coord] = 0 then 1 else 0) :=
  ⟨_, rfl, rfl, rfl,
    (counter_counts_unconsumed_senders cycleFetcher "a"
      [Action.recv 0, Action.coord, Action.coord] _ rfl rfl).1⟩

/-- C18: for every coordinator state and every received message `urls`, the processing of
that message (the `urls.length + 1` steps of the coordinator that follow the receive)
changes the counter to `n + d - 1`, where `d` is the number of distinct ids of `urls`
unmarked before; it marks exactly those ids, spawns one worker for each of them and no
other, and leaves every other entry of `fetched` as it was; it goes on to receive unless the
counter has reached `0`. -/
theorem coordinator_message_effect (f : fakeFetcher) (n : Int) (fetched : FetchedMap)
    (urls running : List String) (sending : List (List String)) (calls spawned : List String) :
    ∃ s', run f ⟨n, fetched, CoordPc.proc urls, running, sending, calls, spawned⟩
        (List.replicate (urls.length + 1) Action.coord) = some s' ∧
      s'.n = n + (newIds fetched urls).length - 1 ∧
      (∀ v, v ∈ newIds fetched urls → s'.fetched v = some true) ∧
      (∀ v, v ∉ newIds fetched urls → s'.fetched v = fetched v) ∧
      (∃ new, new.Perm (newIds fetched urls) ∧ s'.spawned = spawned ++ new ∧
        s'.running = running ++ new) ∧
      s'.pc = (if s'.n = 0 then CoordPc.done else CoordPc.recv) ∧
      s'.sending = sending ∧ s'.calls = calls := by
  obtain ⟨new, fetched', hrun, hnd, hmem, hfet⟩ :=
    coord_message f urls n fetched running sending calls spawned
  obtain ⟨hnd', hmem'⟩ := newIds_spec fetched urls
  have hperm : new.Perm (newIds fetched urls) :=
    (List.perm_ext_iff_of_nodup hnd hnd').mpr (fun v => (hmem v).trans (hmem' v).symm)
  refine ⟨_, hrun, ?_, ?_, ?_, ⟨new, hperm, rfl, rfl⟩, rfl, rfl, rfl⟩
  · show n + (new.length : Int) - 1 = n + ((newIds fetched urls).length : Int) - 1
    rw [hperm.length_eq]
  · intro v hv
    show fetched' v = some true
    rw [hfet v, if_pos (hperm.mem_iff.mpr hv)]
  · intro v hv
    show fetched' v = fetched v
    rw [hfet v, if_neg (fun hc => hv (hperm.mem_iff.mp hc))]

/-- C18, on the message `b, b, a, c` received with `n = 2` and `a` marked: two new ids, the
counter becomes `3`. -/
theorem coordinator_message_effect_witness :
    ∃ s', run cycleFetcher
        ⟨2, FetchedMap.empty.set "a" true, CoordPc.proc ["b", "b", "a", "c"], [], [], [], ["a"]⟩
        (List.replicate 5 Action.coord) = some s' ∧ s'.n = 3 :=
  (coordinator_message_effect cycleFetcher 2 (FetchedMap.empty.set "a" true)
    ["b", "b", "a", "c"] [] [] [] ["a"]).imp
    (fun _ h => ⟨h.1, h.2.1.trans (by decide)⟩)

/-- C19: for every finite fetcher and seed, `Serial` from the empty map returns, and the
sequence of its `Fetch` calls is the depth-first preorder from the seed, children taken left
to right in the order served and the whole subtree of a child explored before the next
sibling (the order computed by `dfsPreorder`, whatever its fuel); on the fixture of the
source, from `http://golang.org/`, the calls are `golang.org/` (found), `pkg/` (found),
`cmd/` (missing), `pkg/fmt/` (found), `pkg/os/` (found). -/
theorem Serial_calls_depth_first :
    (∀ (f : fakeFetcher) (seed : String),
      (∃ st', ∀ fuel, unmarkedCount f FetchedMap.empty < fuel →
        Serial fuel seed f ⟨FetchedMap.empty, []⟩ = some st') ∧
      (∀ fuel st', Serial fuel seed f ⟨FetchedMap.empty, []⟩ = some st' →
        (∃ k, dfsPreorder f k [seed] [] = some st'.calls) ∧
        (∀ k r, dfsPreorder f k [seed] [] = some r → r = st'.calls))) ∧
    (∃ st', Serial 7 "http://golang.org/" fetcher ⟨FetchedMap.empty, []⟩ = some st' ∧
      st'.calls = ["http://golang.org/", "http://golang.org/pkg/", "http://golang.org/cmd/",
        "http://golang.org/pkg/fmt/", "http://golang.org/pkg/os/"] ∧
      traceLines fetcher st'.calls =
        ["found:   http://golang.org/\n", "found:   http://golang.org/pkg/\n",
         "missing: http://golang.org/cmd/\n", "found:   http://golang.org/pkg/fmt/\n",
         "found:   http://golang.org/pkg/os/\n"]) := by
  refine ⟨?_, ⟨_, rfl, by decide, by decide⟩⟩
  intro f seed
  refine ⟨Serial_result f seed ⟨FetchedMap.empty, []⟩, ?_⟩
  intro fuel st' h
  obtain ⟨k, hk⟩ := Serial_dfs f fuel seed _ st' h callsInv_init [] st'.calls 0
    (dfsPreorder_nil f 0 _)
  exact ⟨⟨k, hk⟩, fun k' r hr => dfsPreorder_unique f [seed] [] r st'.calls k' k hr hk⟩

/-- C19, on the diamond `a -> [b, c]`, `b -> [d]`, `c -> [d]`: `d` is fetched below `b`,
before `c`. -/
theorem Serial_calls_depth_first_witness :
    ∃ st', Serial 4 "a" diamondFetcher ⟨FetchedMap.empty, []⟩ = some st' ∧
      st'.calls = ["a", "b", "d", "c"] ∧
      ∃ k, dfsPreorder diamondFetcher k ["a"] [] = some st'.calls :=
  ⟨_, rfl, by decide, ((Serial_calls_depth_first.1 diamondFetcher "a").2 4 _ rfl).1⟩

/-- C20: for every finite fetcher, seed and initial map `F0`, `Serial` returns; it never
unmarks an id; the ids marked at the end are those marked in `F0` together with exactly
the ids `v` to which a path leads from the seed all of whose nodes are unmarked in `F0`
and all of whose nodes but the last are known to the fetcher; and when the seed is marked
in `F0`, `Serial` makes no `Fetch` call and leaves the map as it is. -/
theorem Serial_from_any_map (f : fakeFetcher) (seed : String) (st : SerialState) :
    (∃ st', ∀ fuel, unmarkedCount f st.fetched < fuel → Serial fuel seed f st = some st') ∧
    (∀ fuel st', Serial fuel seed f st = some st' →
      (∀ v, st.fetched v = some true → st'.fetched v = some true) ∧
      (∀ v, st'.fetched v = some true ↔
        st.fetched v = some true ∨ WhiteReach f st.fetched seed v) ∧
      (st.fetched seed = some true → st' = st)) := by
  refine ⟨Serial_result f seed st, ?_⟩
  intro fuel st' h
  have hp := Serial_post f fuel seed st st' h
  refine ⟨hp.mono, ?_, ?_⟩
  · intro v
    constructor
    · exact Serial_white_sound f fuel seed st st' h v
    · rintro (hv | hv)
      · exact hp.mono v hv
      · exact Serial_white_complete f fuel seed st st' h v hv
  · intro hm
    cases fuel with
    | zero => simp [Serial] at h
    | succ fuel =>
      rw [Serial_succ_marked fuel seed f st hm] at h
      exact (Option.some.inj h).symm

/-- C20, on the diamond with `b` and `c` marked beforehand: `a` is newly marked and `d`,
reachable only through marked ids, is not; with `a` marked beforehand nothing happens. -/
theorem Serial_from_any_map_witness :
    (∃ st', Serial 4 "a" diamondFetcher
        ⟨(FetchedMap.empty.set "b" true).set "c" true, []⟩ = some st' ∧
      st'.fetched "a" = some true ∧ st'.fetched "d" = none ∧ st'.calls = ["a"] ∧
      ∀ v, st'.fetched v = some true ↔
        ((FetchedMap.empty.set "b" true).set "c" true) v = some true ∨
          WhiteReach diamondFetcher ((FetchedMap.empty.set "b" true).set "c" true) "a" v) ∧
    (∀ st', Serial 4 "a" diamondFetcher ⟨FetchedMap.empty.set "a" true, ["x"]⟩ = some st' →
      st' = ⟨FetchedMap.empty.set "a" true, ["x"]⟩) :=
  ⟨⟨_, rfl, by decide, by decide, by decide,
     ((Serial_from_any_map diamondFetcher "a"
       ⟨(FetchedMap.empty.set "b" true).set "c" true, []⟩).2 4 _ rfl).2.1⟩,
   fun st' h => ((Serial_from_any_map diamondFetcher "a"
       ⟨FetchedMap.empty.set "a" true, ["x"]⟩).2 4 st' h).2.2 (by decide)⟩

/-- C11: `ConcurrentMutex` is a transition system over calls whose `testAndSet` is one atomic
step, run under any interleaving. On every finite fetcher and seed, from `makeState`: an
interleaving has at most `mutexMeasure` steps and can always be run on to the return of the
top-level call; `Serial` from the empty map returns; and whenever the top-level call has
returned, `fs.fetched` marks exactly the ids that the map left by `Serial` marks, and
`Fetch` has been called once on each of them and on no other id. -/
theorem ConcurrentMutex_marks_as_Serial (f : fakeFetcher) (seed : String) :
    (∀ sched s, mrun f (ConcurrentMutex seed makeState) sched = some s →
      sched.length ≤ mutexMeasure f seed (ConcurrentMutex seed makeState) ∧
      ∃ sched' s', mrun f s sched' = some s' ∧ s'.rootPc = some TaskPc.returned) ∧
    (∃ st', ∀ fuel, unmarkedCount f FetchedMap.empty < fuel →
      Serial fuel seed f ⟨FetchedMap.empty, []⟩ = some st') ∧
    (∀ sched s fuel st', mrun f (ConcurrentMutex seed makeState) sched = some s →
      s.rootPc = some TaskPc.returned →
      Serial fuel seed f ⟨FetchedMap.empty, []⟩ = some st' →
      (∀ v, s.fs.fetched v = some true ↔ st'.fetched v = some true) ∧
      (∀ v, st'.fetched v = some true → s.calls.count v = 1) ∧
      (∀ v, st'.fetched v ≠ some true → s.calls.count v = 0)) := by
  refine ⟨?_, Serial_result f seed ⟨FetchedMap.empty, []⟩, ?_⟩
  · intro sched s h
    have hr := mrun_inv f seed sched _ s h (MutexInv_init f seed)
    exact ⟨by omega, mutex_completes f seed _ s (le_refl _) hr.1⟩
  · intro sched s fuel st' h hd hser
    have hi := mreachable_inv f seed sched s h
    have hiff : ∀ v, s.fs.fetched v = some true ↔ st'.fetched v = some true := by
      intro v
      rw [mutex_done_marked f seed s hi hd v, Serial_marked_iff_reach f seed fuel st' hser v]
    obtain ⟨hnd, hmem⟩ := mutex_done_calls s hi.shape hi.wait hi.fetch hd
    refine ⟨hiff, ?_, ?_⟩
    · intro v hv
      exact List.count_eq_one_of_mem hnd ((hmem v).mpr ((hiff v).mpr hv))
    · intro v hv
      exact List.count_eq_zero_of_not_mem (fun hc => hv ((hiff v).mp ((hmem v).mp hc)))

/-- C11, on the graph `a -> [b, b]`, `b -> [a]` with a complete interleaving in which the
two goroutines spawned for `b` race and the one spawned for `a` loses. -/
theorem ConcurrentMutex_marks_as_Serial_witness :
    ∃ s st', mrun cycleFetcher (ConcurrentMutex "a" makeState) cycleInterleaving = some s ∧
      s.rootPc = some TaskPc.returned ∧ s.calls = ["a", "b"] ∧
      Serial 3 "a" cycleFetcher ⟨FetchedMap.empty, []⟩ = some st' ∧
      (∀ v, s.fs.fetched v = some true ↔ st'.fetched v = some true) ∧
      (∀ v, st'.fetched v = some true → s.calls.count v = 1) ∧
      (∀ v, st'.fetched v ≠ some true → s.calls.count v = 0) :=
  ⟨_, _, rfl, rfl, rfl, rfl,
    (ConcurrentMutex_marks_as_Serial cycleFetcher "a").2.2 cycleInterleaving _ 3 _ rfl rfl rfl⟩

/-- C16: in every state reached by an interleaving of `ConcurrentMutex` from `makeState`, a
call that has returned has no goroutine of its own (a call whose `parent` it is) that has
not run to its end, the end of a goroutine being its `done.Done()` after its own call has
returned; and when the top-level call has returned, every other call of the traversal
belongs to a goroutine that has ended, and no call can move any more. -/
theorem ConcurrentMutex_joins_children (f : fakeFetcher) (seed : String) (sched : List Nat)
    (s : MutexState) (h : mrun f (ConcurrentMutex seed makeState) sched = some s) :
    (∀ i ti, s.tasks[i]? = some ti →
      ti.pc = TaskPc.returned ∨ ti.pc = TaskPc.finished →
      ∀ t ∈ s.tasks, t.parent = some i → t.pc = TaskPc.finished) ∧
    (s.rootPc = some TaskPc.returned →
      (∀ j t, s.tasks[j]? = some t → j ≠ 0 → t.pc = TaskPc.finished) ∧
      (∀ i, mstep f s i = none)) := by
  have hi := mreachable_inv f seed sched s h
  refine ⟨fun i ti hti hpc => join_children s hi.wait i ti hti hpc, fun hroot => ⟨?_, ?_⟩⟩
  · exact all_finished s hi.shape hi.wait hroot
  · exact mutex_done_stuck f s hi.shape hi.wait hroot

/-- C16, on the graph `a -> [b, b]`, `b -> [a]`: after the complete interleaving the four
calls made are the top-level one, returned, and three goroutines, all ended. -/
theorem ConcurrentMutex_joins_children_witness :
    ∃ s, mrun cycleFetcher (ConcurrentMutex "a" makeState) cycleInterleaving = some s ∧
      s.rootPc = some TaskPc.returned ∧ s.tasks.length = 4 ∧
      (∀ j t, s.tasks[j]? = some t → j ≠ 0 → t.pc = TaskPc.finished) ∧
      (∀ i, mstep cycleFetcher s i = none) :=
  ⟨_, rfl, rfl, rfl,
    (ConcurrentMutex_joins_children cycleFetcher "a" cycleInterleaving _ rfl).2 rfl⟩

/-- C13: on the graph `A -> [B, C]`, `B -> [A, C]`, `C -> []` from seed `A` with nothing
marked. `Serial` returns (for every fuel above 3) with exactly `A`, `B`, `C` marked, having
called `Fetch` on `A`, `B`, `C` once each, every line printed being a `found` line. In every
state reached by any schedule of `ConcurrentChannel` and by any interleaving of
`ConcurrentMutex`: the run can be continued to the return of the coordinator, respectively of
the top-level call; `Fetch` has not been called on `D`; every line printed is a `found` line;
and once the coordinator, respectively the top-level call, has returned, exactly `A`, `B`,
`C` are marked and the `Fetch` calls made are `A`, `B`, `C`, once each, in some order. -/
theorem abc_visited_by_all_strategies :
    (∃ st', (∀ fuel, 3 < fuel →
        Serial fuel "A" abcFetcher ⟨FetchedMap.empty, []⟩ = some st') ∧
      (∀ v, st'.fetched v = some true ↔ v = "A" ∨ v = "B" ∨ v = "C") ∧
      st'.calls = ["A", "B", "C"] ∧
      traceLines abcFetcher st'.calls = ["found:   A\n", "found:   B\n", "found:   C\n"]) ∧
    (∀ sched s, run abcFetcher (ConcurrentChannel "A") sched = some s →
      (∃ sched' s', run abcFetcher s sched' = some s' ∧ s'.pc = CoordPc.done) ∧
      "D" ∉ s.calls ∧
      traceLines abcFetcher s.calls = s.calls.map (fun u => "found:   " ++ u ++ "\n") ∧
      (s.pc = CoordPc.done →
        (∀ v, s.fetched v = some true ↔ v = "A" ∨ v = "B" ∨ v = "C") ∧
        s.calls.Perm ["A", "B", "C"])) ∧
    (∀ sched s, mrun abcFetcher (ConcurrentMutex "A" makeState) sched = some s →
      (∃ sched' s', mrun abcFetcher s sched' = some s' ∧
        s'.rootPc = some TaskPc.returned) ∧
      "D" ∉ s.calls ∧
      traceLines abcFetcher s.calls = s.calls.map (fun u => "found:   " ++ u ++ "\n") ∧
      (s.rootPc = some TaskPc.returned →
        (∀ v, s.fs.fetched v = some true ↔ v = "A" ∨ v = "B" ∨ v = "C") ∧
        s.calls.Perm ["A", "B", "C"])) := by
  refine ⟨?_, ?_, ?_⟩
  · obtain ⟨st', hst, hcalls⟩ : ∃ st',
        Serial 4 "A" abcFetcher ⟨FetchedMap.empty, []⟩ = some st' ∧
          st'.calls = ["A", "B", "C"] := ⟨_, rfl, rfl⟩
    refine ⟨st', ?_, ?_, hcalls, ?_⟩
    · intro fuel hf
      exact Serial_fuel_le abcFetcher "A" _ st' 4 fuel hf hst
    · intro v
      rw [Serial_marked_iff_reach abcFetcher "A" 4 st' hst v, abc_reach]
    · rw [hcalls]
      decide
  · intro sched s h
    have hi := reachable_inv abcFetcher "A" sched s h
    obtain ⟨hnd, hiff, hperm⟩ := hi.spawn
    have hsub : ∀ u ∈ s.calls, u = "A" ∨ u = "B" ∨ u = "C" := by
      intro u hu
      have hsp : u ∈ s.spawned := hperm.subset (List.mem_append_left _ hu)
      exact (abc_reach u).mp (hi.sound.1 u ((hiff u).mp hsp))
    refine ⟨chan_completes abcFetcher "A" _ s (le_refl _) hi, ?_, ?_, ?_⟩
    · intro hD
      have := hsub "D" hD
      revert this
      decide
    · unfold traceLines
      exact List.map_congr_left (fun u hu => (abc_found u (hsub u hu)).2)
    · intro hd
      have hmk : ∀ v, s.fetched v = some true ↔ v = "A" ∨ v = "B" ∨ v = "C" :=
        fun v => (chan_done_marked abcFetcher "A" s hi hd v).trans (abc_reach v)
      have hcalls := chan_done_calls s hi.count hi.spawn hd
      refine ⟨hmk, perm_abc s.calls (hcalls.nodup_iff.mpr hnd) ?_⟩
      intro v
      rw [hcalls.mem_iff, hiff v, hmk v]
  · intro sched s h
    have hi := mreachable_inv abcFetcher "A" sched s h
    have hsub : ∀ u ∈ s.calls, u = "A" ∨ u = "B" ∨ u = "C" := by
      intro u hu
      exact (abc_reach u).mp
        (hi.sound.1 u ((hi.fetch.2 u).mp (List.mem_append_left _ hu)))
    refine ⟨mutex_completes abcFetcher "A" _ s (le_refl _) hi, ?_, ?_, ?_⟩
    · intro hD
      have := hsub "D" hD
      revert this
      decide
    · unfold traceLines
      exact List.map_congr_left (fun u hu => (abc_found u (hsub u hu)).2)
    · intro hd
      have hmk : ∀ v, s.fs.fetched v = some true ↔ v = "A" ∨ v = "B" ∨ v = "C" :=
        fun v => (mutex_done_marked abcFetcher "A" s hi hd v).trans (abc_reach v)
      obtain ⟨hnd, hmem⟩ := mutex_done_calls s hi.shape hi.wait hi.fetch hd
      exact ⟨hmk, perm_abc s.calls hnd (fun v => (hmem v).trans (hmk v))⟩

/-- C13, on a complete schedule of `ConcurrentChannel` and a complete interleaving of
`ConcurrentMutex` in which `C` is reached twice and `A` once more, each losing the race. -/
theorem abc_visited_by_all_strategies_witness :
    (∃ s, run abcFetcher (ConcurrentChannel "A") abcSchedule = some s ∧
      s.pc = CoordPc.done ∧ s.calls = ["A", "B", "C"] ∧
      (∀ v, s.fetched v = some true ↔ v = "A" ∨ v = "B" ∨ v = "C") ∧
      s.calls.Perm ["A", "B", "C"]) ∧
    (∃ s, mrun abcFetcher (ConcurrentMutex "A" makeState) abcInterleaving = some s ∧
      s.rootPc = some TaskPc.returned ∧ s.calls = ["A", "B", "C"] ∧
      (∀ v, s.fs.fetched v = some true ↔ v = "A" ∨ v = "B" ∨ v = "C") ∧
      s.calls.Perm ["A", "B", "C"]) :=
  ⟨⟨_, rfl, rfl, rfl,
      (abc_visited_by_all_strategies.2.1 abcSchedule _ rfl).2.2.2 rfl⟩,
    ⟨_, rfl, rfl, rfl,
      (abc_visited_by_all_strategies.2.2 abcInterleaving _ rfl).2.2.2 rfl⟩⟩

/-- C15: `testAndSet` run statement by statement (`Lock`, the read of the map, the write,
the deferred `Unlock`) by goroutines that interleave in any way the mutex allows, one
goroutine per entry of `urls`, on a state in which `u` is not marked and with at least one
goroutine on `u`. In every state reached: at most one goroutine is between `Lock` and
`Unlock`; the run so far and what is left add up to four statements per goroutine; the run
can be continued until every goroutine has returned; and once all have returned, `u` is
marked, one goroutine on `u` has returned `false` and every other goroutine on `u` has
returned `true`. One goroutine alone returns what the atomic `testAndSet` returns and leaves
the map that it leaves. -/
theorem testAndSet_one_false_under_mutex (fs : fetchState) (urls : List String) (u : String)
    (hu : fs.fetched u ≠ some true) (hmem : u ∈ urls) (sched : List Nat) (s : LockState)
    (h : lrun (concurrentCalls fs urls) sched = some s) :
    Excl s.callers ∧
    s.callers.map (fun c => c.url) = urls ∧
    lockMeasure s + sched.length = 4 * urls.length ∧
    (∃ sched' s', lrun s sched' = some s' ∧ allReturned s') ∧
    (allReturned s → s.fetched u = some true ∧
      ∃ i : Nat, s.callers[i]? = some ⟨u, LockPc.ret false⟩ ∧
        ∀ (j : Nat) (c : Caller), s.callers[j]? = some c → c.url = u → j ≠ i →
          c.pc = LockPc.ret true) ∧
    (∀ v, lrun (concurrentCalls fs [v]) [0, 0, 0, 0] =
      some ⟨false, (fs.testAndSet v).2.fetched, [⟨v, LockPc.ret (fs.testAndSet v).1⟩]⟩) := by
  obtain ⟨hi, hm⟩ := lrun_inv urls u sched _ s h (LockInv_init fs urls u hu)
  rw [lockMeasure_init] at hm
  exact ⟨hi.excl.1, hi.urls, hm, lock_completes urls u _ s (le_refl _) hi,
    fun hd => lock_done_winner urls u s hi hmem hd, fun v => rfl⟩

/-- C15, with four goroutines on `a`, `a`, `b`, `a` from `makeState`: the second is the one
to get `false` on `a`. -/
theorem testAndSet_one_false_under_mutex_witness :
    ∃ s, lrun (concurrentCalls makeState ["a", "a", "b", "a"]) raceSchedule = some s ∧
      s.callers = [⟨"a", LockPc.ret true⟩, ⟨"a", LockPc.ret false⟩, ⟨"b", LockPc.ret false⟩,
        ⟨"a", LockPc.ret true⟩] ∧
      s.fetched "a" = some true ∧
      ∃ i : Nat, s.callers[i]? = some ⟨"a", LockPc.ret false⟩ ∧
        ∀ (j : Nat) (c : Caller), s.callers[j]? = some c → c.url = "a" → j ≠ i →
          c.pc = LockPc.ret true :=
  ⟨_, rfl, rfl,
    (testAndSet_one_false_under_mutex makeState ["a", "a", "b", "a"] "a" (by decide)
      (by decide) raceSchedule _ rfl).2.2.2.2.1 (by unfold allReturned; decide)⟩

end Crawler
